import Mathlib

/-!
ISO 8583 message encoding with a hex-text bitmap (message.go)

A shallow embedding of `message.go`: `Message.Bytes`, `Message.encodeMti`,
`parseFields`, `parseEncodeStr`, `Message.Load`, `convertHexStringToByte`
and `hexToInt`.

Conventions.
* A Go `[]byte` and a Go `string` are both lists of byte values (`List Nat`,
  each element below 256 for a well-formed input).
* A Go `int` is an `Int`; the one place where an arbitrary `int` is added to
  another (`start += l` in `Load`) wraps at 64 bits.
* A call either returns normally, returns a Go `error`, or panics; the three
  cases are kept apart (`Exit`, `Outcome`).
* The field codecs (`Iso8583Type`), the constants `ASCII` and `BCD`, and the
  helpers `bcd` and `decodeMti` are declared in other files of the package;
  they are parameters of the development (`Iso8583Type`, `Env`).
* `calls` and `present` fields of the run records are ghost state: they
  record which codecs were invoked (and at which offset) and which field
  numbers the decoder found marked in the bitmap.
* The struct fields of a body hold distinct objects (no two of them share a
  pointer), and `Bytes` of a codec does not change the value it renders.
* The line `fmt.Println("byte to load:", bitByte)` of `Load` writes to standard
  output and has no effect on the result; it is left out.
-/

namespace Iso8583

/-! ## Errors and outcomes -/

/-- Go `error` values that `Bytes` and `Load` can return, told apart by the
place that created them. -/
inductive Err where
  /-- The error `errors.New("Error: odd length hex")` of `convertHexStringToByte`. -/
  | oddHex
  /-- The error `errors.New(fmt.Sprintf("field %d not defined", i))` of `Load`. -/
  | notDefined (i : Int)
  /-- An error returned by a field codec, passed on unchanged. -/
  | codec (e : String)
  /-- An error returned by `decodeMti`, passed on unchanged. -/
  | mti (e : String)
  deriving DecidableEq, Repr

/-- Text of the error, as `err.Error()` gives it. -/
def Err.msg : Err → String
  | .oddHex => "Error: odd length hex"
  | .notDefined i => "field " ++ toString i ++ " not defined"
  | .codec e => e
  | .mti e => e

/-- Abnormal end of a loop or call: a returned error or a run-time panic. -/
inductive Exit where
  | error (e : Err)
  | panic (msg : String)
  deriving DecidableEq, Repr

/-- Result of a call: a value, a returned error, or a run-time panic. -/
inductive Outcome (α : Type) where
  | ok (a : α)
  | error (e : Err)
  | panic (msg : String)
  deriving DecidableEq, Repr

/-- Whether the call returned normally. -/
def Outcome.isOk {α : Type} : Outcome α → Bool
  | .ok _ => true
  | _ => false

/-- Outcome carrying an abnormal exit. -/
def Exit.toOutcome {α : Type} : Exit → Outcome α
  | .error e => .error e
  | .panic s => .panic s

/-- A Go `for` loop over the values `xs` whose body may leave the function:
the body returns the new state and `some exit` when it returns or panics. -/
def forEach {α σ : Type} (body : α → σ → σ × Option Exit) : List α → σ → σ × Option Exit
  | [], s => (s, none)
  | x :: xs, s =>
    match body x s with
    | (s1, none) => forEach body xs s1
    | (s1, some e) => (s1, some e)

/-- Go `int` arithmetic: the result of an addition reduced to 64 bits, two's complement. -/
def wrapInt (x : Int) : Int := (x + 2 ^ 63) % 2 ^ 64 - 2 ^ 63

/-! ## Parameters: what the package declares outside message.go -/

/-- The `Iso8583Type` interface: the methods of a field codec. `V` is the
state of a field value. `Bytes` renders a value; `Load` parses the front of a
buffer, leaves the parsed value in the receiver and returns the number of
bytes it consumed. -/
structure Iso8583Type (V : Type) where
  Bytes : V → Int → Int → Int → Except String (List Nat)
  Load : V → List Nat → Int → Int → Int → V × Except String Int

/-- Constants and helpers of the package that message.go uses but does not
declare. -/
structure Env where
  ASCII : Int
  BCD : Int
  /-- The helper `bcd(data []byte) []byte`. -/
  bcd : List Nat → List Nat
  /-- The helper `decodeMti(raw []byte, encode int) (string, error)`: both results. -/
  decodeMti : List Nat → Int → List Nat × Option String

/-! ## Data model -/

/-- One struct field of `Message.Data`, as reflection sees it. -/
structure Slot (V : Type) where
  /-- Value of `isPtrOrInterface(v.Field(i).Kind()) && v.Field(i).IsNil()`. -/
  nilPtr : Bool
  /-- Value of `sf.Tag.Get("field")`. -/
  tagField : String
  /-- Value of `sf.Tag.Get("encode")`. -/
  tagEncode : String
  /-- Value of `sf.Tag.Get("length")`. -/
  tagLength : String
  /-- Methods reached by `v.Field(i).Interface().(Iso8583Type)`; `none` when the
  assertion fails. -/
  codec : Option (Iso8583Type V)
  /-- Current value of the object the struct field holds. -/
  val : V

/-- The `fieldInfo` struct. `Field` is the interface value: its methods, the
value it points at when the map is built (`val`), and the struct field it
points into (`slot`). `Load` visits every map entry at most once, so the value
its codec receives is `val`. -/
structure fieldInfo (V : Type) where
  Index : Int
  Encode : Int
  LenEncode : Int
  Length : Int
  Field : Iso8583Type V
  val : V
  slot : Nat

/-- The `Message` struct. `Data` is `none` when the value behind the
interface is not a struct. -/
structure Message (V : Type) where
  Mti : List Nat
  MtiEncode : Int
  SecondBitmap : Bool
  Data : Option (List (Slot V))

/-- Function `NewMessage`. -/
def NewMessage {V : Type} (env : Env) (mti : List Nat) (data : Option (List (Slot V))) :
    Message V :=
  ⟨mti, env.ASCII, false, data⟩

/-- The map `map[int]*fieldInfo`. -/
abbrev FieldMap (V : Type) := Int → Option (fieldInfo V)

/-! ## Library functions used by message.go -/

/-- Bytes of an ASCII string literal. -/
def str (s : String) : List Nat := s.toList.map Char.toNat

/-- The `strconv.Atoi` function: an optional sign, then one or more decimal digits, the
value within the 64-bit range; `none` stands for a non-nil error. -/
def Atoi (s : String) : Option Int :=
  let cs := s.toList
  let neg := cs.head? = some '-'
  let ds := if cs.head? = some '-' ∨ cs.head? = some '+' then cs.tail else cs
  if ds = [] ∨ ¬ (ds.all Char.isDigit) then none
  else
    let n : Nat := ds.foldl (fun a c => 10 * a + (c.toNat - 48)) 0
    let v : Int := if neg then - (n : Int) else (n : Int)
    if - (2 : Int) ^ 63 ≤ v ∧ v < 2 ^ 63 then some v else none

/-- Pieces of `cs` between commas. -/
def splitComma : List Char → List (List Char)
  | [] => [[]]
  | c :: cs =>
    if c = ',' then [] :: splitComma cs
    else
      match splitComma cs with
      | h :: t => (c :: h) :: t
      | [] => [[c]]

/-- The call `strings.Split(raw, ",")`. -/
def Split (raw : String) : List String := (splitComma raw.toList).map String.mk

/-- One hexadecimal digit of `%X`. -/
def hexDigit (n : Nat) : Nat := if n < 10 then 48 + n else 55 + n

/-- The call `fmt.Sprintf("%X", bitmap)` on a byte slice: two uppercase hexadecimal
digits per byte, high nibble first. -/
def hexUpper (bs : List Nat) : List Nat :=
  bs.flatMap fun b => [hexDigit (b / 16 % 16), hexDigit (b % 16)]

/-- The conversion `string(b)` of a byte to a string: the UTF-8 encoding of the code
point `b`. -/
def runeToString (b : Nat) : List Nat :=
  if b < 128 then [b] else [192 + b / 64, 128 + b % 64]

/-! ## message.go -/

/-- Function `parseEncodeStr`. -/
def parseEncodeStr (env : Env) (s : String) : Int :=
  if s = "ascii" then env.ASCII
  else if s = "bcd" then env.BCD
  else -1

/-- The encode tag of `parseFields`: the pair `(lenEncode, encode)`. -/
def parseEncodeTag (env : Env) (raw : String) : Int × Int :=
  if raw ≠ "" then
    let enc := Split raw
    if enc.length = 2 then
      (parseEncodeStr env (enc.getD 0 ""), parseEncodeStr env (enc.getD 1 ""))
    else
      (0, parseEncodeStr env (enc.getD 0 ""))
  else (0, 0)

/-- The length tag of `parseFields`; `none` stands for the panic
"value of length must be numeric". -/
def parseLengthTag (l : String) : Option Int :=
  if l ≠ "" then Atoi l else some (-1)

/-- The loop of `parseFields` from struct field number `pos` on. -/
def parseFieldsFrom {V : Type} (env : Env) :
    List (Slot V) → Nat → FieldMap V → Outcome (FieldMap V)
  | [], _, fields => .ok fields
  | s :: rest, pos, fields =>
    if s.nilPtr then parseFieldsFrom env rest (pos + 1) fields
    else if s.tagField = "" then parseFieldsFrom env rest (pos + 1) fields
    else
      match Atoi s.tagField with
      | none => .panic "value of field must be numeric"
      | some index =>
        match parseLengthTag s.tagLength with
        | none => .panic "value of length must be numeric"
        | some length =>
          match s.codec with
          | none => .panic "field must be Iso8583Type"
          | some field =>
            parseFieldsFrom env rest (pos + 1) fun j =>
              if j = index then
                some ⟨index, (parseEncodeTag env s.tagEncode).2,
                  (parseEncodeTag env s.tagEncode).1, length, field, s.val, pos⟩
              else fields j

/-- Function `parseFields`. -/
def parseFields {V : Type} (env : Env) (msg : Option (List (Slot V))) : Outcome (FieldMap V) :=
  match msg with
  | none => .panic "data must be a struct"
  | some slots => parseFieldsFrom env slots 0 fun _ => none

/-- Method `Message.encodeMti`. -/
def encodeMti {V : Type} (env : Env) (m : Message V) : Outcome (List Nat) :=
  if m.Mti = [] then .panic "MTI is required"
  else if m.Mti.length ≠ 4 then .panic "MTI is invalid"
  else if m.MtiEncode = env.BCD then .ok (env.bcd m.Mti)
  else .ok m.Mti

/-- The statement `bitmap[idx] |= x`. -/
def orAt (bitmap : List Nat) (idx : Nat) (x : Nat) : List Nat :=
  bitmap.set idx (bitmap.getD idx 0 ||| x)

/-- Local variables of `Message.Bytes` inside the loops. -/
structure EncState where
  bitmap : List Nat
  data : List Nat
  /-- Ghost: field numbers whose codec has been invoked, in order. -/
  calls : List Nat
  deriving DecidableEq, Repr

/-- Body of the inner loop of `Message.Bytes`. -/
def bytesStep {V : Type} (sb : Bool) (fields : FieldMap V) (byteIndex bitIndex : Nat)
    (st : EncState) : EncState × Option Exit :=
  let i := byteIndex * 8 + bitIndex + 1
  let st1 : EncState :=
    if sb = true ∧ i = 1 then
      { st with bitmap := orAt st.bitmap byteIndex (0x01 <<< (7 - bitIndex)) }
    else st
  match fields (i : Int) with
  | none => (st1, none)
  | some info =>
    let st2 : EncState :=
      { st1 with bitmap := orAt st1.bitmap byteIndex (0x01 <<< (7 - bitIndex)),
                 calls := st1.calls ++ [i] }
    match info.Field.Bytes info.val info.Encode info.LenEncode info.Length with
    | .error e => (st2, some (.error (.codec e)))
    | .ok d => ({ st2 with data := st2.data ++ d }, none)

/-- The two nested loops of `Message.Bytes`. -/
def bytesLoop {V : Type} (sb : Bool) (fields : FieldMap V) (byteNum : Nat)
    (st : EncState) : EncState × Option Exit :=
  forEach (fun byteIndex s =>
    forEach (fun bitIndex s1 => bytesStep sb fields byteIndex bitIndex s1) (List.range 8) s)
    (List.range byteNum) st

/-- A run of `Message.Bytes`: the result, with the raw bitmap and the codec
invocations at the point where the function left. -/
structure BytesRun where
  bitmap : List Nat
  calls : List Nat
  out : Outcome (List Nat)
  deriving DecidableEq, Repr

/-- Method `Message.Bytes`, with its ghost state. -/
def BytesRun.run {V : Type} (env : Env) (m : Message V) : BytesRun :=
  match encodeMti env m with
  | .panic s => ⟨[], [], .panic s⟩
  | .error e => ⟨[], [], .error e⟩
  | .ok mtiBytes =>
    match parseFields env m.Data with
    | .panic s => ⟨[], [], .panic s⟩
    | .error e => ⟨[], [], .error e⟩
    | .ok fields =>
      let byteNum := if m.SecondBitmap then 16 else 8
      match bytesLoop m.SecondBitmap fields byteNum ⟨List.replicate byteNum 0, [], []⟩ with
      | (st, some e) => ⟨st.bitmap, st.calls, e.toOutcome⟩
      | (st, none) => ⟨st.bitmap, st.calls, .ok (mtiBytes ++ hexUpper st.bitmap ++ st.data)⟩

/-- Method `Message.Bytes`. -/
def Bytes {V : Type} (env : Env) (m : Message V) : Outcome (List Nat) :=
  (BytesRun.run env m).out

/-- Function `hexToInt`. -/
def hexToInt (bs : List Nat) : Nat :=
  if bs = [0x30] then 0x0
  else if bs = [0x31] then 0x1
  else if bs = [0x32] then 0x2
  else if bs = [0x33] then 0x3
  else if bs = [0x34] then 0x4
  else if bs = [0x35] then 0x5
  else if bs = [0x36] then 0x6
  else if bs = [0x37] then 0x7
  else if bs = [0x38] then 0x8
  else if bs = [0x39] then 0x9
  else if bs = [0x41] then 0xA
  else if bs = [0x42] then 0xB
  else if bs = [0x43] then 0xC
  else if bs = [0x44] then 0xD
  else if bs = [0x45] then 0xE
  else if bs = [0x46] then 0xF
  else 0x0

/-- The loop of `convertHexStringToByte`, two characters at a time. -/
def hexPairs : List Nat → List Nat
  | c1 :: c2 :: rest => ((hexToInt [c1] <<< 4) + hexToInt [c2]) % 256 :: hexPairs rest
  | _ => []

/-- Function `convertHexStringToByte`. -/
def convertHexStringToByte (hex : List Nat) : Except Err (List Nat) :=
  if hex.length % 2 ≠ 0 then .error .oddHex
  else .ok (hexPairs hex)

/-- Write `v` into the value of struct field number `pos`. -/
def storeVal {V : Type} (v : V) : Nat → List (Slot V) → List (Slot V)
  | _, [] => []
  | 0, s :: rest => { s with val := v } :: rest
  | n + 1, s :: rest => s :: storeVal v n rest

/-- Variables of `Message.Load` inside the loops. -/
structure LoadState (V : Type) where
  slots : List (Slot V)
  start : Int
  /-- Ghost: field numbers found marked in the bitmap (other than 1), in order. -/
  present : List Nat
  /-- Ghost: codec invocations, each with the offset its buffer starts at. -/
  calls : List (Nat × Int)

/-- Body of the inner loop of `Message.Load`. -/
def loadStep {V : Type} (fields : FieldMap V) (raw bitByte : List Nat)
    (byteIndex bitIndex : Nat) (st : LoadState V) : LoadState V × Option Exit :=
  if bitByte.getD byteIndex 0 &&& (0x01 <<< (7 - bitIndex)) = 0 then (st, none)
  else
    let i := byteIndex * 8 + bitIndex + 1
    if i = 1 then (st, none)
    else
      let st1 : LoadState V := { st with present := st.present ++ [i] }
      match fields (i : Int) with
      | none => (st1, some (.error (.notDefined i)))
      | some f =>
        if st1.start > raw.length then (st1, none)
        else if st1.start < 0 then (st1, some (.panic "slice bounds out of range"))
        else
          match f.Field.Load f.val (raw.drop st1.start.toNat) f.Encode f.LenEncode f.Length with
          | (v, r) =>
            let st2 : LoadState V :=
              { st1 with slots := storeVal v f.slot st1.slots,
                         calls := st1.calls ++ [(i, st1.start)] }
            match r with
            | .error e => (st2, some (.error (.codec e)))
            | .ok l => ({ st2 with start := wrapInt (st2.start + l) }, none)

/-- The two nested loops of `Message.Load`; `byteNum` is the number of bitmap
characters. -/
def loadLoop {V : Type} (fields : FieldMap V) (raw bitByte : List Nat) (byteNum : Nat)
    (st : LoadState V) : LoadState V × Option Exit :=
  forEach (fun byteIndex s =>
    forEach (fun bitIndex s1 => loadStep fields raw bitByte byteIndex bitIndex s1)
      (List.range 8) s)
    (List.range (byteNum / 2)) st

/-- A run of `Message.Load`: the receiver after the call, the result, and the
ghost state at the point where the function left. -/
structure LoadRun (V : Type) where
  msg : Message V
  start : Int
  present : List Nat
  calls : List (Nat × Int)
  res : Outcome Unit

/-- What `Message.Load` has computed when it enters the loops. -/
structure LoadHeader (V : Type) where
  /-- The receiver, with `Mti` and `SecondBitmap` as set so far. -/
  msg : Message V
  slots : List (Slot V)
  fields : FieldMap V
  /-- Number of bitmap characters, 16 or 32 (the variable `byteNum`). -/
  byteNum : Nat
  /-- The raw bitmap bytes (the variable `bitByte` after the conversion). -/
  bitByte : List Nat
  /-- Offset just after the bitmap (the variable `start` on entry to the loops). -/
  start : Nat

/-- The part of `Message.Load` before the loops. `raw` is the slice up to its
length and `spare` the bytes of its backing array between length and capacity
(a slice expression `raw[a:b]` may reach into them, an index `raw[a]` may not).
On an early exit the receiver as it then is comes back with the exit. -/
def loadHeader {V : Type} (env : Env) (m : Message V) (raw spare : List Nat) :
    Except (Message V × Exit) (LoadHeader V) :=
  let dec := env.decodeMti raw m.MtiEncode
  let m1 : Message V := if m.Mti = [] then { m with Mti := dec.1 } else m
  if m.Mti = [] ∧ dec.2.isSome then .error (m1, .error (.mti (dec.2.getD "")))
  else
    let start : Nat := if m1.MtiEncode = env.BCD then 2 else 4
    match parseFields env m1.Data, m1.Data with
    | .panic s, _ => .error (m1, .panic s)
    | .error e, _ => .error (m1, .error e)
    | .ok _, none => .error (m1, .panic "data must be a struct")
    | .ok fields, some slots =>
      match raw.get? start with
      | none => .error (m1, .panic "index out of range")
      | some c =>
        let second : Bool := hexToInt (runeToString c) &&& 0x8 = 0x8
        let m2 : Message V := if second then { m1 with SecondBitmap := true } else m1
        let byteNum : Nat := if second then 32 else 16
        if start + byteNum > raw.length + spare.length then
          .error (m2, .panic "slice bounds out of range")
        else
          match convertHexStringToByte (((raw ++ spare).drop start).take byteNum) with
          | .error e => .error (m2, .error e)
          | .ok bitByte => .ok ⟨m2, slots, fields, byteNum, bitByte, start + byteNum⟩

/-- Method `Message.Load`, with its ghost state. -/
def LoadRun.run {V : Type} (env : Env) (m : Message V) (raw spare : List Nat) : LoadRun V :=
  match loadHeader env m raw spare with
  | .error (m1, e) => ⟨m1, 0, [], [], e.toOutcome⟩
  | .ok h =>
    match loadLoop h.fields raw h.bitByte h.byteNum ⟨h.slots, h.start, [], []⟩ with
    | (st, some e) => ⟨{ h.msg with Data := some st.slots }, st.start, st.present, st.calls, e.toOutcome⟩
    | (st, none) => ⟨{ h.msg with Data := some st.slots }, st.start, st.present, st.calls, .ok ()⟩

/-- Method `Message.Load`: the returned error. -/
def Load {V : Type} (env : Env) (m : Message V) (raw spare : List Nat) : Outcome Unit :=
  (LoadRun.run env m raw spare).res

/-! ## Vocabulary of the statements -/

/-- Body of the loops of `Message.Bytes` at iteration number `p`, counted from 0 over
both loops: field number `p + 1`. -/
def bytesAt {V : Type} (sb : Bool) (fields : FieldMap V) (p : Nat) (st : EncState) :
    EncState × Option Exit :=
  bytesStep sb fields (p / 8) (p % 8) st

/-- Body of the loops of `Message.Load` at iteration number `p`, counted from 0 over
both loops: field number `p + 1`. -/
def loadAt {V : Type} (fields : FieldMap V) (raw bitByte : List Nat) (p : Nat)
    (st : LoadState V) : LoadState V × Option Exit :=
  loadStep fields raw bitByte (p / 8) (p % 8) st

/-- Bit `i` of a raw bitmap, fields numbered from 1: byte `(i - 1) / 8`, mask
`0x80 >> ((i - 1) mod 8)`. -/
def bitSet (bitmap : List Nat) (i : Nat) : Bool :=
  bitmap.getD ((i - 1) / 8) 0 &&& (0x80 >>> ((i - 1) % 8)) != 0

/-- Whether `i` is a key of the field map. -/
def isKey {V : Type} (fields : FieldMap V) (i : Nat) : Bool := (fields (i : Int)).isSome

/-- Whether `Message.Bytes` marks field number `i`: a key of the map, or number 1
with the second bitmap switched on. -/
def flagged {V : Type} (sb : Bool) (fields : FieldMap V) (i : Nat) : Bool :=
  isKey fields i || (sb && i == 1)

/-- Output of the codec of field `i`: empty when `i` is no key of the map or the
codec fails. -/
def payload {V : Type} (fields : FieldMap V) (i : Nat) : List Nat :=
  match fields (i : Int) with
  | none => []
  | some info =>
    match info.Field.Bytes info.val info.Encode info.LenEncode info.Length with
    | .ok d => d
    | .error _ => []

/-- The codec of field `i` renders its value without error (true when `i` is no key). -/
def encodes {V : Type} (fields : FieldMap V) (i : Nat) : Bool :=
  match fields (i : Int) with
  | none => true
  | some info =>
    match info.Field.Bytes info.val info.Encode info.LenEncode info.Length with
    | .ok _ => true
    | .error _ => false

/-- Effect of iteration `p` of `Message.Bytes` on the raw bitmap. -/
def markBit {V : Type} (sb : Bool) (fields : FieldMap V) (p : Nat) (bitmap : List Nat) : List Nat :=
  let b1 := if sb = true ∧ p + 1 = 1 then orAt bitmap (p / 8) (0x01 <<< (7 - p % 8)) else bitmap
  if isKey fields (p + 1) then orAt b1 (p / 8) (0x01 <<< (7 - p % 8)) else b1

/-- Effect of the iterations `ps` of `Message.Bytes` on the raw bitmap. -/
def markBits {V : Type} (sb : Bool) (fields : FieldMap V) (ps : List Nat) (bitmap : List Nat) : List Nat :=
  ps.foldl (fun bm p => markBit sb fields p bm) bitmap

/-- Number of raw bitmap bytes `Message.Bytes` uses. -/
def byteCount (sb : Bool) : Nat := if sb then 16 else 8

/-- Whether `c` is one of the characters `0`-`9`, `A`-`F`. -/
def isUpperHex (c : Nat) : Bool := (48 ≤ c && c ≤ 57) || (65 ≤ c && c ≤ 70)

/-- One raw bitmap byte as the bitmap layout describes it: bit `k` of byte `b`, counted
from the most significant bit, stands for field number `b * 8 + k + 1`. -/
def packByte (flag : Nat → Bool) (b : Nat) : Nat :=
  (List.range 8).foldl (fun acc k => if flag (b * 8 + k + 1) then acc + 2 ^ (7 - k) else acc) 0

/-- The raw bitmap of `n` bytes in which exactly the field numbers satisfying `flag`
are marked. -/
def bitmapOf (flag : Nat → Bool) (n : Nat) : List Nat :=
  (List.range n).map (packByte flag)

/-! ## Example instances -/

/-- A field codec for fixed-width text: the value is a byte string whose length must
be the declared length; loading takes that many bytes from the front of the buffer. -/
def fixedText : Iso8583Type (List Nat) where
  Bytes := fun v _ _ length => if (v.length : Int) = length then .ok v else .error "bad length"
  Load := fun v raw _ _ length =>
    if (raw.length : Int) < length ∨ length < 0 then (v, .error "short buffer")
    else (raw.take length.toNat, .ok length)

/-- An environment with `ASCII = 0`, `BCD = 1`, a `bcd` that keeps its input, and a
`decodeMti` that takes the first four bytes. -/
def exampleEnv : Env where
  ASCII := 0
  BCD := 1
  bcd := fun d => d
  decodeMti := fun raw _ =>
    if raw.length < 4 then ([], some "bad MTI raw data") else (raw.take 4, none)

/-- A struct field tagged with field number `idx` and length `len`, holding `v`. -/
def textSlot (idx len v : String) : Slot (List Nat) :=
  ⟨false, idx, "", len, some fixedText, str v⟩

/-- A message with fields 2, 11 and 70 and the second bitmap switched off. -/
def msg3 : Message (List Nat) :=
  ⟨str "0200", 0, false, some [textSlot "2" "2" "AB", textSlot "11" "3" "xyz", textSlot "70" "1" "Q"]⟩

/-- The field map of a body, empty when `parseFields` panics. -/
def fieldsOf {V : Type} (env : Env) (data : Option (List (Slot V))) : FieldMap V :=
  match parseFields env data with
  | .ok fields => fields
  | _ => fun _ => none

/-- A message with no fields and the second bitmap switched on. -/
def msgEmpty2 : Message (List Nat) := ⟨str "0200", 0, true, some []⟩

/-- A message whose body declares a field with number 1, second bitmap off. -/
def msgField1 : Message (List Nat) := ⟨str "0200", 0, false, some [textSlot "1" "2" "AB"]⟩

/-- A receiver for `Load` with the fields 2, 11 and 70 declared and `Mti` already set. -/
def msgRecv : Message (List Nat) :=
  ⟨str "0200", 0, false, some [textSlot "2" "2" "", textSlot "11" "3" "", textSlot "70" "1" ""]⟩

/-- Text of the panic raised by `encodeMti` on an Mti of the wrong length. -/
def mtiPanic (mti : List Nat) : String :=
  if mti = [] then "MTI is required" else "MTI is invalid"

/-- A field codec whose `Load` reports 100 bytes consumed whatever the buffer holds. -/
def greedyField : Iso8583Type (List Nat) where
  Bytes := fun v _ _ _ => .ok v
  Load := fun v _ _ _ _ => (v, .ok 100)

/-- A receiver for `Load` that declares fields 1 and 2 only, field 2 with the greedy codec. -/
def msgRecv2 : Message (List Nat) :=
  ⟨str "0200", 0, false,
    some [textSlot "1" "2" "", ⟨false, "2", "", "", some greedyField, []⟩]⟩

/-- The header of a run of `Load`; an empty header when the part before the loops
exits. -/
def headerOr {V : Type} (env : Env) (m : Message V) (raw spare : List Nat) : LoadHeader V :=
  match loadHeader env m raw spare with
  | .ok h => h
  | .error (m1, _) => ⟨m1, [], fun _ => none, 0, [], 0⟩

/-- An input whose bitmap marks the fields 2 and 5 and that carries no payload. -/
def raw25 : List Nat := str "02004800000000000000"

/-- State of `Load` on `raw25` into `msgRecv2` after the iterations for the field
numbers 1 to 4. -/
def state25 : LoadState (List Nat) :=
  (forEach (loadAt (headerOr exampleEnv msgRecv2 raw25 []).fields raw25
      (headerOr exampleEnv msgRecv2 raw25 []).bitByte) (List.range (5 - 1))
    ⟨(headerOr exampleEnv msgRecv2 raw25 []).slots,
      (headerOr exampleEnv msgRecv2 raw25 []).start, [], []⟩).1

/-! ## Vocabulary of the round trip -/

/-- Two struct fields that agree in everything but the value they hold. -/
def Slot.sameShape {V : Type} (s t : Slot V) : Prop :=
  s.nilPtr = t.nilPtr ∧ s.tagField = t.tagField ∧ s.tagEncode = t.tagEncode
    ∧ s.tagLength = t.tagLength ∧ s.codec = t.codec

/-- Two bodies with the same schema: the same struct fields, tags and codecs, field by
field; only the values may differ. -/
def sameSchema {V : Type} (a b : List (Slot V)) : Prop := List.Forall₂ Slot.sameShape a b

/-- Two map entries that agree in everything but the value they point at. -/
def fieldInfo.sameShape {V : Type} (a b : fieldInfo V) : Prop :=
  a.Index = b.Index ∧ a.Encode = b.Encode ∧ a.LenEncode = b.LenEncode ∧ a.Length = b.Length
    ∧ a.Field = b.Field ∧ a.slot = b.slot

/-- Two field maps with the same keys whose entries agree in everything but the value. -/
def sameKeys {V : Type} (f g : FieldMap V) : Prop :=
  ∀ i : Int,
    match f i, g i with
    | none, none => True
    | some a, some b => a.sameShape b
    | _, _ => False

/-- The round-trip contract of a field codec at a value: `Bytes` renders the value, and
`Load` applied to that output followed by any suffix, whatever the receiver held,
consumes exactly the length of the output and leaves the value in the receiver. -/
def roundTrips {V : Type} (info : fieldInfo V) : Prop :=
  ∃ d, info.Field.Bytes info.val info.Encode info.LenEncode info.Length = .ok d
    ∧ ∀ (v0 : V) (suffix : List Nat),
        info.Field.Load v0 (d ++ suffix) info.Encode info.LenEncode info.Length
          = (info.val, .ok (d.length : Int))

/-- The value held by struct field number `pos`. -/
def valAt {V : Type} (slots : List (Slot V)) (pos : Nat) : Option V :=
  (slots.get? pos).map fun s => s.val

/-- The body after the values of the fields numbered `p + 1`, `p` in `ps`, have been
written into the struct fields their map entries point into. -/
def storeAll {V : Type} (fields : FieldMap V) (ps : List Nat) (slots : List (Slot V)) :
    List (Slot V) :=
  ps.foldl (fun sl p =>
    match fields ((p + 1 : Nat) : Int) with
    | some a => storeVal a.val a.slot sl
    | none => sl) slots

/-- Every entry of the map points into a struct field of `all` with a position below
`bound`, whose field tag is the key and whose value is the entry's value. -/
def entriesFrom {V : Type} (all : List (Slot V)) (g : FieldMap V) (bound : Nat) : Prop :=
  ∀ (i : Int) (info : fieldInfo V), g i = some info →
    info.slot < bound ∧ ∃ s, all.get? info.slot = some s ∧ Atoi s.tagField = some i
      ∧ s.val = info.val

/-- A message with the fields 2 and 11 and the second bitmap switched off. -/
def msg2 : Message (List Nat) :=
  ⟨str "0200", 0, false, some [textSlot "2" "2" "AB", textSlot "11" "3" "xyz"]⟩

/-- A fresh message with the schema of `msg2`: no Mti yet, other values in the fields. -/
def msg2Fresh : Message (List Nat) :=
  ⟨[], 0, false, some [textSlot "2" "2" "", textSlot "11" "3" "??"]⟩

/-- The field map of `msg2`. -/
def fields2 : FieldMap (List Nat) := fun j =>
  if j = 11 then some ⟨11, 0, 0, 3, fixedText, str "xyz", 1⟩
  else if j = 2 then some ⟨2, 0, 0, 2, fixedText, str "AB", 0⟩
  else none

/-! ## Vocabulary of the hex conversion -/

/-- Value of a hexadecimal character as the digits `0`-`9` and the uppercase letters
`A`-`F` give it: 0 for every other character. -/
def hexVal (c : Nat) : Nat :=
  if 48 ≤ c ∧ c ≤ 57 then c - 48
  else if 65 ≤ c ∧ c ≤ 70 then c - 55
  else 0

/-! ## Vocabulary of the decoder -/

/-- Offset at which `Load` takes the bitmap region to start: the variable `start` before
the bitmap is read, 2 in packed-decimal MTI mode and 4 otherwise. -/
def mtiLength {V : Type} (env : Env) (m : Message V) : Nat :=
  if m.MtiEncode = env.BCD then 2 else 4

/-- Whether a character announces a second bitmap: the test
`hexToInt(string(c)) & 0x8 == 0x8` of `Load`. -/
def announces (c : Nat) : Bool := hexToInt (runeToString c) &&& 0x8 = 0x8

/-- A receiver like `msgRecv` whose `SecondBitmap` is already true before `Load`. -/
def msgRecvSB : Message (List Nat) :=
  ⟨str "0200", 0, true, some [textSlot "2" "2" "", textSlot "11" "3" "", textSlot "70" "1" ""]⟩

/-- An input with a primary-only bitmap that marks field 2, followed by its payload. -/
def rawField2 : List Nat := str "02004000000000000000AB"

/-- An input whose bitmap announces a second bitmap and marks the fields 2 and 70. -/
def rawField70 : List Nat := str "0200C0000000000000000400000000000000ABQ"

/-- A receiver for `Load` that declares field 2 with the greedy codec and field 3 as
two characters of text. -/
def msgRecvG : Message (List Nat) :=
  ⟨str "0200", 0, false,
    some [⟨false, "2", "", "", some greedyField, []⟩, textSlot "3" "2" ""]⟩

/-- An input whose bitmap marks the fields 2 and 3 and that ends with the bitmap. -/
def raw23 : List Nat := str "02006000000000000000"

/-- An input whose bitmap marks field 2 and that ends with the bitmap. -/
def rawBare2 : List Nat := str "02004000000000000000"

/-! ## Vocabulary of the encoder's error path -/

/-- A field codec that fails in both directions. -/
def brokenField : Iso8583Type (List Nat) where
  Bytes := fun _ _ _ _ => .error "broken"
  Load := fun v _ _ _ _ => (v, .error "broken")

/-- A message whose field 2 renders, whose field 11 holds a value of the wrong length and
whose field 12 has the broken codec. -/
def msgBad : Message (List Nat) :=
  ⟨str "0200", 0, false,
    some [textSlot "2" "2" "AB", textSlot "11" "3" "xy", ⟨false, "12", "", "", some brokenField, []⟩]⟩

/-- The field map of `msgBad`. -/
def fieldsBad : FieldMap (List Nat) := fun j =>
  if j = 12 then some ⟨12, 0, 0, -1, brokenField, [], 2⟩
  else if j = 11 then some ⟨11, 0, 0, 3, fixedText, str "xy", 1⟩
  else if j = 2 then some ⟨2, 0, 0, 2, fixedText, str "AB", 0⟩
  else none

/-- What `Message.Bytes` observes of field `i`: whether it is a key of the map and, if
so, the result of its codec. -/
def rendered {V : Type} (fields : FieldMap V) (i : Nat) : Option (Except String (List Nat)) :=
  (fields (i : Int)).map fun info =>
    info.Field.Bytes info.val info.Encode info.LenEncode info.Length

/-- The field map restricted to the keys from 1 to `n`. -/
def restrictKeys {V : Type} (n : Nat) (fields : FieldMap V) : FieldMap V := fun j =>
  if 1 ≤ j ∧ j ≤ (n : Int) then fields j else none

/-- The message `msg2` with four more fields, all outside the range of a primary-only
bitmap: number 70, number 0 with the broken codec, number -3, and number 200 with a value
of the wrong length. -/
def msgWide : Message (List Nat) :=
  ⟨str "0200", 0, false,
    some [textSlot "2" "2" "AB", textSlot "11" "3" "xyz", textSlot "70" "1" "Q",
      ⟨false, "0", "", "", some brokenField, []⟩, textSlot "-3" "1" "y",
      textSlot "200" "5" "z"]⟩

/-! ## Vocabulary of the offset invariant -/

/-- The count a codec invocation of `Load` adds to the running offset: the count the
codec of that field returns on the input from that offset on, 0 when it fails. -/
def consumed {V : Type} (fields : FieldMap V) (raw : List Nat) (c : Nat × Int) : Int :=
  match fields (c.1 : Int) with
  | none => 0
  | some f =>
    match (f.Field.Load f.val (raw.drop c.2.toNat) f.Encode f.LenEncode f.Length).2 with
    | .ok l => l
    | .error _ => 0

/-- The offset invariant of the loops of `Load`, `b` being the offset just after the
bitmap: the running offset lies between `b` and the length of the input and is `b` plus
the counts consumed by the invocations so far; every invocation was at such an offset;
and every field found marked that the schema defines has had its codec invoked. -/
def offsetInv {V : Type} (fields : FieldMap V) (raw : List Nat) (b : Nat)
    (st : LoadState V) : Prop :=
  (b : Int) ≤ st.start ∧ st.start ≤ (raw.length : Int)
    ∧ st.start = (b : Int) + (st.calls.map (consumed fields raw)).sum
    ∧ (∀ c ∈ st.calls, (b : Int) ≤ c.2 ∧ c.2 ≤ (raw.length : Int))
    ∧ ∀ i ∈ st.present, isKey fields i = true → i ∈ st.calls.map Prod.fst

/-- The field map of `msgRecv`. -/
def fieldsRecv : FieldMap (List Nat) := fun j =>
  if j = 70 then some ⟨70, 0, 0, 1, fixedText, [], 2⟩
  else if j = 11 then some ⟨11, 0, 0, 3, fixedText, [], 1⟩
  else if j = 2 then some ⟨2, 0, 0, 2, fixedText, [], 0⟩
  else none

/-- A body whose struct fields carry the encode tags "bcd,ascii", "bcd", none and "hex". -/
def slotsTagged : List (Slot (List Nat)) :=
  [⟨false, "3", "bcd,ascii", "6", some fixedText, []⟩,
    ⟨false, "4", "bcd", "", some fixedText, []⟩,
    textSlot "5" "1" "",
    ⟨false, "6", "hex", "", some fixedText, []⟩]

theorem forEach_append {α σ : Type} (body : α → σ → σ × Option Exit) (xs ys : List α) (s : σ) :
    forEach body (xs ++ ys) s =
      match forEach body xs s with
      | (s1, none) => forEach body ys s1
      | (s1, some e) => (s1, some e) := by
  induction xs generalizing s with
  | nil => simp [forEach]
  | cons x xs ih =>
    simp only [List.cons_append, forEach]
    rcases h : body x s with ⟨s1, _ | e⟩
    · simpa using ih s1
    · simp

theorem forEach_singleton {α σ : Type} (body : α → σ → σ × Option Exit) (x : α) (s : σ) :
    forEach body [x] s =
      match body x s with
      | (s1, none) => (s1, none)
      | (s1, some e) => (s1, some e) := by
  simp only [forEach]

theorem forEach_map {α β σ : Type} (body : β → σ → σ × Option Exit) (g : α → β) (xs : List α)
    (s : σ) : forEach body (xs.map g) s = forEach (fun x => body (g x)) xs s := by
  induction xs generalizing s with
  | nil => simp [forEach]
  | cons x xs ih =>
    simp only [List.map_cons, forEach]
    rcases body (g x) s with ⟨s1, _ | e⟩
    · simpa using ih s1
    · simp

theorem forEach_congr {α σ : Type} (f g : α → σ → σ × Option Exit) (xs : List α)
    (h : ∀ x ∈ xs, ∀ s, f x s = g x s) (s : σ) : forEach f xs s = forEach g xs s := by
  induction xs generalizing s with
  | nil => simp [forEach]
  | cons x xs ih =>
    simp only [forEach]
    rw [h x (List.mem_cons_self _ _) s]
    rcases g x s with ⟨s1, _ | e⟩
    · simpa using ih (fun y hy => h y (List.mem_cons_of_mem _ hy)) s1
    · simp

theorem forEach_nested {σ : Type} (f : Nat → Nat → σ → σ × Option Exit) (n : Nat) (st : σ) :
    forEach (fun b s => forEach (fun k s1 => f b k s1) (List.range 8) s) (List.range n) st =
      forEach (fun p s => f (p / 8) (p % 8) s) (List.range (n * 8)) st := by
  induction n generalizing st with
  | zero => simp [forEach]
  | succ n ih =>
    have hsplit : List.range ((n + 1) * 8) = List.range (n * 8) ++ (List.range 8).map (n * 8 + ·) := by
      rw [Nat.add_mul, Nat.one_mul, List.range_add]
    rw [List.range_succ n, forEach_append, hsplit, forEach_append, ih]
    rcases forEach (fun p s => f (p / 8) (p % 8) s) (List.range (n * 8)) st with ⟨s1, _ | e⟩
    · simp only
      rw [forEach_map]
      have hin : forEach (fun x => (fun p s => f (p / 8) (p % 8) s) (n * 8 + x)) (List.range 8) s1
          = forEach (fun k s2 => f n k s2) (List.range 8) s1 := by
        apply forEach_congr
        intro x hx s
        have hx8 : x < 8 := List.mem_range.mp hx
        have h1 : (n * 8 + x) / 8 = n := by omega
        have h2 : (n * 8 + x) % 8 = x := by omega
        simp only [h1, h2]
      rw [hin, forEach_singleton]
      show (match forEach (fun k s2 => f n k s2) (List.range 8) s1 with
        | (s2, none) => (s2, none)
        | (s2, some e) => (s2, some e)) = _
      generalize forEach (fun k s2 => f n k s2) (List.range 8) s1 = r
      rcases r with ⟨s2, _ | e⟩ <;> rfl
    · simp

theorem wrapInt_eq (x : Int) (h1 : - 2 ^ 63 ≤ x) (h2 : x < 2 ^ 63) : wrapInt x = x := by
  unfold wrapInt
  norm_num at h1 h2 ⊢
  omega

/-! ## The raw bitmap built by `Bytes` -/

theorem bytesLoop_flat {V : Type} (sb : Bool) (fields : FieldMap V) (n : Nat) (st : EncState) :
    bytesLoop sb fields n st = forEach (bytesAt sb fields) (List.range (n * 8)) st := by
  unfold bytesLoop
  rw [forEach_nested (fun b k s => bytesStep sb fields b k s)]
  rfl

theorem loadLoop_flat {V : Type} (fields : FieldMap V) (raw bitByte : List Nat) (n : Nat)
    (st : LoadState V) :
    loadLoop fields raw bitByte n st
      = forEach (loadAt fields raw bitByte) (List.range (n / 2 * 8)) st := by
  unfold loadLoop
  rw [forEach_nested (fun b k s => loadStep fields raw bitByte b k s)]
  rfl

theorem div_mul_add_mod (p : Nat) : p / 8 * 8 + p % 8 + 1 = p + 1 := by omega

theorem mask_eq (k : Nat) (hk : k < 8) : 0x80 >>> k = 2 ^ (7 - k) := by
  interval_cases k <;> rfl

theorem and_mask_ne_zero (x j : Nat) : (x &&& 2 ^ j != 0) = x.testBit j := by
  rw [Nat.and_two_pow]
  cases h : x.testBit j <;> simp [Nat.pos_iff_ne_zero.mp]

theorem bitSet_eq (bitmap : List Nat) (i : Nat) :
    bitSet bitmap i = (bitmap.getD ((i - 1) / 8) 0).testBit (7 - (i - 1) % 8) := by
  unfold bitSet
  rw [mask_eq _ (Nat.mod_lt _ (by norm_num)), and_mask_ne_zero]

theorem length_orAt (bm : List Nat) (b x : Nat) : (orAt bm b x).length = bm.length := by
  simp [orAt]

theorem testBit_orAt (bm : List Nat) (b x c j : Nat) (hb : b < bm.length) :
    ((orAt bm b x).getD c 0).testBit j
      = ((bm.getD c 0).testBit j || (decide (c = b) && x.testBit j)) := by
  unfold orAt
  simp only [List.getD_eq_getElem?_getD, List.getElem?_set]
  by_cases hcb : b = c
  · subst hcb
    simp [hb]
  · have hcb2 : ¬ c = b := fun h => hcb h.symm
    simp [hcb, hcb2]

theorem orAt_lt (bm : List Nat) (b s : Nat) (hs : s ≤ 7) (h : ∀ x ∈ bm, x < 256) :
    ∀ x ∈ orAt bm b (0x01 <<< s), x < 256 := by
  intro x hx
  unfold orAt at hx
  rcases List.mem_or_eq_of_mem_set hx with hx | hx
  · exact h x hx
  · subst hx
    have h1 : bm.getD b 0 < 2 ^ 8 := by
      rw [List.getD_eq_getElem?_getD]
      cases hg : bm[b]? with
      | none => simp
      | some y => simpa using h y (List.getElem?_mem hg)
    have h2 : 0x01 <<< s < 2 ^ 8 := by
      rw [Nat.one_shiftLeft]
      exact Nat.pow_lt_pow_right (by norm_num) (by omega)
    exact Nat.or_lt_two_pow h1 h2

theorem length_markBit {V : Type} (sb : Bool) (fields : FieldMap V) (p : Nat) (bm : List Nat) :
    (markBit sb fields p bm).length = bm.length := by
  unfold markBit
  split <;> split <;> simp [length_orAt]

theorem markBit_lt {V : Type} (sb : Bool) (fields : FieldMap V) (p : Nat) (bm : List Nat)
    (h : ∀ x ∈ bm, x < 256) : ∀ x ∈ markBit sb fields p bm, x < 256 := by
  have h7 : 7 - p % 8 ≤ 7 := by omega
  unfold markBit
  split <;> split
  · exact orAt_lt _ _ _ h7 (orAt_lt _ _ _ h7 h)
  · exact orAt_lt _ _ _ h7 h
  · exact orAt_lt _ _ _ h7 h
  · exact h

theorem testBit_markBit {V : Type} (sb : Bool) (fields : FieldMap V) (p : Nat) (bm : List Nat)
    (c j : Nat) (hp : p / 8 < bm.length) :
    ((markBit sb fields p bm).getD c 0).testBit j
      = ((bm.getD c 0).testBit j
          || (decide (c = p / 8) && decide (7 - p % 8 = j) && flagged sb fields (p + 1))) := by
  unfold markBit flagged
  simp only [Nat.one_shiftLeft]
  have e1 := testBit_orAt bm (p / 8) (2 ^ (7 - p % 8)) c j hp
  have e2 := testBit_orAt (orAt bm (p / 8) (2 ^ (7 - p % 8))) (p / 8) (2 ^ (7 - p % 8)) c j
    (by rw [length_orAt]; exact hp)
  rw [Nat.testBit_two_pow] at e1 e2
  by_cases h1 : sb = true ∧ p + 1 = 1
  · have hs : (sb && (p + 1 == 1)) = true := by
      rw [h1.1, h1.2]; rfl
    rw [if_pos h1, hs]
    by_cases h2 : isKey fields (p + 1) = true
    · rw [if_pos h2, e2, e1, h2]
      cases (bm.getD c 0).testBit j <;> cases decide (c = p / 8) <;>
        cases decide (7 - p % 8 = j) <;> rfl
    · rw [if_neg h2, e1]
      cases isKey fields (p + 1) <;> cases (bm.getD c 0).testBit j <;>
        cases decide (c = p / 8) <;> cases decide (7 - p % 8 = j) <;> rfl
  · have hs : (sb && (p + 1 == 1)) = false := by
      cases sb
      · rfl
      · have : p + 1 ≠ 1 := fun h => h1 ⟨rfl, h⟩
        simpa using this
    rw [if_neg h1, hs]
    by_cases h2 : isKey fields (p + 1) = true
    · rw [if_pos h2, e1, h2]
      cases (bm.getD c 0).testBit j <;> cases decide (c = p / 8) <;>
        cases decide (7 - p % 8 = j) <;> rfl
    · rw [if_neg h2]
      have h2f : isKey fields (p + 1) = false := by simpa using h2
      rw [h2f]
      cases (bm.getD c 0).testBit j <;> cases decide (c = p / 8) <;>
        cases decide (7 - p % 8 = j) <;> rfl

theorem length_markBits {V : Type} (sb : Bool) (fields : FieldMap V) (ps : List Nat)
    (bm : List Nat) : (markBits sb fields ps bm).length = bm.length := by
  unfold markBits
  induction ps generalizing bm with
  | nil => rfl
  | cons p ps ih => simp only [List.foldl_cons]; rw [ih, length_markBit]

theorem markBits_lt {V : Type} (sb : Bool) (fields : FieldMap V) (ps : List Nat) (bm : List Nat)
    (h : ∀ x ∈ bm, x < 256) : ∀ x ∈ markBits sb fields ps bm, x < 256 := by
  unfold markBits
  induction ps generalizing bm with
  | nil => exact h
  | cons p ps ih => simp only [List.foldl_cons]; exact ih _ (markBit_lt sb fields p bm h)

theorem testBit_markBits {V : Type} (sb : Bool) (fields : FieldMap V) (ps : List Nat)
    (bm : List Nat) (c j : Nat) (hp : ∀ p ∈ ps, p / 8 < bm.length) :
    ((markBits sb fields ps bm).getD c 0).testBit j
      = ((bm.getD c 0).testBit j
          || ps.any fun p => decide (c = p / 8) && decide (7 - p % 8 = j)
                && flagged sb fields (p + 1)) := by
  unfold markBits
  induction ps generalizing bm with
  | nil => simp
  | cons p ps ih =>
    simp only [List.foldl_cons, List.any_cons]
    rw [ih, testBit_markBit _ _ _ _ _ _ (hp p (List.mem_cons_self _ _)), Bool.or_assoc]
    intro q hq
    rw [length_markBit]
    exact hp q (List.mem_cons_of_mem _ hq)

/-- Bits of the bitmap after all iterations, starting from the zero bitmap. -/
theorem bitSet_markBits {V : Type} (sb : Bool) (fields : FieldMap V) (n i : Nat)
    (h1 : 1 ≤ i) (h2 : i ≤ 8 * n) :
    bitSet (markBits sb fields (List.range (n * 8)) (List.replicate n 0)) i
      = flagged sb fields i := by
  rw [bitSet_eq, testBit_markBits]
  · have hz : ((List.replicate n 0).getD ((i - 1) / 8) 0).testBit (7 - (i - 1) % 8) = false := by
      rw [List.getD_eq_getElem?_getD]
      cases hg : (List.replicate n 0)[(i - 1) / 8]? with
      | none => simp
      | some y =>
        have := List.getElem?_mem hg
        rw [List.mem_replicate] at this
        simp [this.2]
    rw [hz, Bool.false_or]
    cases hf : flagged sb fields i
    · rw [List.any_eq_false]
      intro p hp
      have hp2 := List.mem_range.mp hp
      by_cases hpi : p + 1 = i
      · subst hpi; simp [hf]
      · intro h
        simp only [Bool.and_eq_true, decide_eq_true_eq] at h
        obtain ⟨⟨h3, h4⟩, _⟩ := h
        omega
    · rw [List.any_eq_true]
      refine ⟨i - 1, List.mem_range.mpr (by omega), ?_⟩
      have : i - 1 + 1 = i := by omega
      simp [this, hf]
  · intro p hp
    have hp2 := List.mem_range.mp hp
    rw [List.length_replicate]
    omega

theorem packByte_lt (flag : Nat → Bool) (b : Nat) : packByte flag b < 256 := by
  unfold packByte
  simp only [List.range, List.range.loop, List.foldl]
  generalize flag (b * 8 + 0 + 1) = f0
  generalize flag (b * 8 + 1 + 1) = f1
  generalize flag (b * 8 + 2 + 1) = f2
  generalize flag (b * 8 + 3 + 1) = f3
  generalize flag (b * 8 + 4 + 1) = f4
  generalize flag (b * 8 + 5 + 1) = f5
  generalize flag (b * 8 + 6 + 1) = f6
  generalize flag (b * 8 + 7 + 1) = f7
  revert f0 f1 f2 f3 f4 f5 f6 f7
  decide

theorem testBit_packByte (flag : Nat → Bool) (b k : Nat) (hk : k < 8) :
    (packByte flag b).testBit (7 - k) = flag (b * 8 + k + 1) := by
  unfold packByte
  simp only [List.range, List.range.loop, List.foldl]
  interval_cases k <;>
  · generalize flag (b * 8 + 0 + 1) = f0
    generalize flag (b * 8 + 1 + 1) = f1
    generalize flag (b * 8 + 2 + 1) = f2
    generalize flag (b * 8 + 3 + 1) = f3
    generalize flag (b * 8 + 4 + 1) = f4
    generalize flag (b * 8 + 5 + 1) = f5
    generalize flag (b * 8 + 6 + 1) = f6
    generalize flag (b * 8 + 7 + 1) = f7
    revert f0 f1 f2 f3 f4 f5 f6 f7
    decide

theorem getD_bitmapOf (flag : Nat → Bool) (n b : Nat) (hb : b < n) :
    (bitmapOf flag n).getD b 0 = packByte flag b := by
  unfold bitmapOf
  simp [List.getD_eq_getElem?_getD, List.getElem?_map, List.getElem?_range hb]

theorem length_bitmapOf (flag : Nat → Bool) (n : Nat) : (bitmapOf flag n).length = n := by
  simp [bitmapOf]

theorem bitmapOf_lt (flag : Nat → Bool) (n : Nat) : ∀ x ∈ bitmapOf flag n, x < 256 := by
  intro x hx
  unfold bitmapOf at hx
  obtain ⟨b, _, rfl⟩ := List.mem_map.mp hx
  exact packByte_lt flag b

/-- The loops of `Bytes` build the bitmap that marks exactly the flagged field numbers. -/
theorem markBits_eq_bitmapOf {V : Type} (sb : Bool) (fields : FieldMap V) (n : Nat) :
    markBits sb fields (List.range (n * 8)) (List.replicate n 0)
      = bitmapOf (flagged sb fields) n := by
  have hlen : (markBits sb fields (List.range (n * 8)) (List.replicate n 0)).length = n := by
    rw [length_markBits, List.length_replicate]
  have hlt := markBits_lt sb fields (List.range (n * 8)) (List.replicate n 0)
    (by intro x hx; rw [List.mem_replicate] at hx; omega)
  apply List.ext_getElem
  · rw [hlen, length_bitmapOf]
  · intro b h1 h2
    have hb : b < n := by rw [hlen] at h1; exact h1
    have hL : (markBits sb fields (List.range (n * 8)) (List.replicate n 0))[b]
        = (markBits sb fields (List.range (n * 8)) (List.replicate n 0)).getD b 0 := by
      simp [List.getD_eq_getElem?_getD, List.getElem?_eq_getElem h1]
    have hR : (bitmapOf (flagged sb fields) n)[b] = (bitmapOf (flagged sb fields) n).getD b 0 := by
      simp [List.getD_eq_getElem?_getD, List.getElem?_eq_getElem h2]
    have hx : (markBits sb fields (List.range (n * 8)) (List.replicate n 0))[b] < 256 :=
      hlt _ (List.getElem_mem _)
    rw [hL] at hx
    rw [hL, hR, getD_bitmapOf _ _ _ hb]
    apply Nat.eq_of_testBit_eq
    intro j
    by_cases hj : j < 8
    · have hk : 7 - (7 - j) = j := by omega
      have h7 : 7 - j < 8 := by omega
      have hi : (b * 8 + (7 - j) + 1 - 1) / 8 = b := by omega
      have hi2 : 7 - (b * 8 + (7 - j) + 1 - 1) % 8 = j := by omega
      have hbs := bitSet_markBits sb fields n (b * 8 + (7 - j) + 1) (by omega) (by omega)
      rw [bitSet_eq, hi, hi2] at hbs
      have hpk := testBit_packByte (flagged sb fields) b (7 - j) h7
      rw [hk] at hpk
      rw [hbs, hpk]
    · have hpow : (2 : Nat) ^ 8 ≤ 2 ^ j := Nat.pow_le_pow_right (by norm_num) (by omega)
      rw [Nat.testBit_lt_two_pow (Nat.lt_of_lt_of_le hx hpow),
        Nat.testBit_lt_two_pow (Nat.lt_of_lt_of_le (packByte_lt _ b) hpow)]

/-! ## The loops of `Bytes` -/

theorem bytesAt_eq {V : Type} (sb : Bool) (fields : FieldMap V) (p : Nat) (st : EncState) :
    bytesAt sb fields p st =
      match fields ((p + 1 : Nat) : Int) with
      | none =>
        (if sb = true ∧ p + 1 = 1 then
          { st with bitmap := orAt st.bitmap (p / 8) (0x01 <<< (7 - p % 8)) } else st, none)
      | some info =>
        match info.Field.Bytes info.val info.Encode info.LenEncode info.Length with
        | .error e =>
          (⟨markBit sb fields p st.bitmap, st.data, st.calls ++ [p + 1]⟩,
            some (.error (.codec e)))
        | .ok d => (⟨markBit sb fields p st.bitmap, st.data ++ d, st.calls ++ [p + 1]⟩, none) := by
  unfold bytesAt bytesStep markBit isKey
  simp only [div_mul_add_mod]
  cases hf : fields ((p + 1 : Nat) : Int) with
  | none => rfl
  | some info =>
    simp only [Option.isSome_some, if_true]
    cases hb : info.Field.Bytes info.val info.Encode info.LenEncode info.Length <;>
      by_cases h : sb = true ∧ p + 1 = 1
    · simp only [if_pos h]
    · simp only [if_neg h]
    · simp only [if_pos h]
    · simp only [if_neg h]

theorem bytesAt_bitmap {V : Type} (sb : Bool) (fields : FieldMap V) (p : Nat) (st : EncState) :
    (bytesAt sb fields p st).1.bitmap = markBit sb fields p st.bitmap := by
  rw [bytesAt_eq]
  cases hf : fields ((p + 1 : Nat) : Int) with
  | none =>
    unfold markBit isKey
    rw [hf]
    by_cases h : sb = true ∧ p + 1 = 1
    · simp only [if_pos h, Option.isSome_none, Bool.false_eq_true, if_false]
    · simp only [if_neg h, Option.isSome_none, Bool.false_eq_true, if_false]
  | some info =>
    cases hb : info.Field.Bytes info.val info.Encode info.LenEncode info.Length <;>
      simp only [hb]

theorem forEach_bytesAt_done {V : Type} (sb : Bool) (fields : FieldMap V) (ps : List Nat)
    (st st1 : EncState) (h : forEach (bytesAt sb fields) ps st = (st1, none)) :
    st1 = ⟨markBits sb fields ps st.bitmap,
          st.data ++ ps.flatMap (fun p => payload fields (p + 1)),
          st.calls ++ (ps.filter fun p => isKey fields (p + 1)).map (· + 1)⟩
      ∧ ∀ p ∈ ps, encodes fields (p + 1) = true := by
  induction ps generalizing st with
  | nil =>
    simp only [forEach, Prod.mk.injEq, and_true] at h
    subst h
    simp [markBits]
  | cons p ps ih =>
    simp only [forEach] at h
    rw [bytesAt_eq] at h
    cases hf : fields ((p + 1 : Nat) : Int) with
    | none =>
      have hk : isKey fields (p + 1) = false := by unfold isKey; rw [hf]; rfl
      have hpl : payload fields (p + 1) = [] := by unfold payload; rw [hf]
      have hen : encodes fields (p + 1) = true := by unfold encodes; rw [hf]
      have hm : markBit sb fields p st.bitmap
          = (if sb = true ∧ p + 1 = 1 then
              ({ st with bitmap := orAt st.bitmap (p / 8) (0x01 <<< (7 - p % 8)) } : EncState)
             else st).bitmap := by
        unfold markBit
        rw [hk]
        by_cases hc : sb = true ∧ p + 1 = 1
        · simp only [if_pos hc, Bool.false_eq_true, if_false]
        · simp only [if_neg hc, Bool.false_eq_true, if_false]
      rw [hf] at h
      simp only at h
      obtain ⟨h1, h2⟩ := ih _ h
      have hd : (if sb = true ∧ p + 1 = 1 then
              ({ st with bitmap := orAt st.bitmap (p / 8) (0x01 <<< (7 - p % 8)) } : EncState)
             else st).data = st.data := by split <;> rfl
      have hcl : (if sb = true ∧ p + 1 = 1 then
              ({ st with bitmap := orAt st.bitmap (p / 8) (0x01 <<< (7 - p % 8)) } : EncState)
             else st).calls = st.calls := by split <;> rfl
      rw [hd, hcl, ← hm] at h1
      refine ⟨?_, ?_⟩
      · rw [h1]
        simp only [markBits, List.foldl_cons, List.flatMap_cons, hpl, List.nil_append,
          List.filter_cons, hk, Bool.false_eq_true, if_false]
      · intro q hq
        rcases List.mem_cons.mp hq with rfl | hq
        · exact hen
        · exact h2 q hq
    | some info =>
      have hk : isKey fields (p + 1) = true := by unfold isKey; rw [hf]; rfl
      rw [hf] at h
      simp only at h
      cases hb : info.Field.Bytes info.val info.Encode info.LenEncode info.Length with
      | error e => rw [hb] at h; simp at h
      | ok d =>
        have hpl : payload fields (p + 1) = d := by unfold payload; rw [hf]; simp only [hb]
        have hen : encodes fields (p + 1) = true := by unfold encodes; rw [hf]; simp only [hb]
        rw [hb] at h
        simp only at h
        obtain ⟨h1, h2⟩ := ih _ h
        refine ⟨?_, ?_⟩
        · rw [h1]
          simp only [markBits, List.foldl_cons, List.flatMap_cons, hpl, List.append_assoc,
            List.filter_cons, hk, if_true, List.map_cons, List.singleton_append]
        · intro q hq
          rcases List.mem_cons.mp hq with rfl | hq
          · exact hen
          · exact h2 q hq

theorem bytesAt_ok {V : Type} (sb : Bool) (fields : FieldMap V) (p : Nat) (st : EncState)
    (h : encodes fields (p + 1) = true) :
    bytesAt sb fields p st
      = (⟨markBit sb fields p st.bitmap, st.data ++ payload fields (p + 1),
          st.calls ++ if isKey fields (p + 1) then [p + 1] else []⟩, none) := by
  rw [bytesAt_eq]
  unfold encodes at h
  unfold payload
  cases hf : fields ((p + 1 : Nat) : Int) with
  | none =>
    unfold markBit isKey
    rw [hf]
    by_cases h : sb = true ∧ p + 1 = 1
    · simp only [if_pos h, Option.isSome_none, Bool.false_eq_true, if_false, List.append_nil]
    · simp only [if_neg h, Option.isSome_none, Bool.false_eq_true, if_false, List.append_nil]
  | some info =>
    rw [hf] at h
    cases hb : info.Field.Bytes info.val info.Encode info.LenEncode info.Length with
    | error e => simp only [hb] at h; exact absurd h (by decide)
    | ok d => simp only [hb, isKey, hf, Option.isSome_some, if_true]

theorem forEach_bytesAt_ok {V : Type} (sb : Bool) (fields : FieldMap V) (ps : List Nat)
    (st : EncState) (h : ∀ p ∈ ps, encodes fields (p + 1) = true) :
    forEach (bytesAt sb fields) ps st
      = (⟨markBits sb fields ps st.bitmap,
          st.data ++ ps.flatMap (fun p => payload fields (p + 1)),
          st.calls ++ (ps.filter fun p => isKey fields (p + 1)).map (· + 1)⟩, none) := by
  induction ps generalizing st with
  | nil => simp [forEach, markBits]
  | cons p ps ih =>
    simp only [forEach]
    rw [bytesAt_ok sb fields p st (h p (List.mem_cons_self _ _))]
    simp only
    rw [ih _ (fun q hq => h q (List.mem_cons_of_mem _ hq))]
    cases hk : isKey fields (p + 1) <;>
      simp [markBits, List.flatMap_cons, List.filter_cons, hk]

theorem range_map_succ (n : Nat) : (List.range n).map (· + 1) = List.range' 1 n := by
  rw [List.range'_eq_map_range]
  apply List.map_congr_left
  intro x _
  omega

/-! ## `Message.Bytes`: layout of the output -/

theorem encodeMti_text {V : Type} (env : Env) (m : Message V) (hmti : m.Mti.length = 4)
    (htext : m.MtiEncode ≠ env.BCD) : encodeMti env m = .ok m.Mti := by
  unfold encodeMti
  have hne : m.Mti ≠ [] := by
    intro h
    rw [h] at hmti
    simp at hmti
  rw [if_neg hne, if_neg (by simpa using hmti), if_neg htext]

theorem byteCount_eq (sb : Bool) : (if sb = true then 16 else 8) = byteCount sb := by
  cases sb <;> rfl

theorem run_of_loop {V : Type} (env : Env) (m : Message V) (mtiBytes : List Nat)
    (fields : FieldMap V) (hmti : encodeMti env m = .ok mtiBytes)
    (hfields : parseFields env m.Data = .ok fields) :
    BytesRun.run env m =
      match forEach (bytesAt m.SecondBitmap fields)
          (List.range (byteCount m.SecondBitmap * 8))
          ⟨List.replicate (byteCount m.SecondBitmap) 0, [], []⟩ with
      | (st, some e) => ⟨st.bitmap, st.calls, e.toOutcome⟩
      | (st, none) => ⟨st.bitmap, st.calls, .ok (mtiBytes ++ hexUpper st.bitmap ++ st.data)⟩ := by
  unfold BytesRun.run
  rw [hmti, hfields]
  simp only [byteCount_eq, bytesLoop_flat]

theorem flatMap_payload {V : Type} (fields : FieldMap V) (n : Nat) :
    ((List.range n).flatMap fun p => payload fields (p + 1))
      = (List.range' 1 n).flatMap (payload fields) := by
  rw [← range_map_succ, List.flatMap_map]

theorem filter_isKey {V : Type} (fields : FieldMap V) (n : Nat) :
    ((List.range n).filter fun p => isKey fields (p + 1)).map (· + 1)
      = (List.range' 1 n).filter (isKey fields) := by
  rw [← range_map_succ, List.filter_map]
  rfl

/-- A run of `Bytes` in which every codec within the bitmap range succeeds. -/
theorem run_ok {V : Type} (env : Env) (m : Message V) (mtiBytes : List Nat)
    (fields : FieldMap V) (hmti : encodeMti env m = .ok mtiBytes)
    (hfields : parseFields env m.Data = .ok fields)
    (hcodec : ∀ i ∈ List.range' 1 (8 * byteCount m.SecondBitmap), encodes fields i = true) :
    BytesRun.run env m =
      ⟨bitmapOf (flagged m.SecondBitmap fields) (byteCount m.SecondBitmap),
        (List.range' 1 (8 * byteCount m.SecondBitmap)).filter (isKey fields),
        .ok (mtiBytes
          ++ hexUpper (bitmapOf (flagged m.SecondBitmap fields) (byteCount m.SecondBitmap))
          ++ (List.range' 1 (8 * byteCount m.SecondBitmap)).flatMap (payload fields))⟩ := by
  rw [run_of_loop env m mtiBytes fields hmti hfields, forEach_bytesAt_ok]
  · simp only [markBits_eq_bitmapOf, List.nil_append, flatMap_payload, filter_isKey]
    rw [Nat.mul_comm (byteCount m.SecondBitmap) 8]
  · intro p hp
    apply hcodec
    have := List.mem_range.mp hp
    rw [List.mem_range'_1]
    omega

/-- A run of `Bytes` that returns bytes. -/
theorem run_done {V : Type} (env : Env) (m : Message V) (mtiBytes : List Nat)
    (fields : FieldMap V) (hmti : encodeMti env m = .ok mtiBytes)
    (hfields : parseFields env m.Data = .ok fields)
    (hrun : (BytesRun.run env m).out.isOk = true) :
    ∀ i ∈ List.range' 1 (8 * byteCount m.SecondBitmap), encodes fields i = true := by
  rw [run_of_loop env m mtiBytes fields hmti hfields] at hrun
  rcases hl : forEach (bytesAt m.SecondBitmap fields)
      (List.range (byteCount m.SecondBitmap * 8))
      ⟨List.replicate (byteCount m.SecondBitmap) 0, [], []⟩ with ⟨st, _ | e⟩
  · intro i hi
    rw [List.mem_range'_1] at hi
    have h := (forEach_bytesAt_done _ _ _ _ _ hl).2 (i - 1) (List.mem_range.mpr (by omega))
    have hi1 : i - 1 + 1 = i := by omega
    rw [hi1] at h
    exact h
  · rw [hl] at hrun
    cases e <;> simp [Exit.toOutcome, Outcome.isOk] at hrun

theorem encodeMti_of_run {V : Type} (env : Env) (m : Message V)
    (hrun : (BytesRun.run env m).out.isOk = true) : ∃ mtiBytes, encodeMti env m = .ok mtiBytes := by
  unfold BytesRun.run at hrun
  cases h : encodeMti env m with
  | ok a => exact ⟨a, rfl⟩
  | error e => rw [h] at hrun; simp [Outcome.isOk] at hrun
  | panic s => rw [h] at hrun; simp [Outcome.isOk] at hrun

theorem Bytes_layout_eq {V : Type} (env : Env) (m : Message V) (fields : FieldMap V)
    (hmti : m.Mti.length = 4) (htext : m.MtiEncode ≠ env.BCD)
    (hfields : parseFields env m.Data = .ok fields)
    (hcodec : ∀ i ∈ List.range' 1 (8 * byteCount m.SecondBitmap), encodes fields i = true) :
    Bytes env m = .ok (m.Mti
      ++ hexUpper (bitmapOf (flagged m.SecondBitmap fields) (byteCount m.SecondBitmap))
      ++ (List.range' 1 (8 * byteCount m.SecondBitmap)).flatMap (payload fields)) := by
  unfold Bytes
  rw [run_ok env m m.Mti fields (encodeMti_text env m hmti htext) hfields hcodec]

/-- C1: for a message with a 4-character Mti in text MTI mode whose field codecs
within the bitmap range all succeed, `Bytes` returns exactly the 4 Mti characters,
then the hex text of the bitmap, then the codec outputs of the fields in ascending
field number over 1..64 (1..128 with the second bitmap), and nothing else. -/
theorem Bytes_layout {V : Type} (env : Env) (m : Message V) (fields : FieldMap V)
    (hmti : m.Mti.length = 4) (htext : m.MtiEncode ≠ env.BCD)
    (hfields : parseFields env m.Data = .ok fields)
    (hcodec : ∀ i ∈ List.range' 1 (8 * byteCount m.SecondBitmap), encodes fields i = true) :
    Bytes env m = .ok (m.Mti
      ++ hexUpper (bitmapOf (flagged m.SecondBitmap fields) (byteCount m.SecondBitmap))
      ++ (List.range' 1 (8 * byteCount m.SecondBitmap)).flatMap (payload fields)) :=
  Bytes_layout_eq env m fields hmti htext hfields hcodec

theorem Bytes_layout_witness :
    msg3.Mti.length = 4 ∧ msg3.MtiEncode ≠ exampleEnv.BCD
      ∧ parseFields exampleEnv msg3.Data = .ok (fieldsOf exampleEnv msg3.Data)
      ∧ (∀ i ∈ List.range' 1 (8 * byteCount msg3.SecondBitmap),
          encodes (fieldsOf exampleEnv msg3.Data) i = true)
      ∧ Bytes exampleEnv msg3 = .ok (msg3.Mti
          ++ hexUpper (bitmapOf (flagged msg3.SecondBitmap (fieldsOf exampleEnv msg3.Data))
              (byteCount msg3.SecondBitmap))
          ++ (List.range' 1 (8 * byteCount msg3.SecondBitmap)).flatMap
              (payload (fieldsOf exampleEnv msg3.Data)))
      ∧ Bytes exampleEnv msg3 = .ok (str "02004020000000000000ABxyz") :=
  ⟨by decide, by decide, rfl, by decide,
    Bytes_layout exampleEnv msg3 (fieldsOf exampleEnv msg3.Data) (by decide) (by decide) rfl
      (by decide), by decide⟩

/-! ## `Message.Bytes`: the bitmap -/

/-- C2: in the raw bitmap built by a run of `Bytes` that completes, for every field
number `i` in 1..8*byteCount (byteCount 8 or 16), bit `i` (byte `(i-1)/8`, mask
`0x80 >> ((i-1) mod 8)`) is set if and only if `i` is a key of the field map or the
second bitmap is on and `i = 1`. -/
theorem Bytes_bitmap_bits {V : Type} (env : Env) (m : Message V) (fields : FieldMap V)
    (hfields : parseFields env m.Data = .ok fields)
    (hrun : (BytesRun.run env m).out.isOk = true)
    (i : Nat) (h1 : 1 ≤ i) (h2 : i ≤ 8 * byteCount m.SecondBitmap) :
    bitSet (BytesRun.run env m).bitmap i = true
      ↔ (isKey fields i = true ∨ (m.SecondBitmap = true ∧ i = 1)) := by
  obtain ⟨mtiBytes, hmti⟩ := encodeMti_of_run env m hrun
  rw [run_ok env m mtiBytes fields hmti hfields (run_done env m mtiBytes fields hmti hfields hrun)]
  simp only
  rw [← markBits_eq_bitmapOf, bitSet_markBits _ _ _ _ h1 h2]
  simp [flagged]

theorem Bytes_bitmap_bits_witness :
    parseFields exampleEnv msg3.Data = .ok (fieldsOf exampleEnv msg3.Data)
      ∧ (BytesRun.run exampleEnv msg3).out.isOk = true
      ∧ (1 ≤ 11 ∧ 11 ≤ 8 * byteCount msg3.SecondBitmap)
      ∧ (bitSet (BytesRun.run exampleEnv msg3).bitmap 11 = true
          ↔ (isKey (fieldsOf exampleEnv msg3.Data) 11 = true
              ∨ (msg3.SecondBitmap = true ∧ 11 = 1))) :=
  ⟨rfl, by decide, by decide,
    Bytes_bitmap_bits exampleEnv msg3 (fieldsOf exampleEnv msg3.Data) rfl (by decide) 11
      (by decide) (by decide)⟩

theorem length_hexUpper (bs : List Nat) : (hexUpper bs).length = 2 * bs.length := by
  unfold hexUpper
  induction bs with
  | nil => rfl
  | cons b bs ih => simp only [List.flatMap_cons, List.length_append, ih, List.length_cons,
      List.length_nil]; omega

theorem hexDigit_isUpperHex (n : Nat) (h : n < 16) : isUpperHex (hexDigit n) = true := by
  interval_cases n <;> rfl

theorem hexUpper_isUpperHex (bs : List Nat) : ∀ c ∈ hexUpper bs, isUpperHex c = true := by
  intro c hc
  unfold hexUpper at hc
  obtain ⟨b, _, hb⟩ := List.mem_flatMap.mp hc
  simp only [List.mem_cons, List.mem_singleton, List.not_mem_nil, or_false] at hb
  rcases hb with rfl | rfl
  · exact hexDigit_isUpperHex _ (Nat.mod_lt _ (by norm_num))
  · exact hexDigit_isUpperHex _ (Nat.mod_lt _ (by norm_num))

theorem packByte_congr (f g : Nat → Bool) (b : Nat)
    (h : ∀ k, k < 8 → f (b * 8 + k + 1) = g (b * 8 + k + 1)) : packByte f b = packByte g b := by
  unfold packByte
  simp only [List.range, List.range.loop, List.foldl]
  rw [h 0 (by norm_num), h 1 (by norm_num), h 2 (by norm_num), h 3 (by norm_num),
    h 4 (by norm_num), h 5 (by norm_num), h 6 (by norm_num), h 7 (by norm_num)]

theorem bitmapOf_congr (f g : Nat → Bool) (n : Nat)
    (h : ∀ i ∈ List.range' 1 (8 * n), f i = g i) : bitmapOf f n = bitmapOf g n := by
  unfold bitmapOf
  apply List.map_congr_left
  intro b hb
  have hb2 := List.mem_range.mp hb
  apply packByte_congr
  intro k hk
  apply h
  rw [List.mem_range'_1]
  omega

/-- C3: when `Bytes` succeeds, its output is the MTI bytes, then a bitmap text, then
the field payloads; the bitmap text has exactly 16 characters without and 32 with the
second bitmap, each one of `0`-`9`, `A`-`F`; with no field present in the bitmap range
it is sixteen `0` characters, or `8` followed by thirty-one `0` characters. -/
theorem Bytes_bitmap_text {V : Type} (env : Env) (m : Message V) (fields : FieldMap V)
    (mtiBytes out : List Nat) (hmti : encodeMti env m = .ok mtiBytes)
    (hfields : parseFields env m.Data = .ok fields) (hout : Bytes env m = .ok out) :
    ∃ text : List Nat,
      out = mtiBytes ++ text
          ++ (List.range' 1 (8 * byteCount m.SecondBitmap)).flatMap (payload fields)
      ∧ text = hexUpper (BytesRun.run env m).bitmap
      ∧ text.length = (if m.SecondBitmap = true then 32 else 16)
      ∧ (∀ c ∈ text, isUpperHex c = true)
      ∧ ((∀ i ∈ List.range' 1 (8 * byteCount m.SecondBitmap), isKey fields i = false) →
          text = if m.SecondBitmap = true then str "8" ++ List.replicate 31 48
                 else List.replicate 16 48) := by
  have hrun : (BytesRun.run env m).out.isOk = true := by
    unfold Bytes at hout
    rw [hout]
    rfl
  have hr := run_ok env m mtiBytes fields hmti hfields
    (run_done env m mtiBytes fields hmti hfields hrun)
  unfold Bytes at hout
  rw [hr] at hout ⊢
  simp only [Outcome.ok.injEq] at hout
  refine ⟨_, hout.symm, rfl, ?_, hexUpper_isUpperHex _, ?_⟩
  · rw [length_hexUpper, length_bitmapOf]
    cases m.SecondBitmap <;> rfl
  · intro hnone
    have hflag : bitmapOf (flagged m.SecondBitmap fields) (byteCount m.SecondBitmap)
        = bitmapOf (fun i => m.SecondBitmap && i == 1) (byteCount m.SecondBitmap) := by
      apply bitmapOf_congr
      intro i hi
      simp only [flagged, hnone i hi, Bool.false_or]
    rw [hflag]
    cases m.SecondBitmap <;> decide

set_option maxRecDepth 8000 in
theorem Bytes_bitmap_text_witness :
    encodeMti exampleEnv msgEmpty2 = .ok (str "0200")
      ∧ parseFields exampleEnv msgEmpty2.Data = .ok (fieldsOf exampleEnv msgEmpty2.Data)
      ∧ Bytes exampleEnv msgEmpty2 = .ok (str "020080000000000000000000000000000000")
      ∧ (∀ i ∈ List.range' 1 (8 * byteCount msgEmpty2.SecondBitmap),
          isKey (fieldsOf exampleEnv msgEmpty2.Data) i = false)
      ∧ (∃ text : List Nat,
          str "020080000000000000000000000000000000" = str "0200" ++ text
            ++ (List.range' 1 (8 * byteCount msgEmpty2.SecondBitmap)).flatMap
                (payload (fieldsOf exampleEnv msgEmpty2.Data))
          ∧ text = hexUpper (BytesRun.run exampleEnv msgEmpty2).bitmap
          ∧ text.length = (if msgEmpty2.SecondBitmap = true then 32 else 16)
          ∧ (∀ c ∈ text, isUpperHex c = true)
          ∧ ((∀ i ∈ List.range' 1 (8 * byteCount msgEmpty2.SecondBitmap),
                isKey (fieldsOf exampleEnv msgEmpty2.Data) i = false) →
              text = if msgEmpty2.SecondBitmap = true then str "8" ++ List.replicate 31 48
                     else List.replicate 16 48)) :=
  ⟨by decide, rfl, by decide, by decide,
    Bytes_bitmap_text exampleEnv msgEmpty2 (fieldsOf exampleEnv msgEmpty2.Data) (str "0200")
      (str "020080000000000000000000000000000000") (by decide) rfl (by decide)⟩

/-! ## `Message.encodeMti` -/

/-- C8: `encodeMti` fails (it panics) if and only if Mti does not have exactly 4
characters, and then `Bytes` panics with the same message and produces no bytes; for
every 4-character Mti in text mode `encodeMti` returns exactly those 4 characters. -/
theorem encodeMti_fails_iff {V : Type} (env : Env) (m : Message V) :
    ((encodeMti env m).isOk = false ↔ m.Mti.length ≠ 4)
      ∧ (m.Mti.length ≠ 4 →
          encodeMti env m = .panic (mtiPanic m.Mti) ∧ Bytes env m = .panic (mtiPanic m.Mti))
      ∧ (m.Mti.length = 4 → m.MtiEncode ≠ env.BCD → encodeMti env m = .ok m.Mti) := by
  have hbad : m.Mti.length ≠ 4 → encodeMti env m = .panic (mtiPanic m.Mti) := by
    intro h
    unfold encodeMti mtiPanic
    by_cases he : m.Mti = []
    · rw [if_pos he, if_pos he]
    · rw [if_neg he, if_neg he, if_pos h]
  have hgood : m.Mti.length = 4 → (encodeMti env m).isOk = true := by
    intro h
    have hne : m.Mti ≠ [] := by
      intro h0
      rw [h0] at h
      simp at h
    unfold encodeMti
    rw [if_neg hne, if_neg (by simpa using h)]
    split <;> rfl
  refine ⟨⟨?_, ?_⟩, ?_, ?_⟩
  · intro h hlen
    rw [hgood hlen] at h
    exact absurd h (by decide)
  · intro h
    rw [hbad h]
    rfl
  · intro h
    refine ⟨hbad h, ?_⟩
    unfold Bytes BytesRun.run
    rw [hbad h]
  · intro h1 h2
    exact encodeMti_text env m h1 h2

theorem encodeMti_fails_iff_witness :
    ((str "020").length ≠ 4
        ∧ Bytes exampleEnv { msg3 with Mti := str "020" } = .panic "MTI is invalid")
      ∧ ((str "02000").length ≠ 4
        ∧ Bytes exampleEnv { msg3 with Mti := str "02000" } = .panic "MTI is invalid")
      ∧ ((str "").length ≠ 4
        ∧ Bytes exampleEnv { msg3 with Mti := str "" } = .panic "MTI is required")
      ∧ ((str "0200").length = 4 ∧ msg3.MtiEncode ≠ exampleEnv.BCD
        ∧ encodeMti exampleEnv msg3 = .ok (str "0200")) :=
  ⟨⟨by decide, ((encodeMti_fails_iff exampleEnv { msg3 with Mti := str "020" }).2.1
      (by decide)).2⟩,
    ⟨by decide, ((encodeMti_fails_iff exampleEnv { msg3 with Mti := str "02000" }).2.1
      (by decide)).2⟩,
    ⟨by decide, ((encodeMti_fails_iff exampleEnv { msg3 with Mti := str "" }).2.1
      (by decide)).2⟩,
    ⟨by decide, by decide, (encodeMti_fails_iff exampleEnv msg3).2.2 (by decide) (by decide)⟩⟩

/-! ## Field number 1 on encode -/

/-- C7 (the code at the failing input): with a field numbered 1 in the body and the
second bitmap off, `Bytes` invokes the codec of field 1, sets bit 1 of the bitmap and
appends the payload of field 1; `Load` of that output into the same body takes bit 1
for the announcement of a second bitmap and never invokes the codec of field 1. -/
theorem Bytes_encodes_field_1 :
    msgField1.SecondBitmap = false
      ∧ (BytesRun.run exampleEnv msgField1).calls = [1]
      ∧ bitSet (BytesRun.run exampleEnv msgField1).bitmap 1 = true
      ∧ Bytes exampleEnv msgField1 = .ok (str "0200" ++ str "8000000000000000" ++ str "AB")
      ∧ Load exampleEnv msgField1 (str "0200" ++ str "8000000000000000" ++ str "AB") []
          = .panic "slice bounds out of range"
      ∧ (LoadRun.run exampleEnv msgField1
          (str "0200" ++ str "8000000000000000" ++ str "AB") (List.replicate 14 0)).calls = [] := by
  decide

/-! ## `Message.Load` on a short input -/

/-- C10 (the code at the failing inputs): with the bitmap region missing, shorter than
16 characters, or of odd length, `Load` panics on the index or slice expression and
returns no error. -/
theorem Load_short_bitmap_panics :
    Load exampleEnv msgRecv (str "0200") [] = .panic "index out of range"
      ∧ Load exampleEnv msgRecv (str "020040200000") [] = .panic "slice bounds out of range"
      ∧ Load exampleEnv msgRecv (str "0200402") [] = .panic "slice bounds out of range"
      ∧ Load exampleEnv msgRecv (str "0200C020000000000000AB") []
          = .panic "slice bounds out of range" := by
  decide

/-! ## The loops of `Load` -/

theorem loadAt_test (bitByte : List Nat) (p : Nat) :
    (bitByte.getD (p / 8) 0 &&& (0x01 <<< (7 - p % 8)) = 0) ↔ bitSet bitByte (p + 1) = false := by
  rw [bitSet_eq, Nat.one_shiftLeft, ← and_mask_ne_zero]
  simp

theorem loadAt_skip {V : Type} (fields : FieldMap V) (raw bitByte : List Nat) (p : Nat)
    (st : LoadState V) (h : bitSet bitByte (p + 1) = false ∨ p = 0) :
    loadAt fields raw bitByte p st = (st, none) := by
  unfold loadAt loadStep
  by_cases hb : bitByte.getD (p / 8) 0 &&& (0x01 <<< (7 - p % 8)) = 0
  · rw [if_pos hb]
  · rw [if_neg hb]
    have hb2 : ¬ bitSet bitByte (p + 1) = false := fun hc => hb ((loadAt_test bitByte p).mpr hc)
    have hp : p = 0 := h.resolve_left hb2
    subst hp
    rfl

theorem loadAt_marked {V : Type} (fields : FieldMap V) (raw bitByte : List Nat) (p : Nat)
    (st : LoadState V) (hb : bitSet bitByte (p + 1) = true) (hp : p ≠ 0) :
    loadAt fields raw bitByte p st =
      match fields ((p + 1 : Nat) : Int) with
      | none => ({ st with present := st.present ++ [p + 1] },
          some (.error (.notDefined ((p + 1 : Nat) : Int))))
      | some f =>
        if st.start > raw.length then ({ st with present := st.present ++ [p + 1] }, none)
        else if st.start < 0 then
          ({ st with present := st.present ++ [p + 1] }, some (.panic "slice bounds out of range"))
        else
          match (f.Field.Load f.val (raw.drop st.start.toNat) f.Encode f.LenEncode f.Length).2 with
          | .error e =>
            (⟨storeVal (f.Field.Load f.val (raw.drop st.start.toNat) f.Encode f.LenEncode
                f.Length).1 f.slot st.slots, st.start, st.present ++ [p + 1],
                st.calls ++ [(p + 1, st.start)]⟩, some (.error (.codec e)))
          | .ok l =>
            (⟨storeVal (f.Field.Load f.val (raw.drop st.start.toNat) f.Encode f.LenEncode
                f.Length).1 f.slot st.slots, wrapInt (st.start + l), st.present ++ [p + 1],
                st.calls ++ [(p + 1, st.start)]⟩, none) := by
  unfold loadAt loadStep
  have hb2 : ¬ (bitByte.getD (p / 8) 0 &&& (0x01 <<< (7 - p % 8)) = 0) := by
    rw [loadAt_test, hb]
    decide
  have hi : ¬ (p + 1 = 1) := by omega
  rw [if_neg hb2]
  simp only [div_mul_add_mod, if_neg hi]

/-- An invariant of the state and a property of the exit carry over from the body to
the loop. -/
theorem forEach_invariant {α σ : Type} (P : σ → Prop) (Q : Exit → Prop)
    (body : α → σ → σ × Option Exit) (xs : List α)
    (hbody : ∀ x ∈ xs, ∀ s, P s → P (body x s).1 ∧ ∀ e, (body x s).2 = some e → Q e)
    (s : σ) (hs : P s) :
    P (forEach body xs s).1 ∧ ∀ e, (forEach body xs s).2 = some e → Q e := by
  induction xs generalizing s with
  | nil => exact ⟨hs, by intro e h; simp [forEach] at h⟩
  | cons x xs ih =>
    have hx := hbody x (List.mem_cons_self _ _) s hs
    simp only [forEach]
    rcases hstep : body x s with ⟨s1, _ | e⟩
    · rw [hstep] at hx
      exact ih (fun y hy => hbody y (List.mem_cons_of_mem _ hy)) s1 hx.1
    · rw [hstep] at hx
      exact ⟨hx.1, by intro e1 h1; simp only [Option.some.injEq] at h1; subst h1; exact hx.2 e rfl⟩

/-- What a run of `Load` is in terms of its header and the flat loop. -/
theorem LoadRun_of_header {V : Type} (env : Env) (m : Message V) (raw spare : List Nat)
    (h : LoadHeader V) (hh : loadHeader env m raw spare = .ok h) :
    LoadRun.run env m raw spare =
      match forEach (loadAt h.fields raw h.bitByte) (List.range (h.byteNum / 2 * 8))
          ⟨h.slots, h.start, [], []⟩ with
      | (st, some e) =>
        ⟨{ h.msg with Data := some st.slots }, st.start, st.present, st.calls, e.toOutcome⟩
      | (st, none) =>
        ⟨{ h.msg with Data := some st.slots }, st.start, st.present, st.calls, .ok ()⟩ := by
  unfold LoadRun.run
  rw [hh]
  simp only [loadLoop_flat]

/-- Ghost state and exit of one iteration of `Load`: it may record field number `p + 1`
as present and as invoked, only when `p + 1` is not 1, and an undefined-field error
names `p + 1`. -/
theorem loadAt_ghost {V : Type} (fields : FieldMap V) (raw bitByte : List Nat) (p : Nat)
    (st : LoadState V) :
    ((loadAt fields raw bitByte p st).1.present = st.present
        ∨ (p ≠ 0 ∧ (loadAt fields raw bitByte p st).1.present = st.present ++ [p + 1]))
      ∧ ((loadAt fields raw bitByte p st).1.calls = st.calls
        ∨ (p ≠ 0 ∧ (loadAt fields raw bitByte p st).1.calls = st.calls ++ [(p + 1, st.start)]))
      ∧ (∀ i : Int, (loadAt fields raw bitByte p st).2 = some (.error (.notDefined i)) →
          p ≠ 0 ∧ i = ((p + 1 : Nat) : Int)) := by
  by_cases hskip : bitSet bitByte (p + 1) = false ∨ p = 0
  · rw [loadAt_skip _ _ _ _ _ hskip]
    exact ⟨Or.inl rfl, Or.inl rfl, by intro i h; exact absurd h (by simp)⟩
  · have hb : bitSet bitByte (p + 1) = true := by
      cases h : bitSet bitByte (p + 1)
      · exact absurd (Or.inl h) hskip
      · rfl
    have hp : p ≠ 0 := fun h => hskip (Or.inr h)
    rw [loadAt_marked _ _ _ _ _ hb hp]
    cases hf : fields ((p + 1 : Nat) : Int) with
    | none =>
      refine ⟨Or.inr ⟨hp, rfl⟩, Or.inl rfl, ?_⟩
      intro i h
      simp only [Option.some.injEq, Exit.error.injEq, Err.notDefined.injEq] at h
      exact ⟨hp, h.symm⟩
    | some f =>
      simp only
      split
      · exact ⟨Or.inr ⟨hp, rfl⟩, Or.inl rfl, by intro i h; exact absurd h (by simp)⟩
      · split
        · exact ⟨Or.inr ⟨hp, rfl⟩, Or.inl rfl, by intro i h; exact absurd h (by simp)⟩
        · split
          · exact ⟨Or.inr ⟨hp, rfl⟩, Or.inr ⟨hp, rfl⟩, by intro i h; exact absurd h (by simp)⟩
          · exact ⟨Or.inr ⟨hp, rfl⟩, Or.inr ⟨hp, rfl⟩, by intro i h; exact absurd h (by simp)⟩

theorem parseFieldsFrom_ne_error {V : Type} (env : Env) (slots : List (Slot V)) (pos : Nat)
    (fields : FieldMap V) (e : Err) : parseFieldsFrom env slots pos fields ≠ .error e := by
  induction slots generalizing pos fields with
  | nil => simp [parseFieldsFrom]
  | cons s rest ih =>
    unfold parseFieldsFrom
    split
    · exact ih _ _
    · split
      · exact ih _ _
      · split
        · simp
        · split
          · simp
          · split
            · simp
            · exact ih _ _

theorem parseFields_ne_error {V : Type} (env : Env) (data : Option (List (Slot V))) (e : Err) :
    parseFields env data ≠ .error e := by
  unfold parseFields
  cases data with
  | none => simp
  | some slots => exact parseFieldsFrom_ne_error env slots 0 _ e

theorem convertHex_error (hex : List Nat) (e : Err)
    (h : convertHexStringToByte hex = .error e) : e = .oddHex := by
  unfold convertHexStringToByte at h
  split at h
  · simp only [Except.error.injEq] at h
    exact h.symm
  · simp at h

/-- An exit of the part of `Load` before the loops is no undefined-field error. -/
theorem loadHeader_exit {V : Type} (env : Env) (m m1 : Message V) (raw spare : List Nat)
    (e : Exit) (h : loadHeader env m raw spare = .error (m1, e)) (i : Int) :
    e ≠ .error (.notDefined i) := by
  unfold loadHeader at h
  simp only at h
  repeat' split at h
  all_goals first
    | (simp only [Except.error.injEq, Prod.mk.injEq] at h; rw [← h.2]; simp; done)
    | (exfalso; simp at h; done)
    | exact absurd (by assumption : parseFields env _ = Outcome.error _)
        (parseFields_ne_error env _ _)
    | (have he := convertHex_error _ _ (by assumption : convertHexStringToByte _ = Except.error _)
       simp only [Except.error.injEq, Prod.mk.injEq] at h
       rw [← h.2, he]
       simp)

/-- C6: for every raw input, every body (also one that declares field 1) and whatever
`SecondBitmap` was before, `Load` never invokes the codec of field 1, never counts
field 1 among the present fields and never reports field 1 as undefined. -/
theorem Load_skips_field_1 {V : Type} (env : Env) (m : Message V) (raw spare : List Nat) :
    (∀ c ∈ (LoadRun.run env m raw spare).calls, c.1 ≠ 1)
      ∧ 1 ∉ (LoadRun.run env m raw spare).present
      ∧ Load env m raw spare ≠ .error (.notDefined 1) := by
  unfold Load
  cases hh : loadHeader env m raw spare with
  | error me =>
    obtain ⟨m1, e⟩ := me
    have hne := loadHeader_exit env m m1 raw spare e hh 1
    unfold LoadRun.run
    rw [hh]
    refine ⟨by simp, by simp, ?_⟩
    cases e with
    | error e1 =>
      intro hc
      simp only [Exit.toOutcome, Outcome.error.injEq] at hc
      exact hne (by rw [hc])
    | panic s => simp [Exit.toOutcome]
  | ok h =>
    rw [LoadRun_of_header env m raw spare h hh]
    have hinv := forEach_invariant
      (fun s : LoadState V => (∀ c ∈ s.calls, c.1 ≠ 1) ∧ 1 ∉ s.present)
      (fun e => e ≠ .error (.notDefined 1))
      (loadAt h.fields raw h.bitByte) (List.range (h.byteNum / 2 * 8))
      (by
        intro p _ s hs
        obtain ⟨g1, g2, g3⟩ := loadAt_ghost h.fields raw h.bitByte p s
        refine ⟨⟨?_, ?_⟩, ?_⟩
        · rcases g2 with g2 | ⟨hp, g2⟩
          · rw [g2]; exact hs.1
          · rw [g2]
            intro c hc
            rcases List.mem_append.mp hc with hc | hc
            · exact hs.1 c hc
            · simp only [List.mem_singleton] at hc
              rw [hc]
              simpa using hp
        · rcases g1 with g1 | ⟨hp, g1⟩
          · rw [g1]; exact hs.2
          · rw [g1]
            intro hc
            rcases List.mem_append.mp hc with hc | hc
            · exact hs.2 hc
            · simp only [List.mem_singleton] at hc
              omega
        · intro e he hc
          subst hc
          have := (g3 1 he).2
          have hp := (g3 1 he).1
          omega)
      ⟨h.slots, h.start, [], []⟩ ⟨by simp, by simp⟩
    rcases hl : forEach (loadAt h.fields raw h.bitByte) (List.range (h.byteNum / 2 * 8))
      ⟨h.slots, h.start, [], []⟩ with ⟨st, _ | e⟩
    · rw [hl] at hinv
      exact ⟨hinv.1.1, hinv.1.2, by simp⟩
    · rw [hl] at hinv
      refine ⟨hinv.1.1, hinv.1.2, ?_⟩
      have hq := hinv.2 e rfl
      cases e with
      | error e1 =>
        intro hc
        simp only [Exit.toOutcome, Outcome.error.injEq] at hc
        exact hq (by rw [hc])
      | panic s => simp [Exit.toOutcome]

/-! ## `Message.Load`: a marked field that the body does not declare -/

theorem range_split (n i : Nat) (h1 : 1 ≤ i) (h2 : i ≤ n) :
    List.range n = List.range (i - 1) ++ (i - 1) :: List.range' i (n - i) := by
  have hn : n = (n - i + 1) + (i - 1) := by omega
  have happ := List.range'_append_1 0 (i - 1) (n - i + 1)
  rw [← hn, Nat.zero_add, List.range'_succ] at happ
  have hi : i - 1 + 1 = i := by omega
  rw [hi] at happ
  rw [List.range_eq_range', List.range_eq_range', ← happ]

theorem forEach_calls_lt {V : Type} (fields : FieldMap V) (raw bitByte : List Nat) (n : Nat)
    (st : LoadState V) (h : ∀ c ∈ st.calls, c.1 ≤ n) :
    ∀ c ∈ (forEach (loadAt fields raw bitByte) (List.range n) st).1.calls, c.1 ≤ n := by
  have hinv := forEach_invariant (fun s : LoadState V => ∀ c ∈ s.calls, c.1 ≤ n)
    (fun _ => True) (loadAt fields raw bitByte) (List.range n)
    (by
      intro p hp s hs
      have hp2 := List.mem_range.mp hp
      obtain ⟨_, g2, _⟩ := loadAt_ghost fields raw bitByte p s
      refine ⟨?_, fun _ _ => trivial⟩
      rcases g2 with g2 | ⟨_, g2⟩
      · rw [g2]; exact hs
      · rw [g2]
        intro c hc
        rcases List.mem_append.mp hc with hc | hc
        · exact hs c hc
        · simp only [List.mem_singleton] at hc
          rw [hc]
          show p + 1 ≤ n
          omega)
    st h
  exact hinv.1

/-- C9: when the bitmap of the input marks a field number `i` other than 1 that the
body does not declare, and the iterations for the field numbers before `i` complete
(every earlier present field is declared and decodes without error), `Load` returns
the undefined-field error naming `i` ("field i not defined") and invokes no codec for
`i` or a later field number, wherever the running offset stands. -/
theorem Load_undefined_field {V : Type} (env : Env) (m : Message V) (raw spare : List Nat)
    (h : LoadHeader V) (i : Nat) (st : LoadState V)
    (hh : loadHeader env m raw spare = .ok h)
    (hi1 : i ≠ 1) (hi2 : 1 ≤ i) (hi3 : i ≤ h.byteNum / 2 * 8)
    (hbit : bitSet h.bitByte i = true)
    (hundef : h.fields (i : Int) = none)
    (hprev : forEach (loadAt h.fields raw h.bitByte) (List.range (i - 1))
        ⟨h.slots, h.start, [], []⟩ = (st, none)) :
    Load env m raw spare = .error (.notDefined i)
      ∧ (Err.notDefined i).msg = "field " ++ toString (i : Int) ++ " not defined"
      ∧ (LoadRun.run env m raw spare).calls = st.calls
      ∧ (∀ c ∈ (LoadRun.run env m raw spare).calls, c.1 < i)
      ∧ (LoadRun.run env m raw spare).start = st.start := by
  have hcalls := forEach_calls_lt h.fields raw h.bitByte (i - 1) ⟨h.slots, h.start, [], []⟩
    (by simp)
  rw [hprev] at hcalls
  have hi : i - 1 + 1 = i := by omega
  have hb : bitSet h.bitByte (i - 1 + 1) = true := by rw [hi]; exact hbit
  have hf : h.fields ((i - 1 + 1 : Nat) : Int) = none := by rw [hi]; exact hundef
  have hstep := loadAt_marked h.fields raw h.bitByte (i - 1) st hb (by omega)
  rw [hf] at hstep
  simp only at hstep
  have hrun : LoadRun.run env m raw spare
      = ⟨{ h.msg with Data := some st.slots }, st.start, st.present ++ [i], st.calls,
          .error (.notDefined i)⟩ := by
    rw [LoadRun_of_header env m raw spare h hh, range_split _ i hi2 hi3, forEach_append, hprev]
    simp only [forEach, hstep, Exit.toOutcome, hi]
  unfold Load
  rw [hrun]
  refine ⟨rfl, rfl, rfl, ?_, rfl⟩
  intro c hc
  have := hcalls c hc
  omega

theorem Load_undefined_field_witness :
    loadHeader exampleEnv msgRecv2 raw25 [] = .ok (headerOr exampleEnv msgRecv2 raw25 [])
      ∧ (5 ≠ 1 ∧ 1 ≤ 5 ∧ 5 ≤ (headerOr exampleEnv msgRecv2 raw25 []).byteNum / 2 * 8)
      ∧ bitSet (headerOr exampleEnv msgRecv2 raw25 []).bitByte 5 = true
      ∧ (headerOr exampleEnv msgRecv2 raw25 []).fields ((5 : Nat) : Int) = none
      ∧ forEach (loadAt (headerOr exampleEnv msgRecv2 raw25 []).fields raw25
            (headerOr exampleEnv msgRecv2 raw25 []).bitByte) (List.range (5 - 1))
          ⟨(headerOr exampleEnv msgRecv2 raw25 []).slots,
            (headerOr exampleEnv msgRecv2 raw25 []).start, [], []⟩ = (state25, none)
      ∧ state25.start = 120 ∧ raw25.length = 20
      ∧ (Load exampleEnv msgRecv2 raw25 [] = .error (.notDefined (5 : Nat))
          ∧ (Err.notDefined (5 : Nat)).msg = "field " ++ toString ((5 : Nat) : Int) ++ " not defined"
          ∧ (LoadRun.run exampleEnv msgRecv2 raw25 []).calls = state25.calls
          ∧ (∀ c ∈ (LoadRun.run exampleEnv msgRecv2 raw25 []).calls, c.1 < 5)
          ∧ (LoadRun.run exampleEnv msgRecv2 raw25 []).start = state25.start) :=
  ⟨rfl, by decide, by decide, rfl, rfl, by decide, by decide,
    Load_undefined_field exampleEnv msgRecv2 raw25 [] (headerOr exampleEnv msgRecv2 raw25 []) 5
      state25 rfl (by decide) (by decide) (by decide) (by decide) rfl rfl⟩

/-! ## Reading back the bitmap text -/

theorem hexToInt_hexDigit (n : Nat) (h : n < 16) : hexToInt [hexDigit n] = n := by
  interval_cases n <;> rfl

theorem hexDigit_lt (n : Nat) (h : n < 16) : hexDigit n < 128 := by
  interval_cases n <;> decide

theorem hexUpper_cons (b : Nat) (bs : List Nat) :
    hexUpper (b :: bs) = hexDigit (b / 16 % 16) :: hexDigit (b % 16) :: hexUpper bs := by
  simp [hexUpper]

theorem hexPairs_cons (c1 c2 : Nat) (rest : List Nat) :
    hexPairs (c1 :: c2 :: rest)
      = ((hexToInt [c1] <<< 4) + hexToInt [c2]) % 256 :: hexPairs rest := rfl

theorem hexPairs_hexUpper (bs : List Nat) (h : ∀ b ∈ bs, b < 256) :
    hexPairs (hexUpper bs) = bs := by
  induction bs with
  | nil => rfl
  | cons b bs ih =>
    have hb : b < 256 := h b (List.mem_cons_self _ _)
    rw [hexUpper_cons, hexPairs_cons, ih (fun x hx => h x (List.mem_cons_of_mem _ hx)),
      hexToInt_hexDigit _ (Nat.mod_lt _ (by norm_num)),
      hexToInt_hexDigit _ (Nat.mod_lt _ (by norm_num)), Nat.shiftLeft_eq]
    congr 1
    omega

theorem convertHex_hexUpper (bs : List Nat) (h : ∀ b ∈ bs, b < 256) :
    convertHexStringToByte (hexUpper bs) = .ok bs := by
  unfold convertHexStringToByte
  rw [length_hexUpper, if_neg (by omega), hexPairs_hexUpper bs h]

/-- The first character of the bitmap text announces a second bitmap exactly when field
number 1 is marked. -/
theorem first_char_second (flag : Nat → Bool) :
    decide (hexToInt (runeToString (hexDigit (packByte flag 0 / 16 % 16))) &&& 0x8 = 0x8)
      = flag 1 := by
  unfold packByte
  simp only [List.range, List.range.loop, List.foldl]
  generalize flag (0 * 8 + 0 + 1) = f0
  generalize flag (0 * 8 + 1 + 1) = f1
  generalize flag (0 * 8 + 2 + 1) = f2
  generalize flag (0 * 8 + 3 + 1) = f3
  generalize flag (0 * 8 + 4 + 1) = f4
  generalize flag (0 * 8 + 5 + 1) = f5
  generalize flag (0 * 8 + 6 + 1) = f6
  generalize flag (0 * 8 + 7 + 1) = f7
  revert f0 f1 f2 f3 f4 f5 f6 f7
  decide

theorem hexUpper_head (flag : Nat → Bool) (n : Nat) (hn : 0 < n) :
    (hexUpper (bitmapOf flag n))[0]? = some (hexDigit (packByte flag 0 / 16 % 16)) := by
  obtain ⟨k, rfl⟩ : ∃ k, n = k + 1 := ⟨n - 1, by omega⟩
  unfold bitmapOf hexUpper
  rw [List.range_succ_eq_map]
  simp

theorem byteCount_pos (sb : Bool) : 0 < byteCount sb := by cases sb <;> decide

/-- The part of `Load` before the loops, on an input that starts with a 4-byte MTI
followed by the hex text of a bitmap of `byteCount sb` bytes whose bit 1 is `sb`. -/
theorem loadHeader_text {V : Type} (env : Env) (m : Message V) (sb : Bool) (flag : Nat → Bool)
    (raw mti data spare : List Nat) (slots : List (Slot V)) (fields : FieldMap V)
    (hraw : raw = mti ++ hexUpper (bitmapOf flag (byteCount sb)) ++ data)
    (hflag : flag 1 = sb) (hmti : mti.length = 4) (htext : m.MtiEncode ≠ env.BCD)
    (hdata : m.Data = some slots) (hfields : parseFields env (some slots) = .ok fields)
    (hdec : m.Mti = [] → (env.decodeMti raw m.MtiEncode).2 = none) :
    loadHeader env m raw spare
      = .ok ⟨{ Mti := if m.Mti = [] then (env.decodeMti raw m.MtiEncode).1 else m.Mti,
               MtiEncode := m.MtiEncode, SecondBitmap := sb || m.SecondBitmap,
               Data := some slots },
             slots, fields, 2 * byteCount sb, bitmapOf flag (byteCount sb),
             4 + 2 * byteCount sb⟩ := by
  obtain ⟨mMti, mEnc, mSB, mData⟩ := m
  simp only at hdata htext hdec ⊢
  subst hdata
  have hlen : (hexUpper (bitmapOf flag (byteCount sb))).length = 2 * byteCount sb := by
    rw [length_hexUpper, length_bitmapOf]
  have hget : raw.get? 4 = some (hexDigit (packByte flag 0 / 16 % 16)) := by
    have h0 := hexUpper_head flag (byteCount sb) (byteCount_pos sb)
    have hlt : 0 < (hexUpper (bitmapOf flag (byteCount sb))).length := by
      rw [hlen]; have := byteCount_pos sb; omega
    rw [hraw, List.get?_eq_getElem?, List.append_assoc, List.getElem?_append_right (by omega),
      hmti, List.getElem?_append_left (by simpa using hlt)]
    simpa using h0
  have hsecond : decide (hexToInt (runeToString (hexDigit (packByte flag 0 / 16 % 16)))
      &&& 0x8 = 0x8) = sb := by rw [first_char_second, hflag]
  have htake : ((raw ++ spare).drop 4).take (2 * byteCount sb)
      = hexUpper (bitmapOf flag (byteCount sb)) := by
    rw [hraw, List.append_assoc, List.append_assoc, ← hmti, List.drop_left, ← hlen,
      List.take_left]
  have hconv := convertHex_hexUpper (bitmapOf flag (byteCount sb)) (bitmapOf_lt flag _)
  have hbound : ¬ (4 + 2 * byteCount sb > raw.length + spare.length) := by
    rw [hraw]
    simp only [List.length_append, hlen, hmti]
    omega
  clear hraw
  rw [List.get?_eq_getElem?] at hget
  have hlt : ¬ (raw.length + spare.length < 4 + 2 * byteCount sb) := by omega
  unfold loadHeader
  by_cases hM : mMti = []
  · have hd := hdec hM
    cases sb
    · have h16 : (2 * byteCount false) = 16 := rfl
      have h8 : byteCount false = 8 := rfl
      rw [h16] at htake hlt
      rw [h8] at htake hconv
      simp [hM, hd, hfields, hget, hsecond, htake, hconv, htext, hlt, byteCount]
    · have h32 : (2 * byteCount true) = 32 := rfl
      have h8 : byteCount true = 16 := rfl
      rw [h32] at htake hlt
      rw [h8] at htake hconv
      simp [hM, hd, hfields, hget, hsecond, htake, hconv, htext, hlt, byteCount]
  · cases sb
    · have h16 : (2 * byteCount false) = 16 := rfl
      have h8 : byteCount false = 8 := rfl
      rw [h16] at htake hlt
      rw [h8] at htake hconv
      simp [hM, hfields, hget, hsecond, htake, hconv, htext, hlt, byteCount]
    · have h32 : (2 * byteCount true) = 32 := rfl
      have h8 : byteCount true = 16 := rfl
      rw [h32] at htake hlt
      rw [h8] at htake hconv
      simp [hM, hfields, hget, hsecond, htake, hconv, htext, hlt, byteCount]

/-! ## What `parseFields` puts into the map -/

theorem parseFieldsFrom_entries {V : Type} (env : Env) (all : List (Slot V)) :
    ∀ (rest : List (Slot V)) (pos : Nat) (acc f : FieldMap V),
      all.drop pos = rest → entriesFrom all acc pos →
      parseFieldsFrom env rest pos acc = .ok f → entriesFrom all f all.length := by
  intro rest
  induction rest with
  | nil =>
    intro pos acc f hdrop hacc hp
    simp only [parseFieldsFrom, Outcome.ok.injEq] at hp
    subst hp
    have hle : all.length ≤ pos := by
      have := congrArg List.length hdrop
      simp only [List.length_drop, List.length_nil] at this
      omega
    intro i info hi
    obtain ⟨h1, s, h2, h3⟩ := hacc i info hi
    have := List.get?_eq_some.mp h2
    obtain ⟨hlt, _⟩ := this
    exact ⟨hlt, s, h2, h3⟩
  | cons s rest ih =>
    intro pos acc f hdrop hacc hp
    have hpos : all.get? pos = some s := by
      rw [List.get?_eq_getElem?, ← List.head?_drop, hdrop]
      rfl
    have hdrop2 : all.drop (pos + 1) = rest := by
      rw [← List.drop_drop]
      have : List.drop 1 (List.drop pos all) = List.drop 1 (s :: rest) := by rw [hdrop]
      simpa [Nat.add_comm] using this
    have hweak : entriesFrom all acc (pos + 1) := by
      intro i info hi
      obtain ⟨h1, h2⟩ := hacc i info hi
      exact ⟨by omega, h2⟩
    unfold parseFieldsFrom at hp
    split at hp
    · exact ih (pos + 1) acc f hdrop2 hweak hp
    · split at hp
      · exact ih (pos + 1) acc f hdrop2 hweak hp
      · split at hp
        · simp at hp
        · rename_i index hidx
          split at hp
          · simp at hp
          · split at hp
            · simp at hp
            · refine ih (pos + 1) _ f hdrop2 ?_ hp
              intro i info hi
              dsimp only at hi
              by_cases hii : i = index
              · rw [if_pos hii] at hi
                simp only [Option.some.injEq] at hi
                subst hi
                exact ⟨by simp, s, hpos, by rw [hii]; exact hidx, rfl⟩
              · rw [if_neg hii] at hi
                exact hweak i info hi

theorem parseFields_entries {V : Type} (env : Env) (slots : List (Slot V)) (f : FieldMap V)
    (h : parseFields env (some slots) = .ok f) : entriesFrom slots f slots.length := by
  unfold parseFields at h
  exact parseFieldsFrom_entries env slots slots 0 _ f rfl
    (by intro i info hi; simp at hi) h

/-- Distinct keys of the map point into distinct struct fields. -/
theorem entries_inj {V : Type} (all : List (Slot V)) (f : FieldMap V) (n : Nat)
    (h : entriesFrom all f n) (i j : Int) (a b : fieldInfo V) (ha : f i = some a)
    (hb : f j = some b) (hs : a.slot = b.slot) : a = b := by
  obtain ⟨_, s, h1, h2, _⟩ := h i a ha
  obtain ⟨_, t, h3, h4, _⟩ := h j b hb
  rw [hs, h3] at h1
  simp only [Option.some.injEq] at h1
  subst h1
  rw [h4] at h2
  simp only [Option.some.injEq] at h2
  subst h2
  rw [ha] at hb
  simpa using hb

/-- Bodies with the same schema resolve to maps with the same keys and entries. -/
theorem parseFieldsFrom_sameKeys {V : Type} (env : Env) (a b : List (Slot V))
    (hab : sameSchema a b) :
    ∀ (pos : Nat) (acc acc2 f : FieldMap V), sameKeys acc acc2 →
      parseFieldsFrom env a pos acc = .ok f →
      ∃ g, parseFieldsFrom env b pos acc2 = .ok g ∧ sameKeys f g := by
  unfold sameSchema at hab
  induction hab with
  | nil =>
    intro pos acc acc2 f hacc hp
    simp only [parseFieldsFrom, Outcome.ok.injEq] at hp
    subst hp
    exact ⟨acc2, rfl, hacc⟩
  | @cons s t ra rb hst _ ih =>
    intro pos acc acc2 f hacc hp
    obtain ⟨h1, h2, h3, h4, h5⟩ := hst
    unfold parseFieldsFrom at hp ⊢
    rw [← h1, ← h2, ← h3, ← h4, ← h5]
    by_cases hn : s.nilPtr = true
    · rw [if_pos hn] at hp ⊢
      exact ih (pos + 1) acc acc2 f hacc hp
    · rw [if_neg hn] at hp ⊢
      by_cases ht : s.tagField = ""
      · rw [if_pos ht] at hp ⊢
        exact ih (pos + 1) acc acc2 f hacc hp
      · rw [if_neg ht] at hp ⊢
        cases hA : Atoi s.tagField with
        | none => rw [hA] at hp; simp at hp
        | some index =>
          rw [hA] at hp
          simp only at hp ⊢
          cases hL : parseLengthTag s.tagLength with
          | none => rw [hL] at hp; simp at hp
          | some length =>
            rw [hL] at hp
            simp only at hp ⊢
            cases hC : s.codec with
            | none => rw [hC] at hp; simp at hp
            | some field =>
              rw [hC] at hp
              simp only at hp ⊢
              refine ih (pos + 1) _ _ f ?_ hp
              intro i
              by_cases hii : i = index
              · simp only [if_pos hii]
                exact ⟨rfl, rfl, rfl, rfl, rfl, rfl⟩
              · simp only [if_neg hii]
                exact hacc i

theorem parseFields_sameKeys {V : Type} (env : Env) (a b : List (Slot V))
    (hab : sameSchema a b) (f : FieldMap V) (h : parseFields env (some a) = .ok f) :
    ∃ g, parseFields env (some b) = .ok g ∧ sameKeys f g := by
  unfold parseFields at h ⊢
  exact parseFieldsFrom_sameKeys env a b hab 0 _ _ f (by intro i; trivial) h

/-! ## Writing values back into the body -/

theorem length_storeVal {V : Type} (v : V) (pos : Nat) (slots : List (Slot V)) :
    (storeVal v pos slots).length = slots.length := by
  induction slots generalizing pos with
  | nil => cases pos <;> rfl
  | cons s rest ih =>
    cases pos with
    | zero => rfl
    | succ n => simp [storeVal, ih]

theorem valAt_storeVal_same {V : Type} (v : V) (pos : Nat) (slots : List (Slot V))
    (h : pos < slots.length) : valAt (storeVal v pos slots) pos = some v := by
  induction slots generalizing pos with
  | nil => simp at h
  | cons s rest ih =>
    cases pos with
    | zero => rfl
    | succ n =>
      have hn : n < rest.length := by simpa using h
      have := ih n hn
      simpa [valAt, storeVal] using this

theorem valAt_storeVal_other {V : Type} (v : V) (pos q : Nat) (slots : List (Slot V))
    (h : q ≠ pos) : valAt (storeVal v pos slots) q = valAt slots q := by
  induction slots generalizing pos q with
  | nil => cases pos <;> rfl
  | cons s rest ih =>
    cases pos with
    | zero =>
      cases q with
      | zero => exact absurd rfl h
      | succ k => rfl
    | succ n =>
      cases q with
      | zero => rfl
      | succ k =>
        have := ih n k (by omega)
        simpa [valAt, storeVal] using this

theorem sameSchema_storeVal {V : Type} (v : V) (pos : Nat) (a b : List (Slot V))
    (h : sameSchema a b) : sameSchema a (storeVal v pos b) := by
  unfold sameSchema at h ⊢
  induction h generalizing pos with
  | nil => cases pos <;> exact List.Forall₂.nil
  | @cons s t ra rb hst hr ih =>
    cases pos with
    | zero => exact List.Forall₂.cons hst hr
    | succ n => exact List.Forall₂.cons hst (ih n)

theorem length_storeAll {V : Type} (fields : FieldMap V) (ps : List Nat) (slots : List (Slot V)) :
    (storeAll fields ps slots).length = slots.length := by
  unfold storeAll
  induction ps generalizing slots with
  | nil => rfl
  | cons p ps ih =>
    simp only [List.foldl_cons]
    rw [ih]
    split
    · exact length_storeVal _ _ _
    · rfl

theorem sameSchema_storeAll {V : Type} (fields : FieldMap V) (ps : List Nat)
    (a b : List (Slot V)) (h : sameSchema a b) : sameSchema a (storeAll fields ps b) := by
  unfold storeAll
  induction ps generalizing b with
  | nil => exact h
  | cons p ps ih =>
    simp only [List.foldl_cons]
    apply ih
    split
    · exact sameSchema_storeVal _ _ _ _ h
    · exact h

/-- After the values have been written back, the struct field of every written key
holds the value of its map entry. -/
theorem valAt_storeAll {V : Type} (fields : FieldMap V)
    (hinj : ∀ (i j : Int) (a b : fieldInfo V), fields i = some a → fields j = some b →
      a.slot = b.slot → a = b)
    (ps : List Nat) (slots : List (Slot V)) (q : Nat) (a : fieldInfo V)
    (ha : fields ((q + 1 : Nat) : Int) = some a) (hlt : a.slot < slots.length)
    (h : q ∈ ps ∨ valAt slots a.slot = some a.val) :
    valAt (storeAll fields ps slots) a.slot = some a.val := by
  unfold storeAll
  induction ps generalizing slots with
  | nil =>
    rcases h with h | h
    · simp at h
    · exact h
  | cons p ps ih =>
    simp only [List.foldl_cons]
    cases hp : fields ((p + 1 : Nat) : Int) with
    | none =>
      simp only
      apply ih _ hlt
      rcases h with h | h
      · rcases List.mem_cons.mp h with rfl | h
        · rw [hp] at ha; simp at ha
        · exact Or.inl h
      · exact Or.inr h
    | some b =>
      simp only
      apply ih _ (by rw [length_storeVal]; exact hlt)
      by_cases hs : a.slot = b.slot
      · have hab := hinj _ _ a b ha hp hs
        subst hab
        exact Or.inr (valAt_storeVal_same _ _ _ hlt)
      · rcases h with h | h
        · rcases List.mem_cons.mp h with rfl | h
          · rw [hp] at ha
            simp only [Option.some.injEq] at ha
            exact absurd (by rw [ha]) hs
          · exact Or.inl h
        · right
          rw [valAt_storeVal_other _ _ _ _ hs]
          exact h

/-! ## The loops of `Load` on the output of `Bytes` -/

theorem isKey_false_iff {V : Type} (fields : FieldMap V) (i : Nat) :
    isKey fields i = false ↔ fields (i : Int) = none := by
  unfold isKey
  cases fields (i : Int) <;> simp

theorem sameKeys_some {V : Type} (f g : FieldMap V) (h : sameKeys f g) (i : Int)
    (a : fieldInfo V) (ha : f i = some a) : ∃ b, g i = some b ∧ a.sameShape b := by
  have := h i
  rw [ha] at this
  cases hg : g i with
  | none => rw [hg] at this; exact absurd this (by simp)
  | some b => rw [hg] at this; exact ⟨b, rfl, this⟩

theorem forEach_loadAt_roundtrip {V : Type} (sb : Bool) (fields fields2 : FieldMap V)
    (bitByte : List Nat) (hkeys : sameKeys fields fields2)
    (hrt : ∀ (i : Int) (info : fieldInfo V), fields i = some info → roundTrips info)
    (h1 : isKey fields 1 = false) (ps : List Nat)
    (hbits : ∀ p ∈ ps, bitSet bitByte (p + 1) = flagged sb fields (p + 1)) :
    ∀ (raw pre suffix : List Nat) (st : LoadState V),
      raw = pre ++ ps.flatMap (fun p => payload fields (p + 1)) ++ suffix →
      st.start = (pre.length : Int) → (raw.length : Int) < 2 ^ 63 →
      ∃ st2, forEach (loadAt fields2 raw bitByte) ps st = (st2, none)
        ∧ st2.slots = storeAll fields ps st.slots
        ∧ st2.start = ((pre ++ ps.flatMap (fun p => payload fields (p + 1))).length : Int)
        ∧ st2.present = st.present ++ (ps.filter fun p => isKey fields (p + 1)).map (· + 1)
        ∧ st2.calls.map Prod.fst
            = st.calls.map Prod.fst ++ (ps.filter fun p => isKey fields (p + 1)).map (· + 1) := by
  induction ps with
  | nil =>
    intro raw pre suffix st _ hst _
    exact ⟨st, rfl, rfl, by simpa using hst, by simp, by simp⟩
  | cons p ps ih =>
    intro raw pre suffix st hraw hst hlen
    have hbits2 : ∀ q ∈ ps, bitSet bitByte (q + 1) = flagged sb fields (q + 1) :=
      fun q hq => hbits q (List.mem_cons_of_mem _ hq)
    have hbit := hbits p (List.mem_cons_self _ _)
    simp only [forEach]
    cases hf : fields ((p + 1 : Nat) : Int) with
    | none =>
      have hk : isKey fields (p + 1) = false := (isKey_false_iff fields (p + 1)).mpr hf
      have hpl : payload fields (p + 1) = [] := by unfold payload; rw [hf]
      have hskip : bitSet bitByte (p + 1) = false ∨ p = 0 := by
        by_cases hp : p = 0
        · exact Or.inr hp
        · left
          rw [hbit]
          unfold flagged
          rw [hk]
          have : (p + 1 == 1) = false := by simpa using hp
          rw [this]
          simp
      rw [loadAt_skip _ _ _ _ _ hskip]
      simp only
      have hraw2 : raw = pre ++ ps.flatMap (fun q => payload fields (q + 1)) ++ suffix := by
        rw [hraw, List.flatMap_cons, hpl, List.nil_append]
      obtain ⟨st2, e1, e2, e3, e4, e5⟩ := ih hbits2 raw pre suffix st hraw2 hst hlen
      refine ⟨st2, e1, ?_, ?_, ?_, ?_⟩
      · rw [e2]
        unfold storeAll
        simp only [List.foldl_cons, hf]
      · rw [e3, List.flatMap_cons, hpl, List.nil_append]
      · rw [e4, List.filter_cons, hk]
        simp
      · rw [e5, List.filter_cons, hk]
        simp
    | some a =>
      have hk : isKey fields (p + 1) = true := by unfold isKey; rw [hf]; rfl
      have hp : p ≠ 0 := by
        intro h0
        subst h0
        rw [h1] at hk
        exact absurd hk (by decide)
      have hb : bitSet bitByte (p + 1) = true := by
        rw [hbit]
        unfold flagged
        rw [hk]
        rfl
      obtain ⟨b, hg, s1, s2, s3, s4, s5, s6⟩ := sameKeys_some fields fields2 hkeys _ a hf
      obtain ⟨d, hd, hload⟩ := hrt _ a hf
      have hpl : payload fields (p + 1) = d := by unfold payload; rw [hf]; simp only [hd]
      have hraw2 : raw = (pre ++ d) ++ ps.flatMap (fun q => payload fields (q + 1)) ++ suffix := by
        rw [hraw, List.flatMap_cons, hpl]
        simp only [List.append_assoc]
      have hdrop : raw.drop st.start.toNat
          = d ++ (ps.flatMap (fun q => payload fields (q + 1)) ++ suffix) := by
        rw [hst, Int.toNat_ofNat, hraw2]
        simp only [List.append_assoc]
        rw [List.drop_left]
      have hle : pre.length + d.length ≤ raw.length := by
        rw [hraw2]
        simp only [List.length_append]
        omega
      have hnot1 : ¬ (st.start > (raw.length : Int)) := by
        rw [hst]
        omega
      have hnot2 : ¬ (st.start < 0) := by
        rw [hst]
        omega
      have hwrap : wrapInt (st.start + (d.length : Int)) = ((pre ++ d).length : Int) := by
        rw [wrapInt_eq _ (by rw [hst]; omega) (by rw [hst]; omega), hst]
        simp
      rw [loadAt_marked _ _ _ _ _ hb hp, hg]
      simp only [if_neg hnot1, if_neg hnot2, hdrop, ← s2, ← s3, ← s4, ← s5, ← s6, hload, hwrap]
      obtain ⟨st2, e1, e2, e3, e4, e5⟩ := ih hbits2 raw (pre ++ d) suffix
        ⟨storeVal a.val a.slot st.slots, ((pre ++ d).length : Int), st.present ++ [p + 1],
          st.calls ++ [(p + 1, st.start)]⟩ hraw2 rfl hlen
      refine ⟨st2, e1, ?_, ?_, ?_, ?_⟩
      · rw [e2]
        unfold storeAll
        simp only [List.foldl_cons, hf]
      · rw [e3, List.flatMap_cons, hpl]
        simp only [List.append_assoc]
      · rw [e4, List.filter_cons, hk]
        simp
      · rw [e5, List.filter_cons, hk]
        simp

/-! ## Round trip -/

theorem bitSet_bitmapOf {V : Type} (sb : Bool) (fields : FieldMap V) (n p : Nat)
    (hp : p < n * 8) :
    bitSet (bitmapOf (flagged sb fields) n) (p + 1) = flagged sb fields (p + 1) := by
  rw [← markBits_eq_bitmapOf, bitSet_markBits _ _ _ _ (by omega) (by omega)]

theorem encodes_of_roundTrips {V : Type} (fields : FieldMap V)
    (hrt : ∀ (i : Int) (info : fieldInfo V), fields i = some info → roundTrips info) (i : Nat) :
    encodes fields i = true := by
  unfold encodes
  cases hf : fields (i : Int) with
  | none => rfl
  | some info =>
    obtain ⟨d, hd, _⟩ := hrt _ info hf
    simp only [hd]

/-- C4: round trip. For a message in text MTI mode with a 4-character Mti whose present
field numbers all lie in 2..64 (2..128 with the second bitmap) and whose field codecs
satisfy the round-trip contract, loading the output of `Bytes` into a fresh message
with the same schema succeeds, invokes the codecs of exactly the original present field
numbers in ascending order, restores every field value and leaves Mti equal to the
original, whatever the number of present fields. -/
theorem Load_Bytes_roundtrip {V : Type} (env : Env) (m m2 : Message V)
    (slots slots2 : List (Slot V)) (fields : FieldMap V) (out spare : List Nat)
    (hmti : m.Mti.length = 4) (htext : m.MtiEncode ≠ env.BCD)
    (hdata : m.Data = some slots) (hfields : parseFields env (some slots) = .ok fields)
    (hrange : ∀ i : Int, (fields i).isSome = true →
      2 ≤ i ∧ i ≤ 8 * (byteCount m.SecondBitmap : Int))
    (hrt : ∀ (i : Int) (info : fieldInfo V), fields i = some info → roundTrips info)
    (hout : Bytes env m = .ok out) (hlen : (out.length : Int) < 2 ^ 63)
    (henc2 : m2.MtiEncode = m.MtiEncode) (hdata2 : m2.Data = some slots2)
    (hschema : sameSchema slots slots2)
    (hmti2 : m2.Mti = m.Mti ∨ (m2.Mti = [] ∧ env.decodeMti out m.MtiEncode = (m.Mti, none))) :
    (LoadRun.run env m2 out spare).res = .ok ()
      ∧ (LoadRun.run env m2 out spare).calls.map Prod.fst
          = (List.range' 1 (8 * byteCount m.SecondBitmap)).filter (isKey fields)
      ∧ (LoadRun.run env m2 out spare).present
          = (List.range' 1 (8 * byteCount m.SecondBitmap)).filter (isKey fields)
      ∧ (LoadRun.run env m2 out spare).msg.Mti = m.Mti
      ∧ ∃ final, (LoadRun.run env m2 out spare).msg.Data = some final
          ∧ sameSchema slots final
          ∧ ∀ (i : Int) (info : fieldInfo V), fields i = some info →
              valAt final info.slot = some info.val := by
  have hfm : parseFields env m.Data = .ok fields := by rw [hdata]; exact hfields
  have hk1 : isKey fields 1 = false := by
    cases hk : isKey fields 1
    · rfl
    · have := hrange 1 (by simpa [isKey] using hk)
      omega
  have hflag : flagged m.SecondBitmap fields 1 = m.SecondBitmap := by
    unfold flagged
    rw [hk1]
    cases m.SecondBitmap <;> rfl
  -- the output of `Bytes`
  have hlay := Bytes_layout_eq env m fields hmti htext hfm
    (fun i _ => encodes_of_roundTrips fields hrt i)
  rw [hout] at hlay
  simp only [Outcome.ok.injEq] at hlay
  -- the fresh field map
  obtain ⟨fields2, hfields2, hkeys⟩ := parseFields_sameKeys env slots slots2 hschema fields hfields
  have hne : m.Mti ≠ [] := by
    intro h
    rw [h] at hmti
    simp at hmti
  have hdec : m2.Mti = [] → (env.decodeMti out m2.MtiEncode).2 = none := by
    intro h0
    rcases hmti2 with h | ⟨_, h⟩
    · rw [h] at h0; exact absurd h0 hne
    · rw [henc2, h]
  have hhead := loadHeader_text env m2 m.SecondBitmap (flagged m.SecondBitmap fields) out m.Mti
    ((List.range' 1 (8 * byteCount m.SecondBitmap)).flatMap (payload fields)) spare slots2
    fields2 hlay hflag hmti (by rw [henc2]; exact htext) hdata2 hfields2 hdec
  have hnum : 2 * byteCount m.SecondBitmap / 2 * 8 = byteCount m.SecondBitmap * 8 := by
    cases m.SecondBitmap <;> rfl
  have hraw : out = (m.Mti ++ hexUpper (bitmapOf (flagged m.SecondBitmap fields)
        (byteCount m.SecondBitmap)))
      ++ (List.range (byteCount m.SecondBitmap * 8)).flatMap (fun p => payload fields (p + 1))
      ++ [] := by
    rw [List.append_nil, flatMap_payload, Nat.mul_comm]
    exact hlay
  obtain ⟨st2, e1, e2, e3, e4, e5⟩ := forEach_loadAt_roundtrip m.SecondBitmap fields fields2
    (bitmapOf (flagged m.SecondBitmap fields) (byteCount m.SecondBitmap)) hkeys hrt hk1
    (List.range (byteCount m.SecondBitmap * 8))
    (fun p hp => bitSet_bitmapOf _ _ _ _ (List.mem_range.mp hp))
    out _ [] ⟨slots2, ((4 + 2 * byteCount m.SecondBitmap : Nat) : Int), [], []⟩ hraw
    (by simp only [List.length_append, hmti, length_hexUpper, length_bitmapOf]) hlen
  have hrun := LoadRun_of_header env m2 out spare _ hhead
  simp only [hnum, e1] at hrun
  rw [hrun]
  simp only at e2 e4 e5
  refine ⟨rfl, ?_, ?_, ?_, ?_⟩
  · rw [e5, filter_isKey, Nat.mul_comm]
    rfl
  · rw [e4, filter_isKey, Nat.mul_comm]
    rfl
  · show (if m2.Mti = [] then (env.decodeMti out m2.MtiEncode).1 else m2.Mti) = m.Mti
    rcases hmti2 with h | ⟨h0, h⟩
    · rw [h, if_neg hne]
    · rw [if_pos h0, henc2, h]
  · refine ⟨st2.slots, rfl, ?_, ?_⟩
    · rw [e2]
      exact sameSchema_storeAll _ _ _ _ hschema
    · intro i info hi
      have hent := parseFields_entries env slots fields hfields
      have hr := hrange i (by rw [hi]; rfl)
      obtain ⟨q, hq⟩ : ∃ q : Nat, i = ((q + 1 : Nat) : Int) := ⟨(i - 1).toNat, by omega⟩
      subst hq
      rw [e2]
      apply valAt_storeAll fields (entries_inj slots fields _ hent) _ _ q info hi
      · have := (hent _ info hi).1
        rw [← List.Forall₂.length_eq hschema]
        exact this
      · left
        rw [List.mem_range]
        omega

theorem roundTrips_fixedText (i e le : Int) (v : List Nat) (pos : Nat) :
    roundTrips (⟨i, e, le, (v.length : Int), fixedText, v, pos⟩ : fieldInfo (List Nat)) := by
  refine ⟨v, by simp [fixedText], ?_⟩
  intro v0 suffix
  simp [fixedText]

set_option maxRecDepth 8000 in
theorem Load_Bytes_roundtrip_witness :
    (LoadRun.run exampleEnv msg2Fresh (str "02004020000000000000ABxyz") []).res = .ok ()
      ∧ (LoadRun.run exampleEnv msg2Fresh (str "02004020000000000000ABxyz") []).calls.map Prod.fst
          = (List.range' 1 (8 * byteCount msg2.SecondBitmap)).filter (isKey fields2)
      ∧ (LoadRun.run exampleEnv msg2Fresh (str "02004020000000000000ABxyz") []).present
          = (List.range' 1 (8 * byteCount msg2.SecondBitmap)).filter (isKey fields2)
      ∧ (LoadRun.run exampleEnv msg2Fresh (str "02004020000000000000ABxyz") []).msg.Mti = msg2.Mti
      ∧ ∃ final,
          (LoadRun.run exampleEnv msg2Fresh (str "02004020000000000000ABxyz") []).msg.Data
            = some final
          ∧ sameSchema [textSlot "2" "2" "AB", textSlot "11" "3" "xyz"] final
          ∧ ∀ (i : Int) (info : fieldInfo (List Nat)), fields2 i = some info →
              valAt final info.slot = some info.val :=
  Load_Bytes_roundtrip exampleEnv msg2 msg2Fresh
    [textSlot "2" "2" "AB", textSlot "11" "3" "xyz"]
    [textSlot "2" "2" "", textSlot "11" "3" "??"] fields2
    (str "02004020000000000000ABxyz") [] (by decide) (by decide) rfl rfl
    (by
      intro i hi
      unfold fields2 at hi
      have h8 : (8 * (byteCount msg2.SecondBitmap : Int)) = 64 := rfl
      rw [h8]
      split_ifs at hi with h11 h2
      · omega
      · omega
      · simp at hi)
    (by
      intro i info hi
      unfold fields2 at hi
      split_ifs at hi with h11 h2
      · simp only [Option.some.injEq] at hi
        subst hi
        exact roundTrips_fixedText 11 0 0 (str "xyz") 1
      · simp only [Option.some.injEq] at hi
        subst hi
        exact roundTrips_fixedText 2 0 0 (str "AB") 0)
    (by decide) (by decide) rfl rfl
    (List.Forall₂.cons ⟨rfl, rfl, rfl, rfl, rfl⟩
      (List.Forall₂.cons ⟨rfl, rfl, rfl, rfl, rfl⟩ List.Forall₂.nil))
    (Or.inr ⟨rfl, rfl⟩)

/-! ## Decoding a primary-only bitmap -/

/-- The field numbers recorded as present by iterations of `Load` that complete are
those marked in the bitmap, other than number 1. -/
theorem forEach_loadAt_present {V : Type} (fields : FieldMap V) (raw bitByte : List Nat)
    (ps : List Nat) (st st2 : LoadState V)
    (h : forEach (loadAt fields raw bitByte) ps st = (st2, none)) :
    st2.present
      = st.present ++ (ps.filter fun p => bitSet bitByte (p + 1) && p != 0).map (· + 1) := by
  induction ps generalizing st with
  | nil =>
    simp only [forEach, Prod.mk.injEq, and_true] at h
    subst h
    simp
  | cons p ps ih =>
    simp only [forEach] at h
    by_cases hskip : bitSet bitByte (p + 1) = false ∨ p = 0
    · rw [loadAt_skip _ _ _ _ _ hskip] at h
      simp only at h
      have hf : (bitSet bitByte (p + 1) && p != 0) = false := by
        rcases hskip with h1 | h1
        · rw [h1]; rfl
        · subst h1; simp
      rw [ih _ h, List.filter_cons, hf]
      simp
    · have hb : bitSet bitByte (p + 1) = true := by
        cases hc : bitSet bitByte (p + 1)
        · exact absurd (Or.inl hc) hskip
        · rfl
      have hp : p ≠ 0 := fun hc => hskip (Or.inr hc)
      have hf : (bitSet bitByte (p + 1) && p != 0) = true := by
        rw [hb]
        simpa using hp
      obtain ⟨g1, _, _⟩ := loadAt_ghost fields raw bitByte p st
      rcases hstep : loadAt fields raw bitByte p st with ⟨s1, _ | e⟩
      · rw [hstep] at h g1
        simp only at h g1
        have hpres : s1.present = st.present ++ [p + 1] := by
          rcases g1 with g1 | ⟨_, g1⟩
          · exfalso
            rw [loadAt_marked _ _ _ _ _ hb hp] at hstep
            have hne : ∀ (x : LoadState V × Option Exit), x.1.present = st.present ++ [p + 1] →
                x = (s1, none) → False := by
              intro x hx hx2
              rw [hx2] at hx
              simp only at hx
              rw [g1] at hx
              simp at hx
            revert hstep
            split
            · intro hstep; simp at hstep
            · split
              · exact hne _ rfl
              · split
                · intro hstep; simp at hstep
                · split
                  · intro hstep; simp at hstep
                  · exact hne _ rfl
          · exact g1
        rw [ih _ h, hpres, List.filter_cons, hf]
        simp
      · rw [hstep] at h
        simp at h

theorem filter_marked {V : Type} (fields : FieldMap V) (bitByte : List Nat) (n : Nat)
    (h1 : isKey fields 1 = false)
    (hbits : ∀ p ∈ List.range n, bitSet bitByte (p + 1) = isKey fields (p + 1)) :
    ((List.range n).filter fun p => bitSet bitByte (p + 1) && p != 0).map (· + 1)
      = (List.range' 1 n).filter (isKey fields) := by
  rw [← filter_isKey]
  congr 1
  apply List.filter_congr
  intro p hp
  rw [hbits p hp]
  by_cases h0 : p = 0
  · subst h0
    simp [h1]
  · simp [h0]

/-- C5, as amended: for every set of present field numbers within 2..128, the bitmap
text that `Bytes` emits with a primary-only bitmap has 16 characters, and a run of
`Load` on that output that completes reads 16 bitmap characters, takes the payloads to
start at offset 4 + 16, and finds present exactly the field numbers of the set that lie
in 2..64, in ascending order. -/
theorem decode_primary_bitmap {V : Type} (env : Env) (m m2 : Message V)
    (slots2 : List (Slot V)) (fields fields2 : FieldMap V) (out spare : List Nat)
    (hsb : m.SecondBitmap = false) (hmti : m.Mti.length = 4) (htext : m.MtiEncode ≠ env.BCD)
    (hfields : parseFields env m.Data = .ok fields)
    (hS : ∀ i : Int, (fields i).isSome = true → 2 ≤ i ∧ i ≤ 128)
    (hout : Bytes env m = .ok out)
    (henc2 : m2.MtiEncode = m.MtiEncode) (hdata2 : m2.Data = some slots2)
    (hfields2 : parseFields env (some slots2) = .ok fields2)
    (hdone : Load env m2 out spare = .ok ()) :
    ∃ h, loadHeader env m2 out spare = .ok h
      ∧ h.byteNum = 16 ∧ h.start = 4 + 16
      ∧ hexUpper h.bitByte = (out.drop 4).take 16
      ∧ (LoadRun.run env m2 out spare).present = (List.range' 1 64).filter (isKey fields) := by
  have hk1 : isKey fields 1 = false := by
    cases hk : isKey fields 1
    · rfl
    · have := hS 1 (by simpa [isKey] using hk)
      omega
  have hflag : flagged false fields 1 = false := by
    unfold flagged
    rw [hk1]
    rfl
  have hrun : (BytesRun.run env m).out.isOk = true := by
    unfold Bytes at hout
    rw [hout]
    rfl
  have hlay := Bytes_layout_eq env m fields hmti htext hfields
    (run_done env m m.Mti fields (encodeMti_text env m hmti htext) hfields hrun)
  rw [hout, hsb] at hlay
  simp only [Outcome.ok.injEq] at hlay
  have hdec : m2.Mti = [] → (env.decodeMti out m2.MtiEncode).2 = none := by
    intro h0
    cases hd : (env.decodeMti out m2.MtiEncode).2 with
    | none => rfl
    | some e =>
      exfalso
      unfold Load LoadRun.run loadHeader at hdone
      simp [h0, hd, Exit.toOutcome] at hdone
  have hhead := loadHeader_text env m2 false (flagged false fields) out m.Mti
    ((List.range' 1 (8 * byteCount false)).flatMap (payload fields)) spare slots2
    fields2 hlay hflag hmti (by rw [henc2]; exact htext) hdata2 hfields2 hdec
  refine ⟨_, hhead, rfl, rfl, ?_, ?_⟩
  · show hexUpper (bitmapOf (flagged false fields) (byteCount false)) = _
    have hl : (hexUpper (bitmapOf (flagged false fields) (byteCount false))).length = 16 := by
      rw [length_hexUpper, length_bitmapOf]
      rfl
    rw [hlay, List.append_assoc, ← hmti, List.drop_left, ← hl, List.take_left]
  · have hr := LoadRun_of_header env m2 out spare _ hhead
    unfold Load at hdone
    rw [hr] at hdone ⊢
    rcases hl : forEach (loadAt fields2 out (bitmapOf (flagged false fields) (byteCount false)))
        (List.range (2 * byteCount false / 2 * 8))
        ⟨slots2, ((4 + 2 * byteCount false : Nat) : Int), [], []⟩ with ⟨st, _ | e⟩
    · have hp := forEach_loadAt_present _ _ _ _ _ _ hl
      simp only [List.nil_append] at hp
      show st.present = _
      rw [hp]
      apply filter_marked fields _ 64 hk1
      intro p hp2
      rw [bitSet_bitmapOf false fields (byteCount false) p (List.mem_range.mp hp2)]
      unfold flagged
      simp
    · exfalso
      simp only at hdone
      rw [hl] at hdone
      cases e <;> simp [Exit.toOutcome] at hdone

theorem decode_primary_bitmap_witness :
    ∃ h, loadHeader exampleEnv msgRecv (str "02004020000000000000ABxyz") [] = .ok h
      ∧ h.byteNum = 16 ∧ h.start = 4 + 16
      ∧ hexUpper h.bitByte = ((str "02004020000000000000ABxyz").drop 4).take 16
      ∧ (LoadRun.run exampleEnv msgRecv (str "02004020000000000000ABxyz") []).present
          = (List.range' 1 64).filter (isKey (fieldsOf exampleEnv msg3.Data)) :=
  decode_primary_bitmap exampleEnv msg3 msgRecv
    [textSlot "2" "2" "", textSlot "11" "3" "", textSlot "70" "1" ""]
    (fieldsOf exampleEnv msg3.Data) (fieldsOf exampleEnv msgRecv.Data)
    (str "02004020000000000000ABxyz") [] rfl (by decide) (by decide) rfl
    (by
      intro i hi
      have hf : fieldsOf exampleEnv msg3.Data = fun j =>
          if j = 70 then some ⟨70, 0, 0, 1, fixedText, str "Q", 2⟩
          else if j = 11 then some ⟨11, 0, 0, 3, fixedText, str "xyz", 1⟩
          else if j = 2 then some ⟨2, 0, 0, 2, fixedText, str "AB", 0⟩
          else none := rfl
      rw [hf] at hi
      dsimp only at hi
      split_ifs at hi with h70 h11 h2
      · omega
      · omega
      · omega
      · simp at hi)
    (by decide) rfl rfl rfl (by decide)

/-- C5, the claim as stated fails: with the fields 2, 11 and 70 and a primary-only
bitmap, the first bitmap character is `4` (the bit of field 2), and decoding the output
against a body that declares 2, 11 and 70 completes with 16 bitmap characters read but
finds the fields 2 and 11 only. -/
theorem primary_bitmap_drops_field_70 :
    Bytes exampleEnv msg3 = .ok (str "0200" ++ str "4020000000000000" ++ str "ABxyz")
      ∧ hexToInt (str "4") &&& 0x4 = 0x4
      ∧ Load exampleEnv msgRecv (str "02004020000000000000ABxyz") [] = .ok ()
      ∧ (headerOr exampleEnv msgRecv (str "02004020000000000000ABxyz") []).byteNum = 16
      ∧ (LoadRun.run exampleEnv msgRecv (str "02004020000000000000ABxyz") []).present = [2, 11]
      ∧ (LoadRun.run exampleEnv msgRecv (str "02004020000000000000ABxyz") []).present
          ≠ [2, 11, 70] := by
  decide

/-! ## `hexToInt` and `convertHexStringToByte` -/

theorem hexToInt_eq_hexVal (c : Nat) : hexToInt [c] = hexVal c := by
  by_cases hc : c < 128
  · interval_cases c <;> rfl
  · have hne : ∀ k : Nat, k < 128 → ¬ ([c] = [k]) := by
      intro k hk h
      injection h with h1 _
      omega
    have hv : hexVal c = 0 := by
      unfold hexVal
      split_ifs <;> omega
    rw [hv]
    unfold hexToInt
    rw [if_neg (hne _ (by norm_num)), if_neg (hne _ (by norm_num)),
      if_neg (hne _ (by norm_num)), if_neg (hne _ (by norm_num)),
      if_neg (hne _ (by norm_num)), if_neg (hne _ (by norm_num)),
      if_neg (hne _ (by norm_num)), if_neg (hne _ (by norm_num)),
      if_neg (hne _ (by norm_num)), if_neg (hne _ (by norm_num)),
      if_neg (hne _ (by norm_num)), if_neg (hne _ (by norm_num)),
      if_neg (hne _ (by norm_num)), if_neg (hne _ (by norm_num)),
      if_neg (hne _ (by norm_num)), if_neg (hne _ (by norm_num))]

theorem hexVal_le (c : Nat) : hexVal c ≤ 15 := by
  unfold hexVal
  split_ifs <;> omega

theorem hexToInt_not_single (bs : List Nat) (h : bs.length ≠ 1) : hexToInt bs = 0 := by
  unfold hexToInt
  have hne : ∀ c : Nat, bs ≠ [c] := by
    intro c hc
    rw [hc] at h
    exact h rfl
  simp only [hne, if_false]

theorem length_hexPairs (hex : List Nat) : (hexPairs hex).length = hex.length / 2 := by
  induction hex using hexPairs.induct with
  | case1 c1 c2 rest ih =>
    rw [hexPairs_cons, List.length_cons, ih, List.length_cons, List.length_cons]
    omega
  | case2 x hx =>
    have hp : hexPairs x = [] := by
      unfold hexPairs
      split
      · exact absurd rfl (hx _ _ _)
      · rfl
    rw [hp]
    match x, hx with
    | [], _ => rfl
    | [_], _ => simp
    | c1 :: c2 :: rest, hx => exact absurd rfl (hx c1 c2 rest)

theorem getD_hexPairs (hex : List Nat) (k : Nat) (hk : 2 * k + 1 < hex.length) :
    (hexPairs hex).getD k 0
      = ((hexToInt [hex.getD (2 * k) 0] <<< 4) + hexToInt [hex.getD (2 * k + 1) 0]) % 256 := by
  induction hex using hexPairs.induct generalizing k with
  | case1 c1 c2 rest ih =>
    rw [hexPairs_cons]
    cases k with
    | zero => rfl
    | succ n =>
      have hn : 2 * n + 1 < rest.length := by
        simp only [List.length_cons] at hk
        omega
      have e1 : 2 * (n + 1) = (2 * n) + 1 + 1 := by omega
      have e2 : 2 * (n + 1) + 1 = (2 * n + 1) + 1 + 1 := by omega
      rw [e2, e1]
      simp only [List.getD_cons_succ]
      exact ih n hn
  | case2 x hx =>
    exfalso
    match x, hx, hk with
    | [], _, hk => simp at hk
    | [_], _, hk => simp at hk
    | c1 :: c2 :: rest, hx, _ => exact hx c1 c2 rest rfl

/-- C15: `convertHexStringToByte` fails if and only if its input has odd length; on an
input of even length it returns half as many bytes, byte `k` being
`16 * h(c[2k]) + h(c[2k+1])` and below 256, where `h = hexToInt` gives `0`-`9` and the
uppercase `A`-`F` their values 0..15 and every other character, the lowercase letters
included, the value 0. -/
theorem convertHexStringToByte_spec (hex : List Nat) :
    ((∃ e, convertHexStringToByte hex = .error e) ↔ hex.length % 2 = 1)
      ∧ (hex.length % 2 = 1 → convertHexStringToByte hex = .error .oddHex)
      ∧ (hex.length % 2 = 0 →
          ∃ bs, convertHexStringToByte hex = .ok bs ∧ bs.length = hex.length / 2
            ∧ ∀ k, k < bs.length →
                bs.getD k 0
                    = 16 * hexToInt [hex.getD (2 * k) 0] + hexToInt [hex.getD (2 * k + 1) 0]
                  ∧ bs.getD k 0 < 256)
      ∧ (∀ c, hexToInt [c] = hexVal c ∧ hexToInt [c] ≤ 15)
      ∧ (∀ c, 97 ≤ c → c ≤ 102 → hexToInt [c] = 0) := by
  have hodd : hex.length % 2 = 1 → convertHexStringToByte hex = .error .oddHex := by
    intro h
    unfold convertHexStringToByte
    rw [if_pos (by omega)]
  have heven : hex.length % 2 = 0 → convertHexStringToByte hex = .ok (hexPairs hex) := by
    intro h
    unfold convertHexStringToByte
    rw [if_neg (by omega)]
  refine ⟨⟨?_, ?_⟩, hodd, ?_, ?_, ?_⟩
  · rintro ⟨e, he⟩
    by_contra hc
    rw [heven (by omega)] at he
    simp at he
  · intro h
    exact ⟨_, hodd h⟩
  · intro h
    refine ⟨hexPairs hex, heven h, length_hexPairs hex, ?_⟩
    intro k hk
    rw [length_hexPairs] at hk
    have hval := getD_hexPairs hex k (by omega)
    have h1 := hexVal_le (hex.getD (2 * k) 0)
    have h2 := hexVal_le (hex.getD (2 * k + 1) 0)
    rw [hexToInt_eq_hexVal, hexToInt_eq_hexVal, Nat.shiftLeft_eq] at hval
    rw [hexToInt_eq_hexVal, hexToInt_eq_hexVal, hval]
    constructor <;> omega
  · intro c
    rw [hexToInt_eq_hexVal]
    exact ⟨rfl, hexVal_le c⟩
  · intro c h1 h2
    rw [hexToInt_eq_hexVal]
    unfold hexVal
    split_ifs <;> omega

theorem convertHexStringToByte_spec_witness :
    ((str "4A0").length % 2 = 1 ∧ convertHexStringToByte (str "4A0") = .error .oddHex)
      ∧ ((str "4A0f").length % 2 = 0
        ∧ ∃ bs, convertHexStringToByte (str "4A0f") = .ok bs ∧ bs.length = (str "4A0f").length / 2
            ∧ ∀ k, k < bs.length →
                bs.getD k 0 = 16 * hexToInt [(str "4A0f").getD (2 * k) 0]
                    + hexToInt [(str "4A0f").getD (2 * k + 1) 0]
                  ∧ bs.getD k 0 < 256)
      ∧ convertHexStringToByte (str "4A0f") = .ok [0x4A, 0x00]
      ∧ ((97 : Nat) ≤ 102 ∧ hexToInt [102] = 0) :=
  ⟨⟨by decide, (convertHexStringToByte_spec (str "4A0")).2.1 (by decide)⟩,
    ⟨by decide, (convertHexStringToByte_spec (str "4A0f")).2.2.1 (by decide)⟩,
    rfl,
    ⟨by decide, (convertHexStringToByte_spec []).2.2.2.2 102 (by decide) (by decide)⟩⟩

/-- C16: hex-text round trip. For every byte sequence `b`, the uppercase hexadecimal
rendering that `Bytes` uses has length `2 * len(b)`, and `convertHexStringToByte`
applied to it succeeds and returns exactly `b`. -/
theorem convertHex_hexUpper_roundtrip (b : List Nat) (hb : ∀ x ∈ b, x < 256) :
    convertHexStringToByte (hexUpper b) = .ok b ∧ (hexUpper b).length = 2 * b.length :=
  ⟨convertHex_hexUpper b hb, length_hexUpper b⟩

theorem convertHex_hexUpper_roundtrip_witness :
    (∀ x ∈ [0x40, 0x20, 0xFF, 0x0A], x < 256)
      ∧ hexUpper [0x40, 0x20, 0xFF, 0x0A] = str "4020FF0A"
      ∧ convertHexStringToByte (hexUpper [0x40, 0x20, 0xFF, 0x0A]) = .ok [0x40, 0x20, 0xFF, 0x0A]
      ∧ (hexUpper [0x40, 0x20, 0xFF, 0x0A]).length = 2 * [0x40, 0x20, 0xFF, 0x0A].length :=
  ⟨by decide, by decide,
    (convertHex_hexUpper_roundtrip [0x40, 0x20, 0xFF, 0x0A] (by decide)).1,
    (convertHex_hexUpper_roundtrip [0x40, 0x20, 0xFF, 0x0A] (by decide)).2⟩

/-! ## The encode tag in `parseFields` -/

theorem splitComma_cons (c : Char) (cs : List Char) :
    splitComma (c :: cs) =
      if c = ',' then [] :: splitComma cs
      else
        match splitComma cs with
        | h :: t => (c :: h) :: t
        | [] => [[c]] := rfl

theorem splitComma_single (cs : List Char) (h : ',' ∉ cs) : splitComma cs = [cs] := by
  induction cs with
  | nil => rfl
  | cons c cs ih =>
    have hc : c ≠ ',' := fun hc => h (by rw [hc]; exact List.mem_cons_self _ _)
    have hcs : ',' ∉ cs := fun hm => h (List.mem_cons_of_mem _ hm)
    rw [splitComma_cons, if_neg hc, ih hcs]

theorem splitComma_append (xs ys : List Char) (h : ',' ∉ xs) :
    splitComma (xs ++ ',' :: ys) = xs :: splitComma ys := by
  induction xs with
  | nil =>
    show splitComma (',' :: ys) = _
    rw [splitComma_cons, if_pos rfl]
  | cons c cs ih =>
    have hc : c ≠ ',' := fun hc => h (by rw [hc]; exact List.mem_cons_self _ _)
    have hcs : ',' ∉ cs := fun hm => h (List.mem_cons_of_mem _ hm)
    show splitComma (c :: (cs ++ ',' :: ys)) = _
    rw [splitComma_cons, if_neg hc, ih hcs]

theorem Split_single (t : String) (h : ',' ∉ t.toList) : Split t = [t] := by
  unfold Split
  rw [splitComma_single _ h]
  rfl

theorem Split_pair (a b : String) (ha : ',' ∉ a.toList) (hb : ',' ∉ b.toList) :
    Split (a ++ "," ++ b) = [a, b] := by
  unfold Split
  have hl : (a ++ "," ++ b).toList = a.toList ++ ',' :: b.toList := by
    simp [String.toList, String.data_append]
  rw [hl, splitComma_append _ _ ha, splitComma_single _ hb]
  rfl

/-- A property of map entries that holds for the initial map and for every entry
`parseFields` creates holds for every entry of the resulting map. -/
theorem parseFieldsFrom_all {V : Type} (env : Env) (all : List (Slot V))
    (P : Int → fieldInfo V → Prop)
    (hnew : ∀ (pos : Nat) (s : Slot V) (index length : Int) (field : Iso8583Type V),
      all.get? pos = some s → Atoi s.tagField = some index →
      parseLengthTag s.tagLength = some length → s.codec = some field →
      P index ⟨index, (parseEncodeTag env s.tagEncode).2, (parseEncodeTag env s.tagEncode).1,
        length, field, s.val, pos⟩) :
    ∀ (rest : List (Slot V)) (pos : Nat) (acc f : FieldMap V),
      all.drop pos = rest → (∀ i info, acc i = some info → P i info) →
      parseFieldsFrom env rest pos acc = .ok f → ∀ i info, f i = some info → P i info := by
  intro rest
  induction rest with
  | nil =>
    intro pos acc f _ hacc hp
    simp only [parseFieldsFrom, Outcome.ok.injEq] at hp
    subst hp
    exact hacc
  | cons s rest ih =>
    intro pos acc f hdrop hacc hp
    have hpos : all.get? pos = some s := by
      rw [List.get?_eq_getElem?, ← List.head?_drop, hdrop]
      rfl
    have hdrop2 : all.drop (pos + 1) = rest := by
      rw [← List.drop_drop]
      have : List.drop 1 (List.drop pos all) = List.drop 1 (s :: rest) := by rw [hdrop]
      simpa [Nat.add_comm] using this
    unfold parseFieldsFrom at hp
    by_cases hn : s.nilPtr = true
    · rw [if_pos hn] at hp
      exact ih (pos + 1) acc f hdrop2 hacc hp
    · rw [if_neg hn] at hp
      by_cases ht : s.tagField = ""
      · rw [if_pos ht] at hp
        exact ih (pos + 1) acc f hdrop2 hacc hp
      · rw [if_neg ht] at hp
        cases hA : Atoi s.tagField with
        | none => rw [hA] at hp; simp at hp
        | some index =>
          rw [hA] at hp
          simp only at hp
          cases hL : parseLengthTag s.tagLength with
          | none => rw [hL] at hp; simp at hp
          | some length =>
            rw [hL] at hp
            simp only at hp
            cases hC : s.codec with
            | none => rw [hC] at hp; simp at hp
            | some field =>
              rw [hC] at hp
              simp only at hp
              refine ih (pos + 1) _ f hdrop2 ?_ hp
              intro i info hi
              by_cases hii : i = index
              · rw [if_pos hii] at hi
                simp only [Option.some.injEq] at hi
                subst hi
                rw [hii]
                exact hnew pos s index length field hpos hA hL hC
              · rw [if_neg hii] at hi
                exact hacc i info hi

/-- C18: resolution of the encode tag in `parseFields`. The entry of every field carries
the pair read from the encode tag of its struct field; a tag of two comma-separated
tokens `a,b` gives length-encoding `parse(a)` and value-encoding `parse(b)`; a single
token `t` gives value-encoding `parse(t)` and leaves the length-encoding at the default
0; an absent tag leaves both at 0 (the constant ASCII, Text, when ASCII is 0); and
`parseEncodeStr` maps "ascii" to ASCII, "bcd" to BCD and every other token to -1. -/
theorem parseFields_encode_tag {V : Type} (env : Env) :
    (∀ (slots : List (Slot V)) (fields : FieldMap V), parseFields env (some slots) = .ok fields →
        ∀ (i : Int) (info : fieldInfo V), fields i = some info →
          ∃ s, slots.get? info.slot = some s
            ∧ info.LenEncode = (parseEncodeTag env s.tagEncode).1
            ∧ info.Encode = (parseEncodeTag env s.tagEncode).2)
      ∧ (∀ a b : String, ',' ∉ a.toList → ',' ∉ b.toList →
          parseEncodeTag env (a ++ "," ++ b) = (parseEncodeStr env a, parseEncodeStr env b))
      ∧ (∀ t : String, t ≠ "" → ',' ∉ t.toList →
          parseEncodeTag env t = (0, parseEncodeStr env t))
      ∧ parseEncodeTag env "" = (0, 0)
      ∧ (env.ASCII = 0 →
          parseEncodeTag env "" = (env.ASCII, env.ASCII)
            ∧ ∀ t : String, t ≠ "" → ',' ∉ t.toList → (parseEncodeTag env t).1 = env.ASCII)
      ∧ parseEncodeStr env "ascii" = env.ASCII
      ∧ parseEncodeStr env "bcd" = env.BCD
      ∧ (∀ s : String, s ≠ "ascii" → s ≠ "bcd" → parseEncodeStr env s = -1) := by
  have hpair : ∀ a b : String, ',' ∉ a.toList → ',' ∉ b.toList →
      parseEncodeTag env (a ++ "," ++ b) = (parseEncodeStr env a, parseEncodeStr env b) := by
    intro a b ha hb
    have hne : a ++ "," ++ b ≠ "" := by
      intro h
      have := congrArg String.length h
      simp [String.length_append] at this
      exact absurd this.1.2 (by decide)
    unfold parseEncodeTag
    rw [if_pos hne]
    simp only [Split_pair a b ha hb]
    rfl
  have hone : ∀ t : String, t ≠ "" → ',' ∉ t.toList →
      parseEncodeTag env t = (0, parseEncodeStr env t) := by
    intro t ht hc
    unfold parseEncodeTag
    rw [if_pos ht]
    simp only [Split_single t hc]
    rfl
  have hnone : parseEncodeTag env "" = (0, 0) := rfl
  refine ⟨?_, hpair, hone, hnone, ?_, rfl, rfl, ?_⟩
  · intro slots fields hp i info hi
    unfold parseFields at hp
    exact parseFieldsFrom_all env slots
      (fun _ info => ∃ s, slots.get? info.slot = some s
        ∧ info.LenEncode = (parseEncodeTag env s.tagEncode).1
        ∧ info.Encode = (parseEncodeTag env s.tagEncode).2)
      (fun pos s index length field hpos _ _ _ => ⟨s, hpos, rfl, rfl⟩)
      slots 0 _ fields rfl (by intro i info h; simp at h) hp i info hi
  · intro h0
    refine ⟨by rw [hnone, h0], ?_⟩
    intro t ht hc
    rw [hone t ht hc, h0]
  · intro s h1 h2
    unfold parseEncodeStr
    rw [if_neg h1, if_neg h2]

theorem parseFields_encode_tag_witness :
    (∃ s, slotsTagged.get? 0 = some s
        ∧ (1 : Int) = (parseEncodeTag exampleEnv s.tagEncode).1
        ∧ (0 : Int) = (parseEncodeTag exampleEnv s.tagEncode).2)
      ∧ parseEncodeTag exampleEnv ("bcd" ++ "," ++ "ascii")
          = (parseEncodeStr exampleEnv "bcd", parseEncodeStr exampleEnv "ascii")
      ∧ parseEncodeTag exampleEnv "bcd" = (0, parseEncodeStr exampleEnv "bcd")
      ∧ parseEncodeTag exampleEnv "" = (exampleEnv.ASCII, exampleEnv.ASCII)
      ∧ parseEncodeStr exampleEnv "hex" = -1
      ∧ ((fieldsOf exampleEnv (some slotsTagged)) 3).map (fun a => (a.LenEncode, a.Encode))
          = some (1, 0)
      ∧ ((fieldsOf exampleEnv (some slotsTagged)) 4).map (fun a => (a.LenEncode, a.Encode))
          = some (0, 1)
      ∧ ((fieldsOf exampleEnv (some slotsTagged)) 5).map (fun a => (a.LenEncode, a.Encode))
          = some (0, 0)
      ∧ ((fieldsOf exampleEnv (some slotsTagged)) 6).map (fun a => (a.LenEncode, a.Encode))
          = some (0, -1) :=
  ⟨(parseFields_encode_tag exampleEnv).1 slotsTagged (fieldsOf exampleEnv (some slotsTagged)) rfl
      3 ⟨3, 0, 1, 6, fixedText, [], 0⟩ rfl,
    (parseFields_encode_tag (V := List Nat) exampleEnv).2.1 "bcd" "ascii" (by decide) (by decide),
    (parseFields_encode_tag (V := List Nat) exampleEnv).2.2.1 "bcd" (by decide) (by decide),
    ((parseFields_encode_tag (V := List Nat) exampleEnv).2.2.2.2.1 rfl).1,
    (parseFields_encode_tag (V := List Nat) exampleEnv).2.2.2.2.2.2.2 "hex" (by decide) (by decide),
    by decide, by decide, by decide, by decide⟩

/-! ## The part of `Load` before the loops -/

/-- What a header that `Load` has computed says about the input and the receiver. -/
theorem loadHeader_ok {V : Type} (env : Env) (m : Message V) (raw spare : List Nat)
    (h : LoadHeader V) (hh : loadHeader env m raw spare = .ok h) :
    (m.Mti = [] → (env.decodeMti raw m.MtiEncode).2 = none)
    ∧ ∃ c, raw.get? (mtiLength env m) = some c
      ∧ h.byteNum = (if announces c = true then 32 else 16)
      ∧ h.start = mtiLength env m + h.byteNum
      ∧ mtiLength env m + h.byteNum ≤ raw.length + spare.length
      ∧ convertHexStringToByte (((raw ++ spare).drop (mtiLength env m)).take h.byteNum)
          = .ok h.bitByte
      ∧ h.msg = { Mti := if m.Mti = [] then (env.decodeMti raw m.MtiEncode).1 else m.Mti,
                  MtiEncode := m.MtiEncode,
                  SecondBitmap := announces c || m.SecondBitmap,
                  Data := m.Data }
      ∧ m.Data = some h.slots
      ∧ parseFields env m.Data = .ok h.fields := by
  obtain ⟨mMti, mEnc, mSB, mData⟩ := m
  unfold loadHeader at hh
  unfold mtiLength announces
  simp only at hh ⊢
  have hdec : mMti = [] → (env.decodeMti raw mEnc).2 = none := by
    intro h0
    cases hd : (env.decodeMti raw mEnc).2 with
    | none => rfl
    | some e => simp [h0, hd] at hh
  refine ⟨hdec, ?_⟩
  clear hdec
  repeat' split at hh
  all_goals first
    | (exfalso; simp at hh; done)
    | (simp only [Except.ok.injEq] at hh
       subst hh
       simp_all)

theorem Load_ok_header {V : Type} (env : Env) (m : Message V) (raw spare : List Nat)
    (hok : Load env m raw spare = .ok ()) :
    ∃ h st, loadHeader env m raw spare = .ok h
      ∧ forEach (loadAt h.fields raw h.bitByte) (List.range (h.byteNum / 2 * 8))
          ⟨h.slots, h.start, [], []⟩ = (st, none)
      ∧ LoadRun.run env m raw spare
          = ⟨{ h.msg with Data := some st.slots }, st.start, st.present, st.calls, .ok ()⟩ := by
  unfold Load at hok
  cases hh : loadHeader env m raw spare with
  | error me =>
    obtain ⟨m1, e⟩ := me
    unfold LoadRun.run at hok
    rw [hh] at hok
    cases e <;> simp [Exit.toOutcome] at hok
  | ok h =>
    have hr := LoadRun_of_header env m raw spare h hh
    rw [hr] at hok ⊢
    rcases hl : forEach (loadAt h.fields raw h.bitByte) (List.range (h.byteNum / 2 * 8))
        ⟨h.slots, h.start, [], []⟩ with ⟨st, _ | e⟩
    · exact ⟨h, st, rfl, hl, rfl⟩
    · rw [hl] at hok
      cases e <;> simp [Exit.toOutcome] at hok

theorem hexToInt_runeToString (c : Nat) : hexToInt (runeToString c) = hexVal c := by
  unfold runeToString
  by_cases hc : c < 128
  · rw [if_pos hc, hexToInt_eq_hexVal]
  · rw [if_neg hc, hexToInt_not_single _ (by simp)]
    unfold hexVal
    split_ifs <;> omega

theorem announces_eq (c : Nat) : announces c = decide (hexVal c &&& 0x8 = 0x8) := by
  unfold announces
  rw [hexToInt_runeToString]

/-- The characters that announce a second bitmap are `8`, `9` and `A` to `F`. -/
theorem announces_iff (c : Nat) :
    announces c = true ↔ c ∈ [56, 57, 65, 66, 67, 68, 69, 70] := by
  rw [announces_eq]
  by_cases hc : c < 128
  · interval_cases c <;> decide
  · have hv : hexVal c = 0 := by
      unfold hexVal
      split_ifs <;> omega
    rw [hv]
    simp only [List.mem_cons, List.mem_singleton, List.not_mem_nil, or_false]
    constructor
    · intro h
      exact absurd h (by decide)
    · intro h
      omega

theorem testBit_pair (a b : Nat) (ha : a ≤ 15) (hb : b ≤ 15) :
    ((a <<< 4 + b) % 256).testBit 7 = decide (a &&& 0x8 = 0x8) := by
  have ha2 : a < 16 := by omega
  have hb2 : b < 16 := by omega
  interval_cases a <;> interval_cases b <;> rfl

/-- The bitmap bytes of a header: as many as half the bitmap characters, and bit 1 is
set exactly when the first character of the bitmap region announces a second bitmap. -/
theorem header_bitByte {V : Type} (env : Env) (m : Message V) (raw spare : List Nat)
    (h : LoadHeader V) (hh : loadHeader env m raw spare = .ok h) (c : Nat)
    (hc : raw.get? (mtiLength env m) = some c) :
    h.bitByte.length = h.byteNum / 2 ∧ bitSet h.bitByte 1 = announces c
      ∧ (h.byteNum = 16 ∨ h.byteNum = 32) := by
  obtain ⟨_, c2, h1, h2, _, h4, h5, _⟩ := loadHeader_ok env m raw spare h hh
  rw [hc] at h1
  simp only [Option.some.injEq] at h1
  subst h1
  have hnum : h.byteNum = 16 ∨ h.byteNum = 32 := by
    rw [h2]
    split
    · exact Or.inr rfl
    · exact Or.inl rfl
  have hlen : (((raw ++ spare).drop (mtiLength env m)).take h.byteNum).length = h.byteNum := by
    rw [List.length_take, List.length_drop, List.length_append]
    omega
  unfold convertHexStringToByte at h5
  rw [hlen, if_neg (by omega)] at h5
  simp only [Except.ok.injEq] at h5
  have hget : (((raw ++ spare).drop (mtiLength env m)).take h.byteNum).getD 0 0 = c := by
    have hlt : mtiLength env m < raw.length := (List.get?_eq_some.mp hc).1
    rw [List.getD_eq_getElem?_getD, List.getElem?_take_of_lt (by omega), List.getElem?_drop,
      Nat.add_zero, List.getElem?_append_left hlt]
    rw [List.get?_eq_getElem?] at hc
    rw [hc]
    rfl
  refine ⟨?_, ?_, hnum⟩
  · rw [← h5, length_hexPairs, hlen]
  · rw [bitSet_eq, ← h5]
    show ((hexPairs _).getD 0 0).testBit 7 = _
    rw [getD_hexPairs _ 0 (by rw [hlen]; omega), hget, hexToInt_eq_hexVal, hexToInt_eq_hexVal,
      testBit_pair _ _ (hexVal_le _) (hexVal_le _), announces_eq]

theorem convertHex_even (xs : List Nat) (h : xs.length % 2 = 0) :
    convertHexStringToByte xs = .ok (hexPairs xs) := by
  unfold convertHexStringToByte
  rw [if_neg (by omega)]

theorem convertHex_region (xs : List Nat) (a n : Nat) (hn : n % 2 = 0) (h : a + n ≤ xs.length) :
    convertHexStringToByte ((xs.drop a).take n) = .ok (hexPairs ((xs.drop a).take n)) := by
  apply convertHex_even
  rw [List.length_take, List.length_drop]
  omega

/-- The part of `Load` before the loops completes when the MTI is there or decodes, the
body parses, and the input holds the whole bitmap region. -/
theorem loadHeader_total {V : Type} (env : Env) (m : Message V) (raw spare : List Nat)
    (fields : FieldMap V) (c : Nat)
    (hdec : m.Mti = [] → (env.decodeMti raw m.MtiEncode).2 = none)
    (hfields : parseFields env m.Data = .ok fields)
    (hc : raw.get? (mtiLength env m) = some c)
    (hlong : mtiLength env m + (if announces c = true then 32 else 16)
      ≤ raw.length + spare.length) :
    ∃ h, loadHeader env m raw spare = .ok h := by
  obtain ⟨mMti, mEnc, mSB, mData⟩ := m
  cases mData with
  | none => simp [parseFields] at hfields
  | some slots =>
    unfold mtiLength announces at *
    simp only at *
    generalize hs : (if mEnc = env.BCD then 2 else 4) = start at *
    unfold loadHeader
    simp only [hs]
    by_cases ha : hexToInt (runeToString c) &&& 8 = 8
    · simp only [ha, decide_True, if_true] at hlong
      have hcv := convertHex_region (raw ++ spare) start 32 (by decide)
        (by rw [List.length_append]; exact hlong)
      by_cases hM : mMti = []
      · have hd := hdec hM
        simp only [hM, hd, hfields, hc, ha, hs, Option.isSome_none, and_false, if_false, if_true,
          decide_True]
        rw [if_neg (show ¬ (start + 32 > raw.length + spare.length) by omega), hcv]
        exact ⟨_, rfl⟩
      · simp only [hM, hfields, hc, ha, hs, false_and, if_false, decide_True, if_true]
        rw [if_neg (show ¬ (start + 32 > raw.length + spare.length) by omega), hcv]
        exact ⟨_, rfl⟩
    · simp only [ha, decide_False, if_false, Bool.false_eq_true] at hlong
      have hcv := convertHex_region (raw ++ spare) start 16 (by decide)
        (by rw [List.length_append]; exact hlong)
      by_cases hM : mMti = []
      · have hd := hdec hM
        simp only [hM, hd, hfields, hc, ha, hs, Option.isSome_none, and_false, if_false, if_true,
          decide_False, Bool.false_eq_true]
        rw [if_neg (show ¬ (start + 16 > raw.length + spare.length) by omega), hcv]
        exact ⟨_, rfl⟩
      · simp only [hM, hfields, hc, ha, hs, false_and, if_false, decide_False,
          Bool.false_eq_true]
        rw [if_neg (show ¬ (start + 16 > raw.length + spare.length) by omega), hcv]
        exact ⟨_, rfl⟩

/-! ## `Message.Load`: the width of the bitmap and `SecondBitmap` -/

/-- One iteration of `Load` either leaves offset and invocations as they are, or invokes
the codec of field `p + 1` at the current offset. -/
theorem loadAt_calls_start {V : Type} (fields : FieldMap V) (raw bitByte : List Nat) (p : Nat)
    (st : LoadState V) :
    ((loadAt fields raw bitByte p st).1.calls = st.calls
        ∧ (loadAt fields raw bitByte p st).1.start = st.start)
      ∨ (loadAt fields raw bitByte p st).1.calls = st.calls ++ [(p + 1, st.start)] := by
  by_cases hskip : bitSet bitByte (p + 1) = false ∨ p = 0
  · rw [loadAt_skip _ _ _ _ _ hskip]
    exact Or.inl ⟨rfl, rfl⟩
  · have hb : bitSet bitByte (p + 1) = true := by
      cases h : bitSet bitByte (p + 1)
      · exact absurd (Or.inl h) hskip
      · rfl
    have hp : p ≠ 0 := fun h => hskip (Or.inr h)
    rw [loadAt_marked _ _ _ _ _ hb hp]
    cases hf : fields ((p + 1 : Nat) : Int) with
    | none => exact Or.inl ⟨rfl, rfl⟩
    | some f =>
      simp only
      split
      · exact Or.inl ⟨rfl, rfl⟩
      · split
        · exact Or.inl ⟨rfl, rfl⟩
        · split
          · exact Or.inr rfl
          · exact Or.inr rfl

/-- The first codec invocation of the loops of `Load` is at the offset the loops start
with. -/
theorem forEach_first_call {V : Type} (fields : FieldMap V) (raw bitByte : List Nat)
    (ps : List Nat) (st : LoadState V) (hst : st.calls = []) :
    ∀ (i : Nat) (off : Int) (rest : List (Nat × Int)),
      (forEach (loadAt fields raw bitByte) ps st).1.calls = (i, off) :: rest → off = st.start := by
  have hinv := forEach_invariant
    (fun s : LoadState V => (s.calls = [] ∧ s.start = st.start)
      ∨ ∃ i rest, s.calls = (i, st.start) :: rest)
    (fun _ => True) (loadAt fields raw bitByte) ps
    (by
      intro p _ s hs
      refine ⟨?_, fun _ _ => trivial⟩
      rcases loadAt_calls_start fields raw bitByte p s with ⟨g1, g2⟩ | g
      · rw [g1, g2]
        exact hs
      · right
        rcases hs with ⟨h1, h2⟩ | ⟨i, rest, h1⟩
        · exact ⟨p + 1, [], by rw [g, h1, h2]; rfl⟩
        · exact ⟨i, rest ++ [(p + 1, s.start)], by rw [g, h1]; rfl⟩)
    st (Or.inl ⟨hst, rfl⟩)
  intro i off rest hc
  rcases hinv.1 with ⟨h1, _⟩ | ⟨j, rest2, h1⟩
  · rw [h1] at hc
    simp at hc
  · rw [h1] at hc
    simp only [List.cons.injEq, Prod.mk.injEq] at hc
    exact hc.1.2.symm

theorem forEach_present_le {V : Type} (fields : FieldMap V) (raw bitByte : List Nat) (n : Nat)
    (st : LoadState V) (h : ∀ i ∈ st.present, 2 ≤ i ∧ i ≤ n) :
    ∀ i ∈ (forEach (loadAt fields raw bitByte) (List.range n) st).1.present, 2 ≤ i ∧ i ≤ n := by
  have hinv := forEach_invariant (fun s : LoadState V => ∀ i ∈ s.present, 2 ≤ i ∧ i ≤ n)
    (fun _ => True) (loadAt fields raw bitByte) (List.range n)
    (by
      intro p hp s hs
      have hp2 := List.mem_range.mp hp
      obtain ⟨g1, _, _⟩ := loadAt_ghost fields raw bitByte p s
      refine ⟨?_, fun _ _ => trivial⟩
      rcases g1 with g1 | ⟨hp0, g1⟩
      · rw [g1]; exact hs
      · rw [g1]
        intro i hi
        rcases List.mem_append.mp hi with hi | hi
        · exact hs i hi
        · simp only [List.mem_singleton] at hi
          omega)
    st h
  exact hinv.1

/-- Ghost fields of a run of `Load` in terms of the loops. -/
theorem LoadRun_ghost {V : Type} (env : Env) (m : Message V) (raw spare : List Nat)
    (h : LoadHeader V) (hh : loadHeader env m raw spare = .ok h) :
    (LoadRun.run env m raw spare).present
        = (forEach (loadAt h.fields raw h.bitByte) (List.range (h.byteNum / 2 * 8))
            ⟨h.slots, h.start, [], []⟩).1.present
      ∧ (LoadRun.run env m raw spare).calls
        = (forEach (loadAt h.fields raw h.bitByte) (List.range (h.byteNum / 2 * 8))
            ⟨h.slots, h.start, [], []⟩).1.calls
      ∧ (LoadRun.run env m raw spare).start
        = (forEach (loadAt h.fields raw h.bitByte) (List.range (h.byteNum / 2 * 8))
            ⟨h.slots, h.start, [], []⟩).1.start
      ∧ (LoadRun.run env m raw spare).res
        = (match (forEach (loadAt h.fields raw h.bitByte) (List.range (h.byteNum / 2 * 8))
            ⟨h.slots, h.start, [], []⟩).2 with
          | some e => e.toOutcome
          | none => .ok ()) := by
  rw [LoadRun_of_header env m raw spare h hh]
  rcases forEach (loadAt h.fields raw h.bitByte) (List.range (h.byteNum / 2 * 8))
      ⟨h.slots, h.start, [], []⟩ with ⟨st, _ | e⟩
  · exact ⟨rfl, rfl, rfl, rfl⟩
  · exact ⟨rfl, rfl, rfl, rfl⟩

/-- C17: on an input long enough to hold the bitmap region (the MTI being there or
decodable and the body parsing), `Load` gets past the region and takes it as 32 hex
characters (16 raw bytes, fields up to 128) if and only if its first character is one of
`8`, `9`, `A`-`F`, and as 16 hex characters (8 raw bytes, fields up to 64) otherwise; the
first field payload is read at offset mtiLength + 16 or mtiLength + 32 accordingly. -/
theorem Load_bitmap_width {V : Type} (env : Env) (m : Message V) (raw spare : List Nat)
    (fields : FieldMap V) (c : Nat)
    (hdec : m.Mti = [] → (env.decodeMti raw m.MtiEncode).2 = none)
    (hfields : parseFields env m.Data = .ok fields)
    (hc : raw.get? (mtiLength env m) = some c)
    (hlong : mtiLength env m + (if announces c = true then 32 else 16)
      ≤ raw.length + spare.length) :
    ∃ h, loadHeader env m raw spare = .ok h
      ∧ (h.byteNum = 32 ↔ c ∈ [56, 57, 65, 66, 67, 68, 69, 70])
      ∧ (h.byteNum = 16 ↔ c ∉ [56, 57, 65, 66, 67, 68, 69, 70])
      ∧ h.bitByte.length = h.byteNum / 2
      ∧ convertHexStringToByte (((raw ++ spare).drop (mtiLength env m)).take h.byteNum)
          = .ok h.bitByte
      ∧ h.start = mtiLength env m + h.byteNum
      ∧ (∀ i ∈ (LoadRun.run env m raw spare).present, 2 ≤ i ∧ i ≤ h.byteNum / 2 * 8)
      ∧ (∀ (i : Nat) (off : Int) (rest : List (Nat × Int)),
          (LoadRun.run env m raw spare).calls = (i, off) :: rest →
            off = ((mtiLength env m + h.byteNum : Nat) : Int)) := by
  obtain ⟨h, hh⟩ := loadHeader_total env m raw spare fields c hdec hfields hc hlong
  obtain ⟨_, c2, h1, h2, h3, _, h5, _⟩ := loadHeader_ok env m raw spare h hh
  have hcc : c2 = c := by
    rw [hc] at h1
    simp only [Option.some.injEq] at h1
    exact h1.symm
  subst hcc
  obtain ⟨hlen, _, _⟩ := header_bitByte env m raw spare h hh c2 h1
  obtain ⟨g1, g2, _, _⟩ := LoadRun_ghost env m raw spare h hh
  have hpres := forEach_present_le h.fields raw h.bitByte (h.byteNum / 2 * 8)
    ⟨h.slots, h.start, [], []⟩ (by simp)
  have hfirst := forEach_first_call h.fields raw h.bitByte (List.range (h.byteNum / 2 * 8))
    ⟨h.slots, h.start, [], []⟩ rfl
  refine ⟨h, hh, ?_, ?_, hlen, h5, h3, ?_, ?_⟩
  · rw [h2, ← announces_iff]
    cases announces c2 <;> simp
  · rw [h2, ← announces_iff]
    cases announces c2 <;> simp
  · rw [g1]
    exact hpres
  · rw [g2, ← h3]
    exact hfirst

set_option maxRecDepth 8000 in
theorem Load_bitmap_width_witness :
    rawField70.get? 4 = some 67
      ∧ (headerOr exampleEnv msgRecv rawField70 []).byteNum = 32
      ∧ (LoadRun.run exampleEnv msgRecv rawField70 []).calls = [(2, 36), (70, 38)]
      ∧ ∃ h, loadHeader exampleEnv msgRecv rawField70 [] = .ok h
        ∧ (h.byteNum = 32 ↔ 67 ∈ [56, 57, 65, 66, 67, 68, 69, 70])
        ∧ (h.byteNum = 16 ↔ 67 ∉ [56, 57, 65, 66, 67, 68, 69, 70])
        ∧ h.bitByte.length = h.byteNum / 2
        ∧ convertHexStringToByte
            (((rawField70 ++ []).drop (mtiLength exampleEnv msgRecv)).take h.byteNum)
            = .ok h.bitByte
        ∧ h.start = mtiLength exampleEnv msgRecv + h.byteNum
        ∧ (∀ i ∈ (LoadRun.run exampleEnv msgRecv rawField70 []).present,
            2 ≤ i ∧ i ≤ h.byteNum / 2 * 8)
        ∧ (∀ (i : Nat) (off : Int) (rest : List (Nat × Int)),
            (LoadRun.run exampleEnv msgRecv rawField70 []).calls = (i, off) :: rest →
              off = ((mtiLength exampleEnv msgRecv + h.byteNum : Nat) : Int)) :=
  ⟨by decide, by decide, by decide,
    Load_bitmap_width exampleEnv msgRecv rawField70 [] (fieldsOf exampleEnv msgRecv.Data) 67
      (by decide) rfl (by decide) (by decide)⟩

/-- C11, as amended: after every successful `Load`, `SecondBitmap` is true if and only if
bit 1 of the incoming bitmap is set (the first hex character of the bitmap region has
its 0x8 bit set) or `SecondBitmap` was already true before the call; for a receiver
whose `SecondBitmap` was false it is true exactly when bit 1 is set. -/
theorem Load_SecondBitmap {V : Type} (env : Env) (m : Message V) (raw spare : List Nat)
    (hok : Load env m raw spare = .ok ()) :
    ∃ h c, loadHeader env m raw spare = .ok h
      ∧ raw.get? (mtiLength env m) = some c
      ∧ bitSet h.bitByte 1 = announces c
      ∧ (LoadRun.run env m raw spare).msg.SecondBitmap = (bitSet h.bitByte 1 || m.SecondBitmap)
      ∧ (m.SecondBitmap = false →
          ((LoadRun.run env m raw spare).msg.SecondBitmap = true ↔ bitSet h.bitByte 1 = true)) := by
  obtain ⟨h, st, hh, _, hrun⟩ := Load_ok_header env m raw spare hok
  obtain ⟨_, c, h1, _, _, _, _, h6, _⟩ := loadHeader_ok env m raw spare h hh
  obtain ⟨_, hbit, _⟩ := header_bitByte env m raw spare h hh c h1
  have hsb : (LoadRun.run env m raw spare).msg.SecondBitmap
      = (bitSet h.bitByte 1 || m.SecondBitmap) := by
    rw [hrun, hbit]
    show h.msg.SecondBitmap = _
    rw [h6]
  refine ⟨h, c, hh, h1, hbit, hsb, ?_⟩
  intro hf
  rw [hsb, hf, Bool.or_false]

theorem Load_SecondBitmap_witness :
    Load exampleEnv msgRecv rawField70 [] = .ok ()
      ∧ (LoadRun.run exampleEnv msgRecv rawField70 []).msg.SecondBitmap = true
      ∧ msgRecv.SecondBitmap = false
      ∧ ∃ h c, loadHeader exampleEnv msgRecv rawField70 [] = .ok h
        ∧ rawField70.get? (mtiLength exampleEnv msgRecv) = some c
        ∧ bitSet h.bitByte 1 = announces c
        ∧ (LoadRun.run exampleEnv msgRecv rawField70 []).msg.SecondBitmap
            = (bitSet h.bitByte 1 || msgRecv.SecondBitmap)
        ∧ (msgRecv.SecondBitmap = false →
            ((LoadRun.run exampleEnv msgRecv rawField70 []).msg.SecondBitmap = true
              ↔ bitSet h.bitByte 1 = true)) :=
  ⟨by decide, by decide, rfl,
    Load_SecondBitmap exampleEnv msgRecv rawField70 [] (by decide)⟩

/-- C11, the claim as stated fails: a receiver whose `SecondBitmap` is true loads an
input whose bitmap has bit 1 clear (first character `4`); `Load` succeeds and
`SecondBitmap` is still true. -/
theorem Load_keeps_SecondBitmap :
    msgRecvSB.SecondBitmap = true
      ∧ Load exampleEnv msgRecvSB rawField2 [] = .ok ()
      ∧ rawField2.get? 4 = some 52 ∧ announces 52 = false
      ∧ bitSet (headerOr exampleEnv msgRecvSB rawField2 []).bitByte 1 = false
      ∧ (LoadRun.run exampleEnv msgRecvSB rawField2 []).msg.SecondBitmap = true := by
  decide

/-! ## `Message.Load` with a pre-supplied Mti -/

/-- With a non-empty Mti in the receiver, the part of `Load` before the loops computes
the same whatever the Mti is, and hands the Mti on unchanged. -/
theorem loadHeader_Mti_indep {V : Type} (env : Env) (m : Message V) (mti2 raw spare : List Nat)
    (hM : m.Mti ≠ []) (hM2 : mti2 ≠ []) :
    loadHeader env { m with Mti := mti2 } raw spare =
      match loadHeader env m raw spare with
      | .ok h => .ok { h with msg := { h.msg with Mti := mti2 } }
      | .error (m1, e) => .error ({ m1 with Mti := mti2 }, e) := by
  obtain ⟨mMti, mEnc, mSB, mData⟩ := m
  simp only at hM
  unfold loadHeader
  simp only [hM, hM2, false_and, if_false]
  repeat' split
  all_goals first
    | (simp_all; done)
    | (simp_all
       rename_i hq
       obtain ⟨h1, _⟩ := hq
       rw [← h1]
       simp)
    | (simp_all
       rename_i hq
       cases hq
       simp)

theorem loadHeader_error_Mti {V : Type} (env : Env) (m m1 : Message V) (raw spare : List Nat)
    (e : Exit) (hh : loadHeader env m raw spare = .error (m1, e)) (hM : m.Mti ≠ []) :
    m1.Mti = m.Mti := by
  obtain ⟨mMti, mEnc, mSB, mData⟩ := m
  simp only at hM
  unfold loadHeader at hh
  simp only [hM, false_and, if_false] at hh
  repeat' split at hh
  all_goals first
    | (exfalso; simp at hh; done)
    | (simp only [Except.error.injEq, Prod.mk.injEq] at hh
       rw [← hh.1])

theorem LoadRun_Mti_indep {V : Type} (env : Env) (m : Message V) (mti2 raw spare : List Nat)
    (hM : m.Mti ≠ []) (hM2 : mti2 ≠ []) :
    LoadRun.run env { m with Mti := mti2 } raw spare =
      { LoadRun.run env m raw spare with
        msg := { (LoadRun.run env m raw spare).msg with Mti := mti2 } } := by
  have hi := loadHeader_Mti_indep env m mti2 raw spare hM hM2
  unfold LoadRun.run
  rw [hi]
  cases hh : loadHeader env m raw spare with
  | error me =>
    obtain ⟨m1, e⟩ := me
    rfl
  | ok h =>
    simp only
    rcases loadLoop h.fields raw h.bitByte h.byteNum ⟨h.slots, h.start, [], []⟩ with ⟨st, _ | e⟩
    · rfl
    · rfl

theorem LoadRun_Mti {V : Type} (env : Env) (m : Message V) (raw spare : List Nat)
    (hM : m.Mti ≠ []) : (LoadRun.run env m raw spare).msg.Mti = m.Mti := by
  cases hh : loadHeader env m raw spare with
  | error me =>
    obtain ⟨m1, e⟩ := me
    have h1 := loadHeader_error_Mti env m m1 raw spare e hh hM
    unfold LoadRun.run
    rw [hh]
    exact h1
  | ok h =>
    obtain ⟨_, c, _, _, _, _, _, h6, _⟩ := loadHeader_ok env m raw spare h hh
    rw [LoadRun_of_header env m raw spare h hh]
    rcases forEach (loadAt h.fields raw h.bitByte) (List.range (h.byteNum / 2 * 8))
        ⟨h.slots, h.start, [], []⟩ with ⟨st, _ | e⟩
    · show h.msg.Mti = m.Mti
      rw [h6]
      simp only [hM, if_false]
    · show h.msg.Mti = m.Mti
      rw [h6]
      simp only [hM, if_false]

/-- C14: a call of `Load` with a non-empty pre-supplied Mti leaves the Mti unchanged and
runs the same whatever that Mti is (it is never compared with the leading bytes of the
input); and on an input that holds the bitmap region (the body parsing), with an empty
Mti that decodes from the prefix as with a pre-supplied one, `Load` reads the region from
offset 4 in text MTI mode and from offset 2 in packed-decimal MTI mode, and the field
payloads follow it. -/
theorem Load_Mti_untouched {V : Type} (env : Env) (m : Message V) (raw spare : List Nat) :
    (m.Mti ≠ [] →
        (LoadRun.run env m raw spare).msg.Mti = m.Mti
        ∧ ∀ mti2 : List Nat, mti2 ≠ [] →
            LoadRun.run env { m with Mti := mti2 } raw spare =
              { LoadRun.run env m raw spare with
                msg := { (LoadRun.run env m raw spare).msg with Mti := mti2 } })
      ∧ ∀ (fields : FieldMap V) (c : Nat),
          (m.Mti = [] → (env.decodeMti raw m.MtiEncode).2 = none) →
          parseFields env m.Data = .ok fields →
          raw.get? (mtiLength env m) = some c →
          mtiLength env m + (if announces c = true then 32 else 16)
            ≤ raw.length + spare.length →
          ∃ h, loadHeader env m raw spare = .ok h
            ∧ mtiLength env m = (if m.MtiEncode = env.BCD then 2 else 4)
            ∧ (m.Mti = [] → h.msg.Mti = (env.decodeMti raw m.MtiEncode).1)
            ∧ (m.Mti ≠ [] → h.msg.Mti = m.Mti)
            ∧ h.byteNum = (if announces c = true then 32 else 16)
            ∧ convertHexStringToByte (((raw ++ spare).drop (mtiLength env m)).take h.byteNum)
                = .ok h.bitByte
            ∧ h.start = mtiLength env m + h.byteNum := by
  refine ⟨fun hM => ⟨LoadRun_Mti env m raw spare hM,
    fun mti2 hM2 => LoadRun_Mti_indep env m mti2 raw spare hM hM2⟩, ?_⟩
  intro fields c hdec hfields hc hlong
  obtain ⟨h, hh⟩ := loadHeader_total env m raw spare fields c hdec hfields hc hlong
  obtain ⟨_, c2, h1, h2, h3, _, h5, h6, _⟩ := loadHeader_ok env m raw spare h hh
  have hcc : c2 = c := by
    rw [hc] at h1
    simp only [Option.some.injEq] at h1
    exact h1.symm
  subst hcc
  refine ⟨h, hh, rfl, ?_, ?_, h2, h5, h3⟩
  · intro hE
    rw [h6]
    simp only [hE, if_true]
  · intro hE
    rw [h6]
    simp only [hE, if_false]

set_option maxRecDepth 8000 in
theorem Load_Mti_untouched_witness :
    (msgRecv.Mti ≠ []
        ∧ Load exampleEnv msgRecv rawField70 [] = .ok ()
        ∧ (LoadRun.run exampleEnv msgRecv rawField70 []).msg.Mti = msgRecv.Mti
        ∧ ∀ mti2 : List Nat, mti2 ≠ [] →
            LoadRun.run exampleEnv { msgRecv with Mti := mti2 } rawField70 [] =
              { LoadRun.run exampleEnv msgRecv rawField70 [] with
                msg := { (LoadRun.run exampleEnv msgRecv rawField70 []).msg with Mti := mti2 } })
      ∧ msg2Fresh.Mti = []
      ∧ rawField2.get? 4 = some 52
      ∧ ∃ h, loadHeader exampleEnv msg2Fresh rawField2 [] = .ok h
          ∧ mtiLength exampleEnv msg2Fresh
              = (if msg2Fresh.MtiEncode = exampleEnv.BCD then 2 else 4)
          ∧ (msg2Fresh.Mti = [] →
              h.msg.Mti = (exampleEnv.decodeMti rawField2 msg2Fresh.MtiEncode).1)
          ∧ (msg2Fresh.Mti ≠ [] → h.msg.Mti = msg2Fresh.Mti)
          ∧ h.byteNum = (if announces 52 = true then 32 else 16)
          ∧ convertHexStringToByte
              (((rawField2 ++ []).drop (mtiLength exampleEnv msg2Fresh)).take h.byteNum)
              = .ok h.bitByte
          ∧ h.start = mtiLength exampleEnv msg2Fresh + h.byteNum :=
  ⟨⟨by decide, by decide,
      ((Load_Mti_untouched exampleEnv msgRecv rawField70 []).1 (by decide)).1,
      ((Load_Mti_untouched exampleEnv msgRecv rawField70 []).1 (by decide)).2⟩,
    by decide, by decide,
    (Load_Mti_untouched exampleEnv msg2Fresh rawField2 []).2
      (fieldsOf exampleEnv msg2Fresh.Data) 52 (by decide) rfl (by decide) (by decide)⟩

/-! ## `Message.Load`: a field reached at or beyond the end of the input -/

/-- One iteration of `Load` invokes a codec only at an offset from 0 to the length of
the input. -/
theorem loadAt_calls_bound {V : Type} (fields : FieldMap V) (raw bitByte : List Nat) (p : Nat)
    (st : LoadState V) :
    (loadAt fields raw bitByte p st).1.calls = st.calls
      ∨ ((loadAt fields raw bitByte p st).1.calls = st.calls ++ [(p + 1, st.start)]
          ∧ 0 ≤ st.start ∧ st.start ≤ raw.length) := by
  by_cases hskip : bitSet bitByte (p + 1) = false ∨ p = 0
  · rw [loadAt_skip _ _ _ _ _ hskip]
    exact Or.inl rfl
  · have hb : bitSet bitByte (p + 1) = true := by
      cases h : bitSet bitByte (p + 1)
      · exact absurd (Or.inl h) hskip
      · rfl
    have hp : p ≠ 0 := fun h => hskip (Or.inr h)
    rw [loadAt_marked _ _ _ _ _ hb hp]
    cases hf : fields ((p + 1 : Nat) : Int) with
    | none => exact Or.inl rfl
    | some f =>
      simp only
      split
      · exact Or.inl rfl
      · split
        · exact Or.inl rfl
        · rename_i h1 h2
          split
          · exact Or.inr ⟨rfl, by omega, by omega⟩
          · exact Or.inr ⟨rfl, by omega, by omega⟩

theorem forEach_calls_bound {V : Type} (fields : FieldMap V) (raw bitByte : List Nat)
    (ps : List Nat) (st : LoadState V)
    (h : ∀ c ∈ st.calls, 0 ≤ c.2 ∧ c.2 ≤ (raw.length : Int)) :
    ∀ c ∈ (forEach (loadAt fields raw bitByte) ps st).1.calls,
      0 ≤ c.2 ∧ c.2 ≤ (raw.length : Int) := by
  have hinv := forEach_invariant
    (fun s : LoadState V => ∀ c ∈ s.calls, 0 ≤ c.2 ∧ c.2 ≤ (raw.length : Int))
    (fun _ => True) (loadAt fields raw bitByte) ps
    (by
      intro p _ s hs
      refine ⟨?_, fun _ _ => trivial⟩
      rcases loadAt_calls_bound fields raw bitByte p s with g | ⟨g, g1, g2⟩
      · rw [g]
        exact hs
      · rw [g]
        intro c hc
        rcases List.mem_append.mp hc with hc | hc
        · exact hs c hc
        · simp only [List.mem_singleton] at hc
          subst hc
          exact ⟨g1, g2⟩)
    st h
  exact hinv.1

theorem LoadRun_calls_bound {V : Type} (env : Env) (m : Message V) (raw spare : List Nat) :
    ∀ c ∈ (LoadRun.run env m raw spare).calls, 0 ≤ c.2 ∧ c.2 ≤ (raw.length : Int) := by
  cases hh : loadHeader env m raw spare with
  | error me =>
    obtain ⟨m1, e⟩ := me
    unfold LoadRun.run
    rw [hh]
    intro c hc
    simp at hc
  | ok h =>
    rw [(LoadRun_ghost env m raw spare h hh).2.1]
    exact forEach_calls_bound h.fields raw h.bitByte _ _ (by simp)

/-- C12, as amended: during `Load`, for a field that is marked in the bitmap and defined
in the schema and is reached when the running offset exceeds len(raw) (offset > len(raw)),
the codec is not invoked, the field is skipped silently and decoding continues with the
next index without error; a field reached at offset = len(raw) has its codec invoked, on
an empty buffer, and an error of that codec ends the call. In every run of `Load` each
codec invocation is at an offset between 0 and len(raw). -/
theorem Load_skips_beyond_end {V : Type} (env : Env) (m : Message V) (raw spare : List Nat)
    (fields : FieldMap V) (bitByte : List Nat) (p : Nat) (st : LoadState V) (f : fieldInfo V)
    (hb : bitSet bitByte (p + 1) = true) (hp : p ≠ 0)
    (hf : fields ((p + 1 : Nat) : Int) = some f) :
    (st.start > raw.length →
        loadAt fields raw bitByte p st
          = ({ st with present := st.present ++ [p + 1] }, none))
      ∧ (st.start = raw.length →
          (loadAt fields raw bitByte p st).1.calls = st.calls ++ [(p + 1, (raw.length : Int))]
          ∧ (loadAt fields raw bitByte p st).2
              = match (f.Field.Load f.val [] f.Encode f.LenEncode f.Length).2 with
                | .error e => some (.error (.codec e))
                | .ok _ => none)
      ∧ ∀ c ∈ (LoadRun.run env m raw spare).calls, 0 ≤ c.2 ∧ c.2 ≤ (raw.length : Int) := by
  refine ⟨?_, ?_, LoadRun_calls_bound env m raw spare⟩
  · intro hgt
    rw [loadAt_marked _ _ _ _ _ hb hp, hf]
    simp only
    rw [if_pos hgt]
  · intro heq
    rw [loadAt_marked _ _ _ _ _ hb hp, hf]
    simp only
    rw [if_neg (by omega), if_neg (by omega), heq]
    simp only [Int.toNat_ofNat, List.drop_length]
    cases (f.Field.Load f.val [] f.Encode f.LenEncode f.Length).2 with
    | error e => exact ⟨rfl, rfl⟩
    | ok l => exact ⟨rfl, rfl⟩

set_option maxRecDepth 8000 in
theorem Load_skips_beyond_end_witness :
    Load exampleEnv msgRecvG raw23 [] = .ok ()
      ∧ (LoadRun.run exampleEnv msgRecvG raw23 []).calls = [(2, 20)]
      ∧ (LoadRun.run exampleEnv msgRecvG raw23 []).present = [2, 3]
      ∧ (LoadRun.run exampleEnv msgRecvG raw23 []).start = 120
      ∧ loadAt (headerOr exampleEnv msgRecvG raw23 []).fields raw23
          (headerOr exampleEnv msgRecvG raw23 []).bitByte 2
          ⟨(headerOr exampleEnv msgRecvG raw23 []).slots, 120, [2], [(2, 20)]⟩
        = (⟨(headerOr exampleEnv msgRecvG raw23 []).slots, 120, [2, 3], [(2, 20)]⟩, none) :=
  ⟨by decide, by decide, by decide, by decide,
    (Load_skips_beyond_end exampleEnv msgRecvG raw23 []
      (headerOr exampleEnv msgRecvG raw23 []).fields
      (headerOr exampleEnv msgRecvG raw23 []).bitByte 2
      ⟨(headerOr exampleEnv msgRecvG raw23 []).slots, 120, [2], [(2, 20)]⟩
      ⟨3, 0, 0, 2, fixedText, [], 1⟩ (by decide) (by decide) rfl).1 (by decide)⟩

/-- C12, the claim as stated fails at offset = len(raw): the input ends with its bitmap,
which marks field 2; the field is reached at offset 20 = len(raw), its codec is invoked
(on an empty buffer) and its error ends `Load`. -/
theorem Load_invokes_codec_at_end :
    rawBare2.length = 20
      ∧ (headerOr exampleEnv msgRecv rawBare2 []).start = 20
      ∧ bitSet (headerOr exampleEnv msgRecv rawBare2 []).bitByte 2 = true
      ∧ isKey (headerOr exampleEnv msgRecv rawBare2 []).fields 2 = true
      ∧ (LoadRun.run exampleEnv msgRecv rawBare2 []).present = [2]
      ∧ (LoadRun.run exampleEnv msgRecv rawBare2 []).calls = [(2, 20)]
      ∧ Load exampleEnv msgRecv rawBare2 [] = .error (.codec "short buffer") := by
  decide

/-! ## `Message.Bytes`: the first codec error ends the call -/

theorem forEach_cons_exit {α σ : Type} (body : α → σ → σ × Option Exit) (x : α) (xs : List α)
    (s s1 : σ) (e : Exit) (h : body x s = (s1, some e)) :
    forEach body (x :: xs) s = (s1, some e) := by
  unfold forEach
  rw [h]

/-- C13: fail-fast encode. When the MTI encodes and the body parses, and `i` is the lowest
field number within the bitmap range whose codec fails, `Bytes` returns no bytes and
exactly the error of field `i`; the codecs invoked are those of the keys below `i` and
that of `i`, none of a higher number. -/
theorem Bytes_fail_fast {V : Type} (env : Env) (m : Message V) (mtiBytes : List Nat)
    (fields : FieldMap V) (i : Nat) (info : fieldInfo V) (e : String)
    (hmti : encodeMti env m = .ok mtiBytes)
    (hfields : parseFields env m.Data = .ok fields)
    (h1 : 1 ≤ i) (h2 : i ≤ 8 * byteCount m.SecondBitmap)
    (hi : fields (i : Int) = some info)
    (he : info.Field.Bytes info.val info.Encode info.LenEncode info.Length = .error e)
    (hlow : ∀ j ∈ List.range' 1 (i - 1), encodes fields j = true) :
    Bytes env m = .error (.codec e)
      ∧ (BytesRun.run env m).calls = (List.range' 1 (i - 1)).filter (isKey fields) ++ [i]
      ∧ ∀ j ∈ (BytesRun.run env m).calls, j ≤ i := by
  have hsplit := range_split (byteCount m.SecondBitmap * 8) i h1 (by omega)
  have hpre := forEach_bytesAt_ok m.SecondBitmap fields (List.range (i - 1))
    ⟨List.replicate (byteCount m.SecondBitmap) 0, [], []⟩
    (by
      intro p hp
      apply hlow
      rw [List.mem_range'_1]
      have := List.mem_range.mp hp
      omega)
  have hstep : ∀ st : EncState, bytesAt m.SecondBitmap fields (i - 1) st
      = (⟨markBit m.SecondBitmap fields (i - 1) st.bitmap, st.data, st.calls ++ [i]⟩,
          some (.error (.codec e))) := by
    intro st
    have hii : i - 1 + 1 = i := by omega
    rw [bytesAt_eq, hii, hi]
    simp only
    rw [he]
  have hrun : BytesRun.run env m
      = ⟨markBit m.SecondBitmap fields (i - 1)
          (markBits m.SecondBitmap fields (List.range (i - 1))
            (List.replicate (byteCount m.SecondBitmap) 0)),
        (List.range' 1 (i - 1)).filter (isKey fields) ++ [i], .error (.codec e)⟩ := by
    rw [run_of_loop env m mtiBytes fields hmti hfields, hsplit, forEach_append, hpre]
    simp only
    rw [forEach_cons_exit _ _ _ _ _ _ (hstep _)]
    simp only [List.nil_append, List.append_nil, filter_isKey]
    rfl
  refine ⟨?_, ?_, ?_⟩
  · unfold Bytes
    rw [hrun]
  · rw [hrun]
  · rw [hrun]
    intro j hj
    rcases List.mem_append.mp hj with hj | hj
    · have := (List.mem_filter.mp hj).1
      rw [List.mem_range'_1] at this
      omega
    · simp only [List.mem_singleton] at hj
      omega

theorem Bytes_fail_fast_witness :
    encodes fieldsBad 12 = false
      ∧ Bytes exampleEnv msgBad = .error (.codec "bad length")
      ∧ (BytesRun.run exampleEnv msgBad).calls
          = (List.range' 1 (11 - 1)).filter (isKey fieldsBad) ++ [11]
      ∧ ∀ j ∈ (BytesRun.run exampleEnv msgBad).calls, j ≤ 11 :=
  ⟨by decide,
    Bytes_fail_fast exampleEnv msgBad (str "0200") fieldsBad 11
      ⟨11, 0, 0, 3, fixedText, str "xy", 1⟩ "bad length" rfl rfl (by decide) (by decide) rfl rfl
      (by decide)⟩

/-! ## `Message.Bytes`: fields outside the bitmap range -/

/-- An iteration of `Bytes` depends on the field map only through what `rendered` gives for
its field number. -/
theorem bytesAt_rendered {V : Type} (sb : Bool) (f g : FieldMap V) (p : Nat) (st : EncState)
    (h : rendered g (p + 1) = rendered f (p + 1)) : bytesAt sb g p st = bytesAt sb f p st := by
  rw [bytesAt_eq, bytesAt_eq]
  unfold rendered at h
  unfold markBit isKey
  cases hf : f ((p + 1 : Nat) : Int) with
  | none =>
    cases hg : g ((p + 1 : Nat) : Int) with
    | none => rfl
    | some b =>
      rw [hf, hg] at h
      simp at h
  | some a =>
    cases hg : g ((p + 1 : Nat) : Int) with
    | none =>
      rw [hf, hg] at h
      simp at h
    | some b =>
      rw [hf, hg] at h
      simp only [Option.map_some', Option.some.injEq] at h
      simp only [h, Option.isSome_some, if_true]

theorem rendered_restrictKeys {V : Type} (n : Nat) (fields : FieldMap V) (i : Nat) :
    rendered (restrictKeys n fields) i = if 1 ≤ i ∧ i ≤ n then rendered fields i else none := by
  unfold rendered restrictKeys
  by_cases h : 1 ≤ i ∧ i ≤ n
  · rw [if_pos h, if_pos (by omega)]
  · rw [if_neg h, if_neg (by omega)]
    rfl

theorem bytesAt_calls {V : Type} (sb : Bool) (fields : FieldMap V) (p : Nat) (st : EncState) :
    (bytesAt sb fields p st).1.calls = st.calls
      ∨ (bytesAt sb fields p st).1.calls = st.calls ++ [p + 1] := by
  rw [bytesAt_eq]
  cases fields ((p + 1 : Nat) : Int) with
  | none =>
    left
    simp only
    split <;> rfl
  | some info =>
    simp only
    cases info.Field.Bytes info.val info.Encode info.LenEncode info.Length with
    | error e => exact Or.inr rfl
    | ok d => exact Or.inr rfl

theorem forEach_bytesAt_calls {V : Type} (sb : Bool) (fields : FieldMap V) (n : Nat)
    (st : EncState) (h : ∀ c ∈ st.calls, 1 ≤ c ∧ c ≤ n) :
    ∀ c ∈ (forEach (bytesAt sb fields) (List.range n) st).1.calls, 1 ≤ c ∧ c ≤ n := by
  have hinv := forEach_invariant (fun s : EncState => ∀ c ∈ s.calls, 1 ≤ c ∧ c ≤ n)
    (fun _ => True) (bytesAt sb fields) (List.range n)
    (by
      intro p hp s hs
      have hp2 := List.mem_range.mp hp
      refine ⟨?_, fun _ _ => trivial⟩
      rcases bytesAt_calls sb fields p s with g | g
      · rw [g]
        exact hs
      · rw [g]
        intro c hc
        rcases List.mem_append.mp hc with hc | hc
        · exact hs c hc
        · simp only [List.mem_singleton] at hc
          omega)
    st h
  exact hinv.1

theorem encodeMti_congr {V : Type} (env : Env) (m m2 : Message V) (hM : m2.Mti = m.Mti)
    (hE : m2.MtiEncode = m.MtiEncode) : encodeMti env m2 = encodeMti env m := by
  unfold encodeMti
  rw [hM, hE]

/-- The codec invocations of a run of `Bytes` are for field numbers within the bitmap
range. -/
theorem BytesRun_calls_range {V : Type} (env : Env) (m : Message V) :
    ∀ c ∈ (BytesRun.run env m).calls, 1 ≤ c ∧ c ≤ 8 * byteCount m.SecondBitmap := by
  cases hmti : encodeMti env m with
  | panic s =>
    unfold BytesRun.run
    rw [hmti]
    intro c hc
    simp at hc
  | error e =>
    unfold BytesRun.run
    rw [hmti]
    intro c hc
    simp at hc
  | ok mtiBytes =>
    cases hf : parseFields env m.Data with
    | panic s =>
      unfold BytesRun.run
      rw [hmti, hf]
      intro c hc
      simp at hc
    | error e =>
      unfold BytesRun.run
      rw [hmti, hf]
      intro c hc
      simp at hc
    | ok fields =>
      rw [run_of_loop env m mtiBytes fields hmti hf]
      have hc := forEach_bytesAt_calls m.SecondBitmap fields (byteCount m.SecondBitmap * 8)
        ⟨List.replicate (byteCount m.SecondBitmap) 0, [], []⟩ (by simp)
      rw [Nat.mul_comm 8]
      generalize forEach (bytesAt m.SecondBitmap fields)
          (List.range (byteCount m.SecondBitmap * 8))
          ⟨List.replicate (byteCount m.SecondBitmap) 0, [], []⟩ = r at hc ⊢
      obtain ⟨st, _ | e⟩ := r
      · exact hc
      · exact hc

theorem BytesRun_congr {V : Type} (env : Env) (m m2 : Message V) (fields fields2 : FieldMap V)
    (hM : m2.Mti = m.Mti) (hE : m2.MtiEncode = m.MtiEncode)
    (hS : m2.SecondBitmap = m.SecondBitmap)
    (hf : parseFields env m.Data = .ok fields) (hf2 : parseFields env m2.Data = .ok fields2)
    (hagree : ∀ i ∈ List.range' 1 (8 * byteCount m.SecondBitmap),
      rendered fields2 i = rendered fields i) :
    BytesRun.run env m2 = BytesRun.run env m := by
  have hmm := encodeMti_congr env m m2 hM hE
  cases hmti : encodeMti env m with
  | panic s =>
    unfold BytesRun.run
    rw [hmm, hmti]
  | error e =>
    unfold BytesRun.run
    rw [hmm, hmti]
  | ok mtiBytes =>
    rw [run_of_loop env m mtiBytes fields hmti hf,
      run_of_loop env m2 mtiBytes fields2 (by rw [hmm, hmti]) hf2, hS]
    rw [forEach_congr (bytesAt m.SecondBitmap fields2) (bytesAt m.SecondBitmap fields)]
    intro p hp s
    apply bytesAt_rendered
    apply hagree
    rw [List.mem_range'_1]
    have := List.mem_range.mp hp
    omega

/-- C20: fields outside the bitmap range are dropped silently on encode. Two messages
with the same MTI settings and `SecondBitmap` whose field maps agree on the keys 1..64
(`SecondBitmap` false) or 1..128 (true) give the same run of `Bytes`: the same result,
the same raw bitmap and the same codec invocations; this holds in particular for the map
restricted to those keys. Every codec invocation is for a key in that range, so a field
with another index is never rendered, and the raw bitmap of a completed run has 8 or 16
bytes as `SecondBitmap` says. -/
theorem Bytes_ignores_out_of_range {V : Type} (env : Env) (m m2 : Message V)
    (fields fields2 : FieldMap V)
    (hM : m2.Mti = m.Mti) (hE : m2.MtiEncode = m.MtiEncode)
    (hS : m2.SecondBitmap = m.SecondBitmap)
    (hf : parseFields env m.Data = .ok fields) (hf2 : parseFields env m2.Data = .ok fields2)
    (hagree : ∀ i ∈ List.range' 1 (8 * byteCount m.SecondBitmap),
      rendered fields2 i = rendered fields i) :
    BytesRun.run env m2 = BytesRun.run env m
      ∧ Bytes env m2 = Bytes env m
      ∧ (∀ st : EncState,
          forEach (bytesAt m.SecondBitmap
              (restrictKeys (8 * byteCount m.SecondBitmap) fields))
            (List.range (byteCount m.SecondBitmap * 8)) st
          = forEach (bytesAt m.SecondBitmap fields)
              (List.range (byteCount m.SecondBitmap * 8)) st)
      ∧ (∀ c ∈ (BytesRun.run env m2).calls, 1 ≤ c ∧ c ≤ 8 * byteCount m.SecondBitmap)
      ∧ ((BytesRun.run env m2).out.isOk = true →
          (BytesRun.run env m2).bitmap.length = byteCount m.SecondBitmap) := by
  have hrun := BytesRun_congr env m m2 fields fields2 hM hE hS hf hf2 hagree
  refine ⟨hrun, ?_, ?_, ?_, ?_⟩
  · unfold Bytes
    rw [hrun]
  · intro st
    apply forEach_congr
    intro p hp s
    apply bytesAt_rendered
    rw [rendered_restrictKeys, if_pos]
    have := List.mem_range.mp hp
    omega
  · rw [hrun]
    exact BytesRun_calls_range env m
  · rw [hrun]
    intro hok
    obtain ⟨mtiBytes, hmti⟩ := encodeMti_of_run env m hok
    have hc := run_done env m mtiBytes fields hmti hf hok
    rw [run_ok env m mtiBytes fields hmti hf hc]
    simp [bitmapOf]

set_option maxRecDepth 8000 in
theorem Bytes_ignores_out_of_range_witness :
    (isKey (fieldsOf exampleEnv msgWide.Data) 70 = true
        ∧ ((fieldsOf exampleEnv msgWide.Data) 0).isSome = true
        ∧ ((fieldsOf exampleEnv msgWide.Data) (-3)).isSome = true
        ∧ encodes (fieldsOf exampleEnv msgWide.Data) 0 = false
        ∧ encodes (fieldsOf exampleEnv msgWide.Data) 200 = false)
      ∧ Bytes exampleEnv msg2 = .ok (str "02004020000000000000ABxyz")
      ∧ (BytesRun.run exampleEnv msg2).calls = [2, 11]
      ∧ BytesRun.run exampleEnv msgWide = BytesRun.run exampleEnv msg2
      ∧ Bytes exampleEnv msgWide = Bytes exampleEnv msg2 :=
  ⟨by decide, by decide, by decide,
    (Bytes_ignores_out_of_range exampleEnv msg2 msgWide (fieldsOf exampleEnv msg2.Data)
      (fieldsOf exampleEnv msgWide.Data) rfl rfl rfl rfl rfl
      (by
        intro i hi
        rw [List.mem_range'_1] at hi
        have h8 : 8 * byteCount msg2.SecondBitmap = 64 := rfl
        rw [h8] at hi
        obtain ⟨ha, hb⟩ := hi
        interval_cases i <;> rfl)).1,
    (Bytes_ignores_out_of_range exampleEnv msg2 msgWide (fieldsOf exampleEnv msg2.Data)
      (fieldsOf exampleEnv msgWide.Data) rfl rfl rfl rfl rfl
      (by
        intro i hi
        rw [List.mem_range'_1] at hi
        have h8 : 8 * byteCount msg2.SecondBitmap = 64 := rfl
        rw [h8] at hi
        obtain ⟨ha, hb⟩ := hi
        interval_cases i <;> rfl)).2.1⟩

/-! ## `Message.Load`: the offset invariant -/

/-- One iteration of `Load` keeps the offset invariant and does not panic, when the
codecs consume no more than the buffer they are given. -/
theorem loadAt_offsetInv {V : Type} (fields : FieldMap V) (raw bitByte : List Nat) (b p : Nat)
    (st : LoadState V) (hlen : (raw.length : Int) < 2 ^ 63)
    (hcodec : ∀ (i : Int) (f : fieldInfo V) (v : V) (buf : List Nat) (l : Int),
      fields i = some f → (f.Field.Load v buf f.Encode f.LenEncode f.Length).2 = .ok l →
        0 ≤ l ∧ l ≤ (buf.length : Int))
    (hP : offsetInv fields raw b st) :
    offsetInv fields raw b (loadAt fields raw bitByte p st).1
      ∧ ∀ e, (loadAt fields raw bitByte p st).2 = some e → ∀ s, e ≠ .panic s := by
  obtain ⟨hb1, hb2, hsum, hcalls, hpres⟩ := hP
  by_cases hskip : bitSet bitByte (p + 1) = false ∨ p = 0
  · rw [loadAt_skip _ _ _ _ _ hskip]
    exact ⟨⟨hb1, hb2, hsum, hcalls, hpres⟩, fun e he => by simp at he⟩
  · have hb : bitSet bitByte (p + 1) = true := by
      cases h : bitSet bitByte (p + 1)
      · exact absurd (Or.inl h) hskip
      · rfl
    have hp : p ≠ 0 := fun h => hskip (Or.inr h)
    rw [loadAt_marked _ _ _ _ _ hb hp]
    cases hf : fields ((p + 1 : Nat) : Int) with
    | none =>
      refine ⟨⟨hb1, hb2, hsum, hcalls, ?_⟩, ?_⟩
      · intro i hi hk
        rcases List.mem_append.mp hi with hi | hi
        · exact hpres i hi hk
        · simp only [List.mem_singleton] at hi
          subst hi
          unfold isKey at hk
          rw [hf] at hk
          simp at hk
      · intro e he s
        simp only [Option.some.injEq] at he
        rw [← he]
        simp
    | some f =>
      simp only
      rw [if_neg (by omega), if_neg (by omega)]
      have hdrop : ((raw.drop st.start.toNat).length : Int) = raw.length - st.start := by
        rw [List.length_drop]
        omega
      have hpres2 : ∀ i ∈ st.present ++ [p + 1], isKey fields i = true →
          i ∈ (st.calls ++ [(p + 1, st.start)]).map Prod.fst := by
        intro i hi hk
        rw [List.map_append, List.mem_append]
        rcases List.mem_append.mp hi with hi | hi
        · exact Or.inl (hpres i hi hk)
        · right
          simpa using hi
      have hcalls2 : ∀ c ∈ st.calls ++ [(p + 1, st.start)],
          (b : Int) ≤ c.2 ∧ c.2 ≤ (raw.length : Int) := by
        intro c hc
        rcases List.mem_append.mp hc with hc | hc
        · exact hcalls c hc
        · simp only [List.mem_singleton] at hc
          subst hc
          exact ⟨hb1, hb2⟩
      cases hl : (f.Field.Load f.val (raw.drop st.start.toNat) f.Encode f.LenEncode f.Length).2 with
      | error e =>
        simp only
        have hcons : consumed fields raw (p + 1, st.start) = 0 := by
          unfold consumed
          simp only
          rw [hf]
          simp only
          rw [hl]
        refine ⟨⟨hb1, hb2, ?_, hcalls2, hpres2⟩, ?_⟩
        · show st.start = _
          rw [List.map_append, List.sum_append, List.map_singleton, List.sum_singleton, hcons]
          omega
        · intro e2 he s
          simp only [Option.some.injEq] at he
          rw [← he]
          simp
      | ok l =>
        simp only
        obtain ⟨hl1, hl2⟩ := hcodec _ f f.val _ l hf hl
        rw [hdrop] at hl2
        have hcons : consumed fields raw (p + 1, st.start) = l := by
          unfold consumed
          simp only
          rw [hf]
          simp only
          rw [hl]
        have hw : wrapInt (st.start + l) = st.start + l := by
          apply wrapInt_eq
          · have : (0 : Int) ≤ b := Int.ofNat_nonneg b
            have h63 : (0 : Int) < 2 ^ 63 := by norm_num
            omega
          · omega
        refine ⟨⟨?_, ?_, ?_, hcalls2, hpres2⟩, ?_⟩
        · show (b : Int) ≤ wrapInt (st.start + l)
          rw [hw]
          omega
        · show wrapInt (st.start + l) ≤ _
          rw [hw]
          omega
        · show wrapInt (st.start + l) = _
          rw [hw, List.map_append, List.sum_append, List.map_singleton, List.sum_singleton, hcons]
          omega
        · intro e2 he
          simp at he

theorem forEach_offsetInv {V : Type} (fields : FieldMap V) (raw bitByte : List Nat) (b : Nat)
    (ps : List Nat) (st : LoadState V) (hlen : (raw.length : Int) < 2 ^ 63)
    (hcodec : ∀ (i : Int) (f : fieldInfo V) (v : V) (buf : List Nat) (l : Int),
      fields i = some f → (f.Field.Load v buf f.Encode f.LenEncode f.Length).2 = .ok l →
        0 ≤ l ∧ l ≤ (buf.length : Int))
    (hP : offsetInv fields raw b st) :
    offsetInv fields raw b (forEach (loadAt fields raw bitByte) ps st).1
      ∧ ∀ e, (forEach (loadAt fields raw bitByte) ps st).2 = some e → ∀ s, e ≠ .panic s :=
  forEach_invariant (offsetInv fields raw b) (fun e => ∀ s, e ≠ .panic s)
    (loadAt fields raw bitByte) ps
    (fun p _ s hs => loadAt_offsetInv fields raw bitByte b p s hlen hcodec hs) st hP

theorem fixedText_Load_bound (v buf : List Nat) (e le n l : Int)
    (h : (fixedText.Load v buf e le n).2 = .ok l) : 0 ≤ l ∧ l ≤ (buf.length : Int) := by
  unfold fixedText at h
  simp only at h
  split_ifs at h with hc
  simp only [Except.ok.injEq] at h
  omega

/-- The codecs of `msgRecv` consume no more than the buffer they are given. -/
theorem fieldsRecv_Load_bound (i : Int) (f : fieldInfo (List Nat)) (v buf : List Nat) (l : Int)
    (hf : fieldsRecv i = some f)
    (hl : (f.Field.Load v buf f.Encode f.LenEncode f.Length).2 = .ok l) :
    0 ≤ l ∧ l ≤ (buf.length : Int) := by
  unfold fieldsRecv at hf
  split_ifs at hf
  · simp only [Option.some.injEq] at hf
    subst hf
    exact fixedText_Load_bound v buf _ _ _ l hl
  · simp only [Option.some.injEq] at hf
    subst hf
    exact fixedText_Load_bound v buf _ _ _ l hl
  · simp only [Option.some.injEq] at hf
    subst hf
    exact fixedText_Load_bound v buf _ _ _ l hl

/-- The offset invariant of a run of `Load` that has got past the bitmap region. -/
theorem LoadRun_offsetInv {V : Type} (env : Env) (m : Message V) (raw spare : List Nat)
    (h : LoadHeader V) (hh : loadHeader env m raw spare = .ok h)
    (hfull : h.start ≤ raw.length) (hlen : raw.length < 2 ^ 63)
    (hcodec : ∀ (i : Int) (f : fieldInfo V) (v : V) (buf : List Nat) (l : Int),
      h.fields i = some f → (f.Field.Load v buf f.Encode f.LenEncode f.Length).2 = .ok l →
        0 ≤ l ∧ l ≤ (buf.length : Int)) :
    (∀ k : Nat, offsetInv h.fields raw h.start
        (forEach (loadAt h.fields raw h.bitByte) (List.range k) ⟨h.slots, h.start, [], []⟩).1)
      ∧ (h.start : Int) ≤ (LoadRun.run env m raw spare).start
      ∧ (LoadRun.run env m raw spare).start ≤ (raw.length : Int)
      ∧ (LoadRun.run env m raw spare).start
          = (h.start : Int) + ((LoadRun.run env m raw spare).calls.map (consumed h.fields raw)).sum
      ∧ (∀ c ∈ (LoadRun.run env m raw spare).calls,
          (h.start : Int) ≤ c.2 ∧ c.2 ≤ (raw.length : Int))
      ∧ (∀ i ∈ (LoadRun.run env m raw spare).present, isKey h.fields i = true →
          i ∈ (LoadRun.run env m raw spare).calls.map Prod.fst)
      ∧ ∀ s, Load env m raw spare ≠ .panic s := by
  have hlen2 : (raw.length : Int) < 2 ^ 63 := by exact_mod_cast hlen
  have h0 : offsetInv h.fields raw h.start (⟨h.slots, h.start, [], []⟩ : LoadState V) := by
    refine ⟨le_refl _, ?_, by simp, by simp, by simp⟩
    show (h.start : Int) ≤ (raw.length : Int)
    exact_mod_cast hfull
  have hall : ∀ ps : List Nat, _ := fun ps =>
    forEach_offsetInv h.fields raw h.bitByte h.start ps ⟨h.slots, h.start, [], []⟩ hlen2 hcodec h0
  obtain ⟨g1, g2, g3, g4⟩ := LoadRun_ghost env m raw spare h hh
  obtain ⟨⟨i1, i2, i3, i4, i5⟩, hq⟩ := hall (List.range (h.byteNum / 2 * 8))
  refine ⟨fun k => (hall (List.range k)).1, ?_, ?_, ?_, ?_, ?_, ?_⟩
  · rw [g3]
    exact i1
  · rw [g3]
    exact i2
  · rw [g3, g2]
    exact i3
  · rw [g2]
    exact i4
  · rw [g1, g2]
    exact i5
  · intro s
    unfold Load
    rw [g4]
    cases he : (forEach (loadAt h.fields raw h.bitByte) (List.range (h.byteNum / 2 * 8))
        ⟨h.slots, h.start, [], []⟩).2 with
    | none => simp
    | some e =>
      have := hq e he
      cases e with
      | error e1 => simp [Exit.toOutcome]
      | panic s1 => exact absurd rfl (this s1)

/-- C19: the offset invariant of `Load`. On an input that holds the MTI prefix and the
whole bitmap region (the MTI being there or decodable and the body parsing), with codecs
whose `Load` returns a count between 0 and the length of the buffer it was given, `Load`
gets past the bitmap region and the running offset stays between the end of the bitmap
and len(raw) after any number of iterations, every codec is invoked at such an offset
(the slice raw[offset:] is in range), every marked field that the schema defines has its
codec invoked (the skip branch is not taken), the final offset is the end of the bitmap
plus the sum of the consumed counts, and `Load` does not panic. -/
theorem Load_offset_invariant {V : Type} (env : Env) (m : Message V) (raw spare : List Nat)
    (fields : FieldMap V) (c : Nat)
    (hdec : m.Mti = [] → (env.decodeMti raw m.MtiEncode).2 = none)
    (hfields : parseFields env m.Data = .ok fields)
    (hc : raw.get? (mtiLength env m) = some c)
    (hfull : mtiLength env m + (if announces c = true then 32 else 16) ≤ raw.length)
    (hlen : raw.length < 2 ^ 63)
    (hcodec : ∀ (i : Int) (f : fieldInfo V) (v : V) (buf : List Nat) (l : Int),
      fields i = some f → (f.Field.Load v buf f.Encode f.LenEncode f.Length).2 = .ok l →
        0 ≤ l ∧ l ≤ (buf.length : Int)) :
    ∃ h, loadHeader env m raw spare = .ok h
      ∧ h.start = mtiLength env m + (if announces c = true then 32 else 16)
      ∧ (∀ k : Nat, offsetInv fields raw h.start
          (forEach (loadAt fields raw h.bitByte) (List.range k) ⟨h.slots, h.start, [], []⟩).1)
      ∧ (h.start : Int) ≤ (LoadRun.run env m raw spare).start
      ∧ (LoadRun.run env m raw spare).start ≤ (raw.length : Int)
      ∧ (LoadRun.run env m raw spare).start
          = (h.start : Int) + ((LoadRun.run env m raw spare).calls.map (consumed fields raw)).sum
      ∧ (∀ c ∈ (LoadRun.run env m raw spare).calls,
          (h.start : Int) ≤ c.2 ∧ c.2 ≤ (raw.length : Int))
      ∧ (∀ i ∈ (LoadRun.run env m raw spare).present, isKey fields i = true →
          i ∈ (LoadRun.run env m raw spare).calls.map Prod.fst)
      ∧ ∀ s, Load env m raw spare ≠ .panic s := by
  obtain ⟨h, hh⟩ := loadHeader_total env m raw spare fields c hdec hfields hc (by omega)
  obtain ⟨_, c2, h1, h2, h3, _, _, _, _, h8⟩ := loadHeader_ok env m raw spare h hh
  have hcc : c2 = c := by
    rw [hc] at h1
    simp only [Option.some.injEq] at h1
    exact h1.symm
  subst hcc
  have hf : h.fields = fields := by
    rw [hfields] at h8
    simp only [Outcome.ok.injEq] at h8
    exact h8.symm
  subst hf
  have hst : h.start = mtiLength env m + (if announces c2 = true then 32 else 16) := by
    rw [h3, h2]
  exact ⟨h, hh, hst,
    LoadRun_offsetInv env m raw spare h hh (by rw [hst]; exact hfull) hlen hcodec⟩

set_option maxRecDepth 8000 in
theorem Load_offset_invariant_witness :
    rawField70.length = 39
      ∧ (LoadRun.run exampleEnv msgRecv rawField70 []).calls = [(2, 36), (70, 38)]
      ∧ (LoadRun.run exampleEnv msgRecv rawField70 []).start = 36 + (2 + 1)
      ∧ ∃ h, loadHeader exampleEnv msgRecv rawField70 [] = .ok h
        ∧ h.start = mtiLength exampleEnv msgRecv + (if announces 67 = true then 32 else 16)
        ∧ (∀ k : Nat, offsetInv fieldsRecv rawField70 h.start
            (forEach (loadAt fieldsRecv rawField70 h.bitByte) (List.range k)
              ⟨h.slots, h.start, [], []⟩).1)
        ∧ (h.start : Int) ≤ (LoadRun.run exampleEnv msgRecv rawField70 []).start
        ∧ (LoadRun.run exampleEnv msgRecv rawField70 []).start ≤ (rawField70.length : Int)
        ∧ (LoadRun.run exampleEnv msgRecv rawField70 []).start
            = (h.start : Int) + ((LoadRun.run exampleEnv msgRecv rawField70 []).calls.map
                (consumed fieldsRecv rawField70)).sum
        ∧ (∀ c ∈ (LoadRun.run exampleEnv msgRecv rawField70 []).calls,
            (h.start : Int) ≤ c.2 ∧ c.2 ≤ (rawField70.length : Int))
        ∧ (∀ i ∈ (LoadRun.run exampleEnv msgRecv rawField70 []).present,
            isKey fieldsRecv i = true →
              i ∈ (LoadRun.run exampleEnv msgRecv rawField70 []).calls.map Prod.fst)
        ∧ ∀ s, Load exampleEnv msgRecv rawField70 [] ≠ .panic s :=
  ⟨by decide, by decide, by decide,
    Load_offset_invariant exampleEnv msgRecv rawField70 [] fieldsRecv 67
      (by decide) rfl (by decide) (by decide) (by decide) fieldsRecv_Load_bound⟩

end Iso8583
